import Mathlib

/-!
# Block request manager (`src/net/requestmanager.cpp`)

A shallow embedding of the request manager of the node: the in-flight ledger
(`mapBlocksInFlight`, `mapNumBlocksInFlight`), the per-peer state
(`mapNodeState`), `LastCommonAncestor` and `FindNextBlocksToDownload`.

Conventions of the embedding.

* A `CBlockIndex *` is an `Option Nat`: `none` is the null pointer, `some i` is
  a handle that the block index dereferences.
* A `std::map` is a list of key/value pairs kept in key order by the writing
  operations; `mapFind`, `mapErase`, `mapAssign` and `mapEmplace` are `find`,
  `erase`, `operator[] =` and `emplace`.
* `int16_t` (the type of the per-peer counter) is `Fin 65536`, the residue of
  the value modulo `2 ^ 16`; `int16_t.toInt` reads it as a signed number.
* A function that can dereference a null pointer, fail an `assert` or loop
  returns an `Option`; `none` stands for "no result".  Loops take their fuel as
  an explicit argument.
* Arithmetic on `int` heights is done in `Int`: signed overflow is undefined
  behaviour and outside the embedding.  Conversions between unsigned and signed
  types are written out (`toInt32`).
-/

namespace RequestManager

/-! ## Basic types -/

/-- A block or transaction hash; `0` is the null hash (`IsNull`). -/
abbrev uint256 := Nat

/-- Peer identifier. -/
abbrev NodeId := Int

/-- A `CBlockIndex *`. -/
abbrev BlockPtr := Option Nat

/-- The type `int16_t` of the counters in `mapNumBlocksInFlight`, kept as the
residue modulo `2 ^ 16`; `+` and `-` on it wrap as the narrowing store does. -/
abbrev int16_t := Fin 65536

/-- Signed reading of an `int16_t`. -/
def int16_t.toInt (c : int16_t) : Int :=
  if c.val < 32768 then (c.val : Int) else (c.val : Int) - 65536

/-! ## `std::map` as a key-ordered association list -/

section StdMap

variable {κ : Type} {β : Type}

/-- The value stored under `k` (`find`, `count`). -/
def mapFind [DecidableEq κ] : List (κ × β) → κ → Option β
  | [], _ => none
  | (k', v) :: t, k => if k' = k then some v else mapFind t k

/-- Removal of the entry with key `k` (`erase`); keys are unique in a
`std::map`, so removing every pair with that key removes that entry. -/
def mapErase [DecidableEq κ] (m : List (κ × β)) (k : κ) : List (κ × β) :=
  m.filter (fun e => decide (e.1 ≠ k))

/-- The assignment `m[k] = v`: replaces the value under `k` or inserts the pair
at its place in key order. -/
def mapAssign [DecidableEq κ] [LT κ] [DecidableRel (fun (a b : κ) => a < b)] :
    List (κ × β) → κ → β → List (κ × β)
  | [], k, v => [(k, v)]
  | (k', v') :: t, k, v =>
    if k < k' then (k, v) :: (k', v') :: t
    else if k = k' then (k, v) :: t
    else (k', v') :: mapAssign t k v

/-- The insertion `emplace(k, v)`: does nothing when `k` is already a key. -/
def mapEmplace [DecidableEq κ] [LT κ] [DecidableRel (fun (a b : κ) => a < b)]
    (m : List (κ × β)) (k : κ) (v : β) : List (κ × β) :=
  match mapFind m k with
  | some _ => m
  | none => mapAssign m k v

end StdMap

/-! ## Data model -/

/-- The node object handed in by the connection manager (the fields this file
reads). -/
structure CNode where
  id : NodeId
  addr : Nat
  addrName : Nat
  fOneShot : Bool
  fClient : Bool
  fDisconnect : Bool
  nStartingHeight : Int
deriving DecidableEq, Repr

/-- Per-peer sync state, built from `(addr, addrName)` with every other member
at its default. -/
structure CNodeState where
  address : Nat
  name : Nat
  pindexBestKnownBlock : BlockPtr
  hashLastUnknownBlock : uint256
  pindexLastCommonBlock : BlockPtr
  pindexBestHeaderSent : BlockPtr
  fSyncStarted : Bool
  fPreferredDownload : Bool
  fPreferHeaders : Bool
  fFirstHeadersReceived : Bool
  nFirstHeadersExpectedHeight : Int
  nSyncStartTime : Int
deriving DecidableEq, Repr

/-- The constructor `CNodeState(addr, addrName)`. -/
def CNodeState.init (addr addrName : Nat) : CNodeState :=
  { address := addr, name := addrName,
    pindexBestKnownBlock := none, hashLastUnknownBlock := 0,
    pindexLastCommonBlock := none, pindexBestHeaderSent := none,
    fSyncStarted := false, fPreferredDownload := false, fPreferHeaders := false,
    fFirstHeadersReceived := false, nFirstHeadersExpectedHeight := 0,
    nSyncStartTime := 0 }

/-- An in-flight request: `{hash, pindex, pindex != nullptr}`. -/
structure QueuedBlock where
  hash : uint256
  pindex : BlockPtr
  haveIndex : Bool
deriving DecidableEq, Repr

/-- A transaction: its id and its serialized bytes. -/
structure CTransaction where
  id : uint256
  bytes : Nat
deriving DecidableEq, Repr

/-- The members of `CRequestManager`. -/
structure CRequestManager where
  mapNodeState : List (NodeId × CNodeState)
  mapBlocksInFlight : List (uint256 × (NodeId × QueuedBlock))
  mapNumBlocksInFlight : List (NodeId × int16_t)
  mapRelay : List (uint256 × CTransaction)
  vRelayExpiration : List (Int × uint256)
deriving DecidableEq, Repr

/-- The request manager right after construction. -/
def CRequestManager.empty : CRequestManager :=
  { mapNodeState := [], mapBlocksInFlight := [], mapNumBlocksInFlight := [],
    mapRelay := [], vRelayExpiration := [] }

/-! ## The in-flight ledger -/

/-- `CRequestManager::AlreadyAskedForBlock`. -/
def AlreadyAskedForBlock (s : CRequestManager) (hash : uint256) : Bool :=
  (mapFind s.mapBlocksInFlight hash).isSome

/-- `CRequestManager::InitializeNodeState`: both insertions keep an existing
entry. -/
def InitializeNodeState (s : CRequestManager) (pnode : CNode) : CRequestManager :=
  { s with
    mapNodeState := mapEmplace s.mapNodeState pnode.id (CNodeState.init pnode.addr pnode.addrName)
    mapNumBlocksInFlight := mapEmplace s.mapNumBlocksInFlight pnode.id 0 }

/-- `CRequestManager::RemoveNodeState`. -/
def RemoveNodeState (s : CRequestManager) (id : NodeId) : CRequestManager :=
  { s with mapNodeState := mapErase s.mapNodeState id }

/-- The read `mapNumBlocksInFlight[id]`: a missing counter reads as `0`. -/
def numBlocksInFlight (s : CRequestManager) (id : NodeId) : int16_t :=
  (mapFind s.mapNumBlocksInFlight id).getD 0

/-- `CRequestManager::MarkBlockAsReceived`: the returned flag tells whether the
hash was in flight. `mapNumBlocksInFlight[owner] -= 1` creates the counter when
the owner has none. -/
def MarkBlockAsReceived (s : CRequestManager) (hash : uint256) : Bool × CRequestManager :=
  match mapFind s.mapBlocksInFlight hash with
  | some (owner, _) =>
    (true,
      { s with
        mapNumBlocksInFlight :=
          mapAssign s.mapNumBlocksInFlight owner (numBlocksInFlight s owner - 1)
        mapBlocksInFlight := mapErase s.mapBlocksInFlight hash })
  | none => (false, s)

/-- `CRequestManager::MarkBlockAsInFlight`. -/
def MarkBlockAsInFlight (s : CRequestManager) (nodeid : NodeId) (hash : uint256)
    (pindex : BlockPtr) : CRequestManager :=
  let s1 := (MarkBlockAsReceived s hash).2
  let newentry : QueuedBlock := { hash := hash, pindex := pindex, haveIndex := pindex.isSome }
  let s2 := { s1 with mapBlocksInFlight := mapAssign s1.mapBlocksInFlight hash (nodeid, newentry) }
  match mapFind s2.mapNumBlocksInFlight nodeid with
  | some c => { s2 with mapNumBlocksInFlight := mapAssign s2.mapNumBlocksInFlight nodeid (c + 1) }
  | none => s2

/-- `CRequestManager::IsBlockInFlight`. -/
def IsBlockInFlight (s : CRequestManager) (hash : uint256) : Bool :=
  (mapFind s.mapBlocksInFlight hash).isSome

/-- The peer to which `hash` is in flight, if any. -/
def inFlightOwner (s : CRequestManager) (hash : uint256) : Option NodeId :=
  (mapFind s.mapBlocksInFlight hash).map Prod.fst

/-- Number of ledger entries whose owner is `p`. -/
def ownedCount (s : CRequestManager) (p : NodeId) : Nat :=
  (s.mapBlocksInFlight.filter (fun e => decide (e.2.1 = p))).length

/-- One call on the ledger interface. -/
inductive LedgerOp where
  | initNode (pnode : CNode)
  | removeNode (id : NodeId)
  | markInFlight (nodeid : NodeId) (hash : uint256) (pindex : BlockPtr)
  | markReceived (hash : uint256)
deriving DecidableEq, Repr

/-- Effect of one call. -/
def LedgerOp.apply (s : CRequestManager) : LedgerOp → CRequestManager
  | .initNode pnode => InitializeNodeState s pnode
  | .removeNode id => RemoveNodeState s id
  | .markInFlight nodeid hash pindex => MarkBlockAsInFlight s nodeid hash pindex
  | .markReceived hash => (MarkBlockAsReceived s hash).2

/-- Effect of a sequence of calls, first call first. -/
def runOps (s : CRequestManager) (ops : List LedgerOp) : CRequestManager :=
  ops.foldl LedgerOp.apply s

/-- Every `markInFlight` of the sequence names a peer that is in `known` or was
initialized by an earlier call of the sequence. -/
def marksInitialized : List NodeId → List LedgerOp → Bool
  | _, [] => true
  | known, .initNode pnode :: ops => marksInitialized (pnode.id :: known) ops
  | known, .markInFlight nodeid _ _ :: ops => decide (nodeid ∈ known) && marksInitialized known ops
  | known, _ :: ops => marksInitialized known ops

/-! ## Block index and active chain -/

/-- A block index entry, with the members this file reads. `nStatus` is seen
through the two tests made of it: `IsValid(BLOCK_VALID_TREE)` and
`nStatus & BLOCK_HAVE_DATA`; `nTime` is what `GetBlockTime()` returns. -/
structure CBlockIndex where
  hashBlock : uint256
  pprev : BlockPtr
  nHeight : Int
  nChainWork : Nat
  nChainTx : Nat
  validTree : Bool
  haveData : Bool
  nTime : Int := 0
deriving DecidableEq, Repr

/-- What `pnetMan->getChainActive()` gives access to: the dereference of a
block handle, `LookupBlockIndex`, the vector of `chainActive` (entry `h` is the
block of the active chain at height `h`) and `pindexBestHeader`. -/
structure CChainManager where
  index : Nat → CBlockIndex
  LookupBlockIndex : uint256 → BlockPtr
  vChain : List Nat
  pindexBestHeader : BlockPtr

/-- Modelled from the spec: `chainActive.Tip()` (class `CChain` is declared
outside this file), the last block of the active chain, null when it is empty. -/
def CChainManager.Tip (cm : CChainManager) : BlockPtr := cm.vChain.getLast?

/-- Modelled from the spec: `chainActive.Height()` (class `CChain` is declared
outside this file), the height of the tip, `-1` for an empty chain. -/
def CChainManager.Height (cm : CChainManager) : Int := (cm.vChain.length : Int) - 1

/-- Modelled from the spec: `chainActive[height]` (class `CChain` is declared
outside this file), null when the height is outside the chain. -/
def CChainManager.chainAt (cm : CChainManager) (height : Int) : BlockPtr :=
  if height < 0 ∨ (cm.vChain.length : Int) ≤ height then none else cm.vChain.get? height.toNat

/-- Modelled from the spec: `chainActive.Contains(pindex)` (class `CChain` is
declared outside this file): the chain holds this very block at its height. -/
def CChainManager.Contains (cm : CChainManager) (p : Nat) : Bool :=
  decide (cm.chainAt (cm.index p).nHeight = some p)

/-- The block reached from `p` by following `pprev` `n` times (null once the
links run out). -/
def walkBack (index : Nat → CBlockIndex) : Nat → BlockPtr → BlockPtr
  | 0, p => p
  | _ + 1, none => none
  | n + 1, some i => walkBack index n (index i).pprev

/-- Modelled from the spec: `CBlockIndex::GetAncestor(height)` (defined outside
this file), the ancestor of the block at the given height, found here by
following `pprev` down from the block's own height; null for a height above the
block's or below zero. -/
def GetAncestor (index : Nat → CBlockIndex) (p : Nat) (height : Int) : BlockPtr :=
  if height > (index p).nHeight ∨ height < 0 then none
  else walkBack index ((index p).nHeight - height).toNat (some p)

/-- The loop `while (pa != pb && pa && pb)` of `LastCommonAncestor` followed by
`assert(pa == pb); return pa;`. No result when the assertion fails or the fuel
runs out. -/
def lcaLoop (index : Nat → CBlockIndex) : Nat → BlockPtr → BlockPtr → Option BlockPtr
  | _, none, none => some none
  | _, none, some _ => none
  | _, some _, none => none
  | 0, some a, some b => if a = b then some (some a) else none
  | fuel + 1, some a, some b =>
    if a = b then some (some a) else lcaLoop index fuel (index a).pprev (index b).pprev

/-- `LastCommonAncestor(pa, pb)`, both arguments non-null. -/
def LastCommonAncestor (index : Nat → CBlockIndex) (fuel : Nat) (pa pb : Nat) :
    Option BlockPtr :=
  if (index pa).nHeight > (index pb).nHeight then
    lcaLoop index fuel (GetAncestor index pa (index pb).nHeight) (some pb)
  else if (index pb).nHeight > (index pa).nHeight then
    lcaLoop index fuel (some pa) (GetAncestor index pb (index pa).nHeight)
  else lcaLoop index fuel (some pa) (some pb)

/-! ## Block availability -/

/-- The body shared by `ProcessBlockAvailability` and
`_ProcessBlockAvailability`, on the peer's state. -/
def processAvailability (cm : CChainManager) (state : CNodeState) : CNodeState :=
  if state.hashLastUnknownBlock ≠ 0 then
    match cm.LookupBlockIndex state.hashLastUnknownBlock with
    | some pindex =>
      if (cm.index pindex).nChainWork > 0 then
        let state1 :=
          match state.pindexBestKnownBlock with
          | none => { state with pindexBestKnownBlock := some pindex }
          | some best =>
            if (cm.index pindex).nChainWork ≥ (cm.index best).nChainWork then
              { state with pindexBestKnownBlock := some pindex }
            else state
        { state1 with hashLastUnknownBlock := 0 }
      else state
    | none => state
  else state

/-- `CRequestManager::ProcessBlockAvailability`; no result when the peer has no
state (`assert(iter != mapNodeState.end())`). -/
def ProcessBlockAvailability (cm : CChainManager) (s : CRequestManager) (nodeid : NodeId) :
    Option CRequestManager :=
  match mapFind s.mapNodeState nodeid with
  | none => none
  | some state =>
    some { s with mapNodeState := mapAssign s.mapNodeState nodeid (processAvailability cm state) }

/-! ## `FindNextBlocksToDownload` -/

/-- Conversion of an integer to `int` (32 bits, two's complement). -/
def toInt32 (x : Int) : Int := (x + 2147483648) % 4294967296 - 2147483648

/-- The value of `std::max<int>(count - vBlocks.size(), 128)`: the difference
is taken in `size_t` (modulo `2 ^ 64`) and then converted to `int`. -/
def fetchFloor (count size : Nat) : Int :=
  max (toInt32 (((count : Int) - (size : Int)) % 18446744073709551616)) 128

/-- The content of `vToFetch` after the backward fill: `k + 1` blocks ending in
`p`, each the `pprev` of the next, put in front of `acc`. No result when a null
pointer gets into the vector (it would be dereferenced). -/
def backfill (index : Nat → CBlockIndex) : Nat → Nat → List Nat → Option (List Nat)
  | 0, p, acc => some (p :: acc)
  | k + 1, p, acc =>
    match (index p).pprev with
    | none => none
    | some q => backfill index k q (p :: acc)

/-- The part of the peer state and of the arguments that the walk writes. -/
structure WalkState where
  pindexLastCommonBlock : BlockPtr
  vBlocks : List Nat
deriving DecidableEq, Repr

/-- The loop `for (CBlockIndex *pindex : vToFetch)`. The flag of the result is
`true` when the loop left through a `return`. -/
def scanBatch (cm : CChainManager) (s : CRequestManager) (count : Nat) (nWindowEnd : Int) :
    List Nat → WalkState → Bool × WalkState
  | [], st => (false, st)
  | pindex :: rest, st =>
    if AlreadyAskedForBlock s (cm.index pindex).hashBlock then
      scanBatch cm s count nWindowEnd rest st
    else if !(cm.index pindex).validTree then (true, st)
    else if (cm.index pindex).haveData || cm.Contains pindex then
      if (cm.index pindex).nChainTx ≠ 0 then
        scanBatch cm s count nWindowEnd rest { st with pindexLastCommonBlock := some pindex }
      else scanBatch cm s count nWindowEnd rest st
    else if (cm.index pindex).nHeight > nWindowEnd then (true, st)
    else if (st.vBlocks ++ [pindex]).length = count then
      (true, { st with vBlocks := st.vBlocks ++ [pindex] })
    else scanBatch cm s count nWindowEnd rest { st with vBlocks := st.vBlocks ++ [pindex] }

/-- The loop `while (pindexWalk->nHeight < nMaxHeight)`. No result when a null
pointer is dereferenced or the fuel runs out. -/
def walkLoop (cm : CChainManager) (s : CRequestManager) (count : Nat) (best : Nat)
    (nWindowEnd nMaxHeight : Int) : Nat → Nat → WalkState → Option WalkState
  | 0, pindexWalk, st => if (cm.index pindexWalk).nHeight < nMaxHeight then none else some st
  | fuel + 1, pindexWalk, st =>
    if (cm.index pindexWalk).nHeight < nMaxHeight then
      let nToFetch : Int :=
        min (nMaxHeight - (cm.index pindexWalk).nHeight) (fetchFloor count st.vBlocks.length)
      match GetAncestor cm.index best ((cm.index pindexWalk).nHeight + nToFetch) with
      | none => none
      | some w =>
        match backfill cm.index (nToFetch.toNat - 1) w [] with
        | none => none
        | some vToFetch =>
          match scanBatch cm s count nWindowEnd vToFetch st with
          | (true, st1) => some st1
          | (false, st1) => walkLoop cm s count best nWindowEnd nMaxHeight fuel w st1
    else some st

/-- The store `state->pindexLastCommonBlock = p` into the peer's entry of
`mapNodeState`. -/
def setLastCommonBlock (s : CRequestManager) (nodeid : NodeId) (state : CNodeState)
    (p : BlockPtr) : CRequestManager :=
  { s with mapNodeState := mapAssign s.mapNodeState nodeid { state with pindexLastCommonBlock := p } }

/-- `CRequestManager::FindNextBlocksToDownload`. `BLOCK_DOWNLOAD_WINDOW` is a
constant declared outside this file and is taken as an argument. The result is
the manager and the vector `vBlocks` at the return; there is none when the run
fails an assertion, dereferences a null pointer or exhausts the fuel. -/
def FindNextBlocksToDownload (BLOCK_DOWNLOAD_WINDOW : Int) (cm : CChainManager) (fuel : Nat)
    (s : CRequestManager) (node : CNode) (count : Nat) (vBlocks : List Nat) :
    Option (CRequestManager × List Nat) :=
  if count = 0 then some (s, vBlocks)
  else
    match ProcessBlockAvailability cm s node.id with
    | none => none
    | some s1 =>
      match mapFind s1.mapNodeState node.id with
      | none => none
      | some state =>
        match state.pindexBestKnownBlock with
        | none => some (s1, vBlocks)
        | some best =>
          match cm.Tip with
          | none => none
          | some tip =>
            if (cm.index best).nChainWork < (cm.index tip).nChainWork then some (s1, vBlocks)
            else
              let seeded : BlockPtr :=
                match state.pindexLastCommonBlock with
                | none => cm.chainAt (min (cm.index best).nHeight cm.Height)
                | some l => some l
              match seeded with
              | none => none
              | some l =>
                match LastCommonAncestor cm.index fuel l best with
                | none => none
                | some none => none
                | some (some common) =>
                  if common = best then
                    some (setLastCommonBlock s1 node.id state (some common), vBlocks)
                  else
                    let nWindowEnd : Int := cm.Height + BLOCK_DOWNLOAD_WINDOW
                    let nMaxHeight : Int := min (cm.index best).nHeight (nWindowEnd + 1)
                    match walkLoop cm s1 count best nWindowEnd nMaxHeight fuel common
                        { pindexLastCommonBlock := some common, vBlocks := vBlocks } with
                    | none => none
                    | some st =>
                      some (setLastCommonBlock s1 node.id state st.pindexLastCommonBlock,
                        st.vBlocks)

/-! ## Messages and the remaining operations -/

/-- A message handed to `g_connman->PushMessage`, with the peer it goes to. A
`GETHEADERS` carries the block at which its locator is taken and the stop hash, a
`GETDATA` the hashes of its `MSG_BLOCK` inventory entries, a `TX` the transaction
sent. -/
inductive NetMsg where
  | GETHEADERS (dest : NodeId) (locatorStart : Nat) (hashStop : uint256)
  | GETDATA (dest : NodeId) (vInv : List uint256)
  | TX (dest : NodeId) (tx : CTransaction)
deriving DecidableEq, Repr

/-- The second half of `UpdateBlockAvailability`, on the peer's state: what the
announcement of `hash` does after the pending announcement was processed. -/
def updateAvailability (cm : CChainManager) (hash : uint256) (state : CNodeState) :
    CNodeState :=
  match cm.LookupBlockIndex hash with
  | some pindex =>
    if (cm.index pindex).nChainWork > 0 then
      match state.pindexBestKnownBlock with
      | none => { state with pindexBestKnownBlock := some pindex }
      | some best =>
        if (cm.index pindex).nChainWork ≥ (cm.index best).nChainWork then
          { state with pindexBestKnownBlock := some pindex }
        else state
    else { state with hashLastUnknownBlock := hash }
  | none => { state with hashLastUnknownBlock := hash }

/-- `CRequestManager::UpdateBlockAvailability`; no result when the peer has no
state (the assertions of `ProcessBlockAvailability` and of the function). -/
def UpdateBlockAvailability (cm : CChainManager) (s : CRequestManager) (nodeid : NodeId)
    (hash : uint256) : Option CRequestManager :=
  match ProcessBlockAvailability cm s nodeid with
  | none => none
  | some s1 =>
    match mapFind s1.mapNodeState nodeid with
    | none => none
    | some state =>
      some { s1 with
        mapNodeState := mapAssign s1.mapNodeState nodeid (updateAvailability cm hash state) }

/-- A flag read as a number (`fetch_sub` and `fetch_add` take the `bool`). -/
def flagValue (b : Bool) : Int := if b then 1 else 0

/-- `CRequestManager::UpdatePreferredDownload`: the manager and the global
counter `nPreferredDownload` after the call; no result when the peer has no
state. The counter is a `std::atomic<int>`, whose `fetch_sub` and `fetch_add`
wrap to 32 bits. -/
def UpdatePreferredDownload (s : CRequestManager) (nPreferredDownload : Int) (node : CNode) :
    Option (CRequestManager × Int) :=
  match mapFind s.mapNodeState node.id with
  | none => none
  | some state =>
    let n1 := toInt32 (nPreferredDownload - flagValue state.fPreferredDownload)
    let state1 := { state with fPreferredDownload := !node.fOneShot && !node.fClient }
    some ({ s with mapNodeState := mapAssign s.mapNodeState node.id state1 },
      toInt32 (n1 + flagValue state1.fPreferredDownload))

/-- The block of `StartDownload` that starts the sync: `fSyncStarted` is set and
a `GETHEADERS` is sent whose locator is taken at the predecessor of
`pindexBestHeader` when there is one and at `pindexBestHeader` otherwise, with a
null stop hash. No result when `pindexBestHeader` is null. -/
def startSync (cm : CChainManager) (s : CRequestManager) (node : CNode) (state : CNodeState) :
    Option (CRequestManager × List NetMsg) :=
  match cm.pindexBestHeader with
  | none => none
  | some pindexBestHeader =>
    let pindexStart : Nat :=
      match (cm.index pindexBestHeader).pprev with
      | some prev => prev
      | none => pindexBestHeader
    some ({ s with
        mapNodeState := mapAssign s.mapNodeState node.id { state with fSyncStarted := true } },
      [NetMsg.GETHEADERS node.id pindexStart 0])

/-- `CRequestManager::StartDownload`. The globals `nPreferredDownload`,
`fImporting`, `fReindex` and the value of `GetAdjustedTime()` are arguments. The
result is the manager and the messages pushed; there is none when the peer has
no state or a null `pindexBestHeader` is dereferenced. -/
def StartDownload (cm : CChainManager) (nPreferredDownload : Int) (fImporting fReindex : Bool)
    (adjustedTime : Int) (s : CRequestManager) (node : CNode) :
    Option (CRequestManager × List NetMsg) :=
  match mapFind s.mapNodeState node.id with
  | none => none
  | some state =>
    let fFetch : Bool :=
      state.fPreferredDownload || (decide (nPreferredDownload = 0) && !node.fOneShot)
    if !state.fSyncStarted && !node.fClient && !fImporting && !fReindex then
      if fFetch then startSync cm s node state
      else
        match cm.pindexBestHeader with
        | none => none
        | some pindexBestHeader =>
          if (cm.index pindexBestHeader).nTime > adjustedTime - 24 * 60 * 60 then
            startSync cm s node state
          else some (s, [])
    else some (s, [])

/-- `CRequestManager::SetPeerFirstHeaderReceived`; no result when the peer has
no state. -/
def SetPeerFirstHeaderReceived (cm : CChainManager) (s : CRequestManager) (node : CNode)
    (pindexLast : BlockPtr) : Option CRequestManager :=
  match mapFind s.mapNodeState node.id with
  | none => none
  | some state =>
    if !state.fFirstHeadersReceived then
      match pindexLast with
      | some last =>
        if state.nFirstHeadersExpectedHeight ≤ (cm.index last).nHeight then
          some { s with
            mapNodeState :=
              mapAssign s.mapNodeState node.id { state with fFirstHeadersReceived := true } }
        else some s
      | none => some s
    else some s

/-- `CRequestManager::GetBlocksInFlight`; no result when the peer has no counter. -/
def GetBlocksInFlight (s : CRequestManager) (nodeid : NodeId) : Option Int :=
  (mapFind s.mapNumBlocksInFlight nodeid).map int16_t.toInt

/-- The output argument of `GetNodeStateStats`. -/
structure CNodeStateStats where
  nSyncHeight : Int
  nCommonHeight : Int
  vHeightInFlight : List Int
deriving DecidableEq, Repr

/-- The height of the block a pointer refers to, `-1` for the null pointer. -/
def heightOr (cm : CChainManager) (p : BlockPtr) : Int :=
  match p with
  | some b => (cm.index b).nHeight
  | none => -1

/-- The statements of `GetNodeStateStats` after its test, for the peer state
`state`: the two heights are stored and the heights of the ledger entries of the
peer that carry an index are appended, in the key order of the ledger. -/
def fillStats (cm : CChainManager) (s : CRequestManager) (nodeid : NodeId) (state : CNodeState)
    (stats : CNodeStateStats) : CNodeStateStats :=
  { nSyncHeight := heightOr cm state.pindexBestKnownBlock
    nCommonHeight := heightOr cm state.pindexLastCommonBlock
    vHeightInFlight := stats.vHeightInFlight ++
      s.mapBlocksInFlight.filterMap (fun e =>
        if e.2.1 = nodeid then e.2.2.pindex.map (fun b => (cm.index b).nHeight) else none) }

/-- `CRequestManager::GetNodeStateStats`: the returned flag and `stats` after the
call. The test is `if (iter != mapNodeState.end()) return false;`, so a
registered peer gets `false` and untouched `stats`; for an unregistered peer the
statements after the test read the element behind `end()`, which is undefined
behaviour: no result. -/
def GetNodeStateStats (s : CRequestManager) (nodeid : NodeId) (stats : CNodeStateStats) :
    Option (Bool × CNodeStateStats) :=
  match mapFind s.mapNodeState nodeid with
  | some _ => some (false, stats)
  | none => none

/-- The loop of `TrackTxRelay` that expires old entries: while the front of
`vRelayExpiration` has a deadline before `now`, the transaction it refers to is
erased from `mapRelay` and the front is popped. -/
def expireRelay (now : Int) :
    List (uint256 × CTransaction) → List (Int × uint256) →
      List (uint256 × CTransaction) × List (Int × uint256)
  | mapRelay, [] => (mapRelay, [])
  | mapRelay, front :: rest =>
    if front.1 < now then expireRelay now (mapErase mapRelay front.2) rest
    else (mapRelay, front :: rest)

/-- `CRequestManager::TrackTxRelay`, with `now` the value of `GetTime()` during
the call. An entry of `vRelayExpiration` refers to its transaction by the key. -/
def TrackTxRelay (s : CRequestManager) (now : Int) (tx : CTransaction) : CRequestManager :=
  let expired := expireRelay now s.mapRelay s.vRelayExpiration
  match mapFind expired.1 tx.id with
  | some _ => { s with mapRelay := expired.1, vRelayExpiration := expired.2 }
  | none =>
    { s with
      mapRelay := mapAssign expired.1 tx.id tx
      vRelayExpiration := expired.2 ++ [(now + 15 * 60, tx.id)] }

/-- `CRequestManager::FindAndPushTx`: the returned flag and the messages pushed. -/
def FindAndPushTx (s : CRequestManager) (node : CNode) (hash : uint256) : Bool × List NetMsg :=
  match mapFind s.mapRelay hash with
  | some tx => (true, [NetMsg.TX node.id tx])
  | none => (false, [])

/-- The loop of `RequestNextBlocksToDownload` that marks the requested blocks. -/
def markAll (cm : CChainManager) (nodeid : NodeId) (s : CRequestManager)
    (vGetBlocks : List uint256) : CRequestManager :=
  vGetBlocks.foldl (fun st hash => MarkBlockAsInFlight st nodeid hash (cm.LookupBlockIndex hash)) s

/-- `CRequestManager::RequestNextBlocksToDownload`. The predicate
`AlreadyHaveBlock` and `BLOCK_DOWNLOAD_WINDOW` are declared outside this file
and taken as arguments. The count handed to `FindNextBlocksToDownload` is
`64 - nBlocksInFlight`, positive there. The result is the manager and the
messages pushed; there is none when the peer has no counter or
`FindNextBlocksToDownload` has none. -/
def RequestNextBlocksToDownload (BLOCK_DOWNLOAD_WINDOW : Int) (cm : CChainManager)
    (AlreadyHaveBlock : uint256 → Bool) (fuel : Nat) (s : CRequestManager) (node : CNode) :
    Option (CRequestManager × List NetMsg) :=
  match mapFind s.mapNumBlocksInFlight node.id with
  | none => none
  | some counter =>
    let nBlocksInFlight : Int := counter.toInt
    if !node.fDisconnect && !node.fClient && decide (nBlocksInFlight < 64) then
      match FindNextBlocksToDownload BLOCK_DOWNLOAD_WINDOW cm fuel s node
          (64 - nBlocksInFlight).toNat [] with
      | none => none
      | some (s1, vToDownload) =>
        let vGetBlocks : List uint256 :=
          (vToDownload.map (fun pindex => (cm.index pindex).hashBlock)).filter
            (fun hash => !AlreadyHaveBlock hash)
        if vGetBlocks.isEmpty then some (s1, [])
        else
          let vToFetchNew : List uint256 :=
            vGetBlocks.filter (fun hash => !(mapFind s1.mapBlocksInFlight hash).isSome)
          if vToFetchNew.isEmpty then some (s1, [])
          else some (markAll cm node.id s1 vToFetchNew, [NetMsg.GETDATA node.id vToFetchNew])
    else some (s, [])

/-! ## Relations on the block index -/

/-- The block `x` is `a` or one of its ancestors. -/
def IsAncestorOrEq (index : Nat → CBlockIndex) (x a : Nat) : Prop :=
  ∃ n, walkBack index n (some a) = some x

/-- The block index is well formed: heights are not negative and a block is one
higher than its predecessor (so the `pprev` links are acyclic and end after
finitely many steps). -/
structure WellFormed (index : Nat → CBlockIndex) : Prop where
  height_nonneg : ∀ p, 0 ≤ (index p).nHeight
  height_prev : ∀ p q, (index p).pprev = some q → (index p).nHeight = (index q).nHeight + 1

/-! ## Definitions used in the statements -/

/-- The invariant of the ledger along a sequence of calls: keys are unique,
the peers in `known` have a counter, and every counter is the number of entries
of its peer, as an `int16_t`. -/
structure LedgerInv (s : CRequestManager) (known : List NodeId) : Prop where
  nodup : (s.mapBlocksInFlight.map Prod.fst).Nodup
  present : ∀ id ∈ known, (mapFind s.mapNumBlocksInFlight id).isSome
  count : ∀ p, numBlocksInFlight s p = ((ownedCount s p : Nat) : int16_t)

/-- What `FindNextBlocksToDownload` requires of a block before it appends it to
`vBlocks`: not in flight, valid, neither stored nor on the active chain, and not
above the download window. -/
def Fetchable (cm : CChainManager) (s : CRequestManager) (nWindowEnd : Int) (p : Nat) : Prop :=
  AlreadyAskedForBlock s (cm.index p).hashBlock = false ∧ (cm.index p).validTree = true ∧
    (cm.index p).haveData = false ∧ cm.Contains p = false ∧ (cm.index p).nHeight ≤ nWindowEnd

/-- The ancestors of `best` at the heights `lo + 1, …, lo + k`, lowest first. -/
def ancestorsAbove (index : Nat → CBlockIndex) (best : Nat) (lo : Int) (k : Nat) : List Nat :=
  (List.range k).filterMap (fun (i : Nat) => GetAncestor index best (lo + 1 + (i : Int)))

/-- The test "the hash of the block is not in the ledger". -/
def notInFlight (cm : CChainManager) (s : CRequestManager) (p : Nat) : Bool :=
  !AlreadyAskedForBlock s (cm.index p).hashBlock

/-- The result that the specification gives for a simple extension of the active
chain: the first `count` blocks, in ascending height, among the ancestors of
`best` at the heights `T + 1 … min(best.height, T + BLOCK_DOWNLOAD_WINDOW)`
(`T` the height of the active tip) whose hash is not in the ledger. -/
def expectedDownload (BLOCK_DOWNLOAD_WINDOW : Int) (cm : CChainManager) (s : CRequestManager)
    (best : Nat) (count : Nat) : List Nat :=
  ((ancestorsAbove cm.index best cm.Height
      (min (cm.index best).nHeight (cm.Height + BLOCK_DOWNLOAD_WINDOW) - cm.Height).toNat).filter
    (notInFlight cm s)).take count

/-! ## Concrete inputs -/

/-- A chain `0 ← 1 ← 2 ← …` in which block `i` has height `i` and hash `i + 1`;
the blocks up to height `stored` are stored and connected. -/
def lineIndex (stored : Nat) (i : Nat) : CBlockIndex :=
  { hashBlock := i + 1, pprev := if i = 0 then none else some (i - 1), nHeight := i,
    nChainWork := i + 1, nChainTx := if i ≤ stored then 1 else 0, validTree := true,
    haveData := decide (i ≤ stored) }

/-- The chain view whose active chain is `0 … tip` of `lineIndex`. -/
def lineChain (tip : Nat) : CChainManager :=
  { index := lineIndex tip, LookupBlockIndex := fun h => if h = 0 then none else some (h - 1),
    vChain := List.range (tip + 1), pindexBestHeader := some tip }

/-- A peer. -/
def peer (id : NodeId) : CNode :=
  { id := id, addr := 0, addrName := 0, fOneShot := false, fClient := false,
    fDisconnect := false, nStartingHeight := 0 }

/-- A manager with the single peer `id`, whose best known block is `best`. -/
def onePeer (id : NodeId) (best : Nat) (common : BlockPtr) : CRequestManager :=
  { CRequestManager.empty with
    mapNodeState := [(id, { CNodeState.init 0 0 with
      pindexBestKnownBlock := some best, pindexLastCommonBlock := common })]
    mapNumBlocksInFlight := [(id, 0)] }

/-- A consistent ledger in which hash 1 is in flight to peer 1 and the 32767
hashes 2 … 32768 are in flight to peer 2. -/
def fullLedger : CRequestManager :=
  { CRequestManager.empty with
    mapNodeState := [(1, CNodeState.init 0 0), (2, CNodeState.init 0 0)]
    mapBlocksInFlight :=
      (1, (1, { hash := 1, pindex := none, haveIndex := false })) ::
        (List.range 32767).map
          (fun i => (i + 2, ((2 : NodeId), { hash := i + 2, pindex := none, haveIndex := false })))
    mapNumBlocksInFlight := [(1, 1), (2, 32767)] }

/-- Peers 1 and 2; the best known block of peer 1 is block 10 of `lineIndex`
and `common` is its last common block; the block of hash 5 (block 4) is in
flight to peer 2. -/
def busyLedger (common : BlockPtr) : CRequestManager :=
  { CRequestManager.empty with
    mapNodeState :=
      [(1, { CNodeState.init 0 0 with
          pindexBestKnownBlock := some 10, pindexLastCommonBlock := common }),
        (2, CNodeState.init 0 0)]
    mapBlocksInFlight := [(5, (2, { hash := 5, pindex := some 4, haveIndex := true }))]
    mapNumBlocksInFlight := [(1, 0), (2, 1)] }

/-- A block of the concrete indexes: chain-work `height + 1`; a stored block
has its data and its transactions connected. -/
def mkBlock (hash : uint256) (prev : BlockPtr) (height : Nat) (stored : Bool) : CBlockIndex :=
  { hashBlock := hash, pprev := prev, nHeight := height, nChainWork := height + 1,
    nChainTx := if stored then 1 else 0, validTree := true, haveData := stored }

/-- An index with a fork: the chain `0 ← 1 ← 2 ← 3` (stored) and the branch
`1 ← 4 ← 5 ← 6`, of which block 4 is stored. Every other handle is a lone root. -/
def forkIndex : Nat → CBlockIndex
  | 0 => mkBlock 100 none 0 true
  | 1 => mkBlock 101 (some 0) 1 true
  | 2 => mkBlock 102 (some 1) 2 true
  | 3 => mkBlock 103 (some 2) 3 true
  | 4 => mkBlock 104 (some 1) 2 true
  | 5 => mkBlock 105 (some 4) 3 false
  | 6 => mkBlock 106 (some 5) 4 false
  | n + 7 => mkBlock (n + 107) none 0 false

/-- The chain view of `forkIndex` whose active chain is `0 ← 1 ← 2 ← 3`. -/
def forkChain : CChainManager :=
  { index := forkIndex, LookupBlockIndex := fun h => if 100 ≤ h then some (h - 100) else none,
    vChain := [0, 1, 2, 3], pindexBestHeader := some 6 }

/-- Scenario 3 and 4 of the specification: peers 1 and 2, the best known block
of peer 1 is block 2000 of `lineIndex`, and `ledger` is in flight to peer 2. -/
def windowScenario (ledger : List (uint256 × (NodeId × QueuedBlock))) (common : BlockPtr) :
    CRequestManager :=
  { CRequestManager.empty with
    mapNodeState :=
      [(1, { CNodeState.init 0 0 with
          pindexBestKnownBlock := some 2000, pindexLastCommonBlock := common }),
        (2, CNodeState.init 0 0)]
    mapBlocksInFlight := ledger
    mapNumBlocksInFlight := [(1, 0), (2, (ledger.length : int16_t))] }

/-! ## Call sequences and further inputs -/

/-- The chain-work of the peer's best known block, the null pointer counting as
`-1`, below every block. -/
def bestWork (cm : CChainManager) (state : CNodeState) : Int :=
  match state.pindexBestKnownBlock with
  | some best => ((cm.index best).nChainWork : Int)
  | none => -1

/-- Peer 1 is registered and preferred, and the block of hash 5 is in flight to
it. -/
def removalScenario : CRequestManager :=
  { CRequestManager.empty with
    mapNodeState := [(1, { CNodeState.init 0 0 with fPreferredDownload := true })]
    mapBlocksInFlight := [(5, (1, { hash := 5, pindex := some 4, haveIndex := true }))]
    mapNumBlocksInFlight := [(1, 1)] }

/-- Peer 1 of `forkChain` with best known block 6 and last common block 1; the
blocks 5 and 6 are in flight to it, and a block without index entry too. -/
def statsScenario : CRequestManager :=
  { CRequestManager.empty with
    mapNodeState := [(1, { CNodeState.init 0 0 with
      pindexBestKnownBlock := some 6, pindexLastCommonBlock := some 1 })]
    mapBlocksInFlight :=
      [(105, (1, { hash := 105, pindex := some 5, haveIndex := true })),
        (106, (1, { hash := 106, pindex := some 6, haveIndex := true })),
        (999, (1, { hash := 999, pindex := none, haveIndex := false }))]
    mapNumBlocksInFlight := [(1, 3)] }

/-- The empty output argument. -/
def noStats : CNodeStateStats :=
  { nSyncHeight := 0, nCommonHeight := 0, vHeightInFlight := [] }

/-- The state of a peer with best known block 3 of `forkChain` and the pending
announcement of block 6 (hash 106). -/
def announceState : CNodeState :=
  { CNodeState.init 0 0 with pindexBestKnownBlock := some 3, hashLastUnknownBlock := 106 }

/-- The manager whose single peer 1 is in `announceState`. -/
def announceScenario : CRequestManager :=
  { CRequestManager.empty with
    mapNodeState := [(1, announceState)]
    mapNumBlocksInFlight := [(1, 0)] }

/-- The condition under which the specification has `StartDownload` send the
initial `GETHEADERS`: the sync has not started, the node is not a client, the
process is neither importing nor reindexing, and the peer is fetched from (it is
preferred, or no peer is preferred and it is not one-shot, or the best header is
less than 24 hours behind the adjusted time). -/
def fetchEligible (cm : CChainManager) (nPreferredDownload : Int) (fImporting fReindex : Bool)
    (adjustedTime : Int) (state : CNodeState) (node : CNode) (pindexBestHeader : Nat) : Bool :=
  !state.fSyncStarted && !node.fClient && !fImporting && !fReindex &&
    (state.fPreferredDownload || (decide (nPreferredDownload = 0) && !node.fOneShot) ||
      decide ((cm.index pindexBestHeader).nTime > adjustedTime - 86400))

/-- The block at which the locator of the initial `GETHEADERS` is taken. -/
def locatorStart (cm : CChainManager) (pindexBestHeader : Nat) : Nat :=
  match (cm.index pindexBestHeader).pprev with
  | some prev => prev
  | none => pindexBestHeader

/-- The manager after the sync with a peer has started. -/
def withSyncStarted (s : CRequestManager) (nodeid : NodeId) (state : CNodeState) :
    CRequestManager :=
  { s with mapNodeState := mapAssign s.mapNodeState nodeid { state with fSyncStarted := true } }


/-- What a call reads besides the manager: the constant `BLOCK_DOWNLOAD_WINDOW`,
the chain view, the predicate `AlreadyHaveBlock`, the fuel of the loops, the
globals `nPreferredDownload`, `fImporting` and `fReindex`, and the values of
`GetAdjustedTime()` and `GetTime()`. -/
structure CallEnv where
  BLOCK_DOWNLOAD_WINDOW : Int
  cm : CChainManager
  AlreadyHaveBlock : uint256 → Bool
  fuel : Nat
  nPreferredDownload : Int
  fImporting : Bool
  fReindex : Bool
  adjustedTime : Int
  now : Int

/-- One call on the manager other than a direct `MarkBlockAsInFlight`. -/
inductive ManagerOp where
  | initNode (pnode : CNode)
  | removeNode (id : NodeId)
  | markReceived (hash : uint256)
  | processAvailability (nodeid : NodeId)
  | updateAvailability (nodeid : NodeId) (hash : uint256)
  | updatePreferred (node : CNode)
  | startDownload (node : CNode)
  | firstHeaderReceived (node : CNode) (pindexLast : BlockPtr)
  | findNext (node : CNode) (count : Nat) (vBlocks : List Nat)
  | trackTx (tx : CTransaction)
  | requestNext (node : CNode)

/-- Effect of one call on the manager, made in the environment `env`; no result
when the call has none. -/
def ManagerOp.apply (env : CallEnv) (s : CRequestManager) : ManagerOp → Option CRequestManager
  | .initNode pnode => some (InitializeNodeState s pnode)
  | .removeNode id => some (RemoveNodeState s id)
  | .markReceived hash => some (MarkBlockAsReceived s hash).2
  | .processAvailability nodeid => ProcessBlockAvailability env.cm s nodeid
  | .updateAvailability nodeid hash => UpdateBlockAvailability env.cm s nodeid hash
  | .updatePreferred node => (UpdatePreferredDownload s env.nPreferredDownload node).map Prod.fst
  | .startDownload node =>
    (StartDownload env.cm env.nPreferredDownload env.fImporting env.fReindex env.adjustedTime s
      node).map Prod.fst
  | .firstHeaderReceived node pindexLast => SetPeerFirstHeaderReceived env.cm s node pindexLast
  | .findNext node count vBlocks =>
    (FindNextBlocksToDownload env.BLOCK_DOWNLOAD_WINDOW env.cm env.fuel s node count vBlocks).map
      Prod.fst
  | .trackTx tx => some (TrackTxRelay s env.now tx)
  | .requestNext node =>
    (RequestNextBlocksToDownload env.BLOCK_DOWNLOAD_WINDOW env.cm env.AlreadyHaveBlock env.fuel s
      node).map Prod.fst

/-- Effect of a sequence of calls, each made in its own environment, first call
first; no result when one of the calls has none. -/
def runManager : CRequestManager → List (CallEnv × ManagerOp) → Option CRequestManager
  | s, [] => some s
  | s, (env, op) :: calls =>
    match op.apply env s with
    | none => none
    | some s1 => runManager s1 calls

/-- The invariant behind the cap: the ledger is consistent with the counters and
no peer owns more than 64 entries. -/
def CapInv (s : CRequestManager) : Prop :=
  LedgerInv s [] ∧ ∀ p, ownedCount s p ≤ 64

/-- The environment of the concrete runs: `lineChain 2`, a window of 1024
blocks, no block already stored. -/
def lineEnv : CallEnv :=
  { BLOCK_DOWNLOAD_WINDOW := 1024, cm := lineChain 2, AlreadyHaveBlock := fun _ => false,
    fuel := 200, nPreferredDownload := 0, fImporting := false, fReindex := false,
    adjustedTime := 0, now := 0 }

/-- Peer 1 is registered, hears of block 100 (hash 101) and is asked for blocks
twice. -/
def capCalls : List (CallEnv × ManagerOp) :=
  [(lineEnv, .initNode (peer 1)), (lineEnv, .updateAvailability 1 101),
    (lineEnv, .requestNext (peer 1)), (lineEnv, .requestNext (peer 1))]

/-- Peer 1 is registered and then 65 blocks are marked as in flight to it. -/
def overCapOps : List LedgerOp :=
  LedgerOp.initNode (peer 1) ::
    (List.range 65).map (fun (i : Nat) => LedgerOp.markInFlight 1 (i + 1) none)

/-- The manager after `capCalls`: the 64 blocks 3 … 66 (hashes 4 … 67) are in
flight to peer 1. -/
def capState : CRequestManager :=
  { CRequestManager.empty with
    mapNodeState := [(1, { CNodeState.init 0 0 with
      pindexBestKnownBlock := some 100, pindexLastCommonBlock := some 2 })]
    mapBlocksInFlight := (List.range 64).map (fun (i : Nat) =>
      (i + 4, ((1 : NodeId), { hash := i + 4, pindex := some (i + 3), haveIndex := true })))
    mapNumBlocksInFlight := [(1, 64)] }

/-- Number of registered peers whose `fPreferredDownload` is set. -/
def preferredCount (s : CRequestManager) : Nat :=
  (s.mapNodeState.filter (fun e => e.2.fPreferredDownload)).length

/-- A call of `InitializeNodeState` or of `UpdatePreferredDownload`. -/
inductive PrefOp where
  | initNode (pnode : CNode)
  | updatePreferred (node : CNode)
deriving DecidableEq, Repr

/-- Effect of one call on the manager and on the global `nPreferredDownload`. -/
def PrefOp.apply (st : CRequestManager × Int) : PrefOp → Option (CRequestManager × Int)
  | .initNode pnode => some (InitializeNodeState st.1 pnode, st.2)
  | .updatePreferred node => UpdatePreferredDownload st.1 st.2 node

/-- Effect of a sequence of calls, first call first; no result when one of the
calls has none. -/
def runPref : CRequestManager × Int → List PrefOp → Option (CRequestManager × Int)
  | st, [] => some st
  | st, op :: ops =>
    match op.apply st with
    | none => none
    | some st1 => runPref st1 ops

/-- The keys of a map are in ascending order. -/
def keysAscending {β : Type} (m : List (NodeId × β)) : Prop :=
  m.Pairwise (fun a b => a.1 < b.1)

/-- Peers 1 and 2 are registered and updated, then peer 1 is updated again as a
client. -/
def prefCalls : List PrefOp :=
  [.initNode (peer 1), .updatePreferred (peer 1), .initNode (peer 2), .updatePreferred (peer 2),
    .updatePreferred { peer 1 with fClient := true }]

/-- The manager after `prefCalls`: of the two peers, peer 2 is preferred. -/
def prefState : CRequestManager :=
  { CRequestManager.empty with
    mapNodeState := [(1, CNodeState.init 0 0),
      (2, { CNodeState.init 0 0 with fPreferredDownload := true })]
    mapNumBlocksInFlight := [(1, 0), (2, 0)] }

/-- A call of `TrackTxRelay` or of `FindAndPushTx`, with the value of the clock
during the call. -/
inductive RelayOp where
  | track (now : Int) (tx : CTransaction)
  | find (now : Int) (node : CNode) (hash : uint256)
deriving DecidableEq, Repr

/-- The value of the clock during a call. -/
def RelayOp.time : RelayOp → Int
  | .track now _ => now
  | .find now _ _ => now

/-- Effect of one call on the manager (`FindAndPushTx` leaves it as it is). -/
def RelayOp.apply (s : CRequestManager) : RelayOp → CRequestManager
  | .track now tx => TrackTxRelay s now tx
  | .find _ _ _ => s

/-- Effect of a sequence of calls, first call first. -/
def runRelay (s : CRequestManager) (ops : List RelayOp) : CRequestManager :=
  ops.foldl RelayOp.apply s

/-- The invariant of the relay memory when the clock has reached `T`: the
deadlines in `vRelayExpiration` are in order and at most `T + 900`, and its
entries refer to distinct transactions, all of them in `mapRelay`. -/
structure RelayInv (s : CRequestManager) (T : Int) : Prop where
  sorted : s.vRelayExpiration.Pairwise (fun a b => a.1 ≤ b.1)
  bound : ∀ e ∈ s.vRelayExpiration, e.1 ≤ T + 900
  nodup : (s.vRelayExpiration.map Prod.snd).Nodup
  stored : ∀ e ∈ s.vRelayExpiration, (mapFind s.mapRelay e.2).isSome

/-- The transaction `A` tracked at time `t` is in the relay memory with its
deadline `t + 900`. -/
def RelayLive (s : CRequestManager) (A : CTransaction) (t : Int) : Prop :=
  mapFind s.mapRelay A.id = some A ∧ (t + 900, A.id) ∈ s.vRelayExpiration

/-- A walk state whose out vector already holds two entries, more than the
count 1 of the concrete runs. -/
def longState : WalkState :=
  { pindexLastCommonBlock := some 2, vBlocks := [9, 9] }

/-! ## Lemmas on maps -/

section StdMapLemmas

set_option linter.unusedSectionVars false

variable {κ : Type} {β : Type} [DecidableEq κ] [LT κ] [DecidableRel (fun (a b : κ) => a < b)]

theorem mapFind_cons_eq (t : List (κ × β)) (k : κ) (v : β) :
    mapFind ((k, v) :: t) k = some v := by
  simp [mapFind]

theorem mapFind_cons_ne (t : List (κ × β)) {k k' : κ} (v : β) (h : k' ≠ k) :
    mapFind ((k', v) :: t) k = mapFind t k := by
  simp [mapFind, h]

theorem mapErase_cons_eq (t : List (κ × β)) (k : κ) (v : β) :
    mapErase ((k, v) :: t) k = mapErase t k := by
  simp [mapErase, List.filter_cons]

theorem mapErase_cons_ne (t : List (κ × β)) {k k' : κ} (v : β) (h : k' ≠ k) :
    mapErase ((k', v) :: t) k = (k', v) :: mapErase t k := by
  simp [mapErase, List.filter_cons, h]

theorem mapAssign_cons_lt (t : List (κ × β)) {k k' : κ} (v v' : β) (h : k < k') :
    mapAssign ((k', v') :: t) k v = (k, v) :: (k', v') :: t := by
  simp [mapAssign, h]

theorem mapAssign_cons_eq (t : List (κ × β)) (k : κ) (v v' : β) (h : ¬ k < k) :
    mapAssign ((k, v') :: t) k v = (k, v) :: t := by
  simp [mapAssign, h]

theorem mapAssign_cons_gt (t : List (κ × β)) {k k' : κ} (v v' : β) (h : ¬ k < k')
    (hne : k ≠ k') : mapAssign ((k', v') :: t) k v = (k', v') :: mapAssign t k v := by
  simp [mapAssign, h, hne]

theorem mapFind_erase_self (m : List (κ × β)) (k : κ) : mapFind (mapErase m k) k = none := by
  induction m with
  | nil => rfl
  | cons e t ih =>
    obtain ⟨k', v⟩ := e
    by_cases h : k' = k
    · subst h
      rw [mapErase_cons_eq]
      exact ih
    · rw [mapErase_cons_ne t v h, mapFind_cons_ne _ v h]
      exact ih

theorem mapFind_erase_ne (m : List (κ × β)) {k k' : κ} (hne : k' ≠ k) :
    mapFind (mapErase m k) k' = mapFind m k' := by
  induction m with
  | nil => rfl
  | cons e t ih =>
    obtain ⟨k₀, v⟩ := e
    by_cases h : k₀ = k
    · subst h
      rw [mapErase_cons_eq, mapFind_cons_ne t v (Ne.symm hne)]
      exact ih
    · rw [mapErase_cons_ne t v h]
      by_cases h2 : k₀ = k'
      · subst h2
        rw [mapFind_cons_eq, mapFind_cons_eq]
      · rw [mapFind_cons_ne _ v h2, mapFind_cons_ne _ v h2]
        exact ih

theorem mapFind_assign_self (m : List (κ × β)) (k : κ) (v : β) :
    mapFind (mapAssign m k v) k = some v := by
  induction m with
  | nil => simp [mapAssign, mapFind]
  | cons e t ih =>
    obtain ⟨k', v'⟩ := e
    by_cases h1 : k < k'
    · rw [mapAssign_cons_lt t v v' h1, mapFind_cons_eq]
    · by_cases h2 : k = k'
      · subst h2
        rw [mapAssign_cons_eq t k v v' h1, mapFind_cons_eq]
      · rw [mapAssign_cons_gt t v v' h1 h2, mapFind_cons_ne _ v' (Ne.symm h2)]
        exact ih

theorem mapFind_assign_ne (m : List (κ × β)) {k k' : κ} (v : β) (hne : k' ≠ k) :
    mapFind (mapAssign m k v) k' = mapFind m k' := by
  induction m with
  | nil =>
    show mapFind [(k, v)] k' = mapFind [] k'
    rw [mapFind_cons_ne _ v (Ne.symm hne)]
  | cons e t ih =>
    obtain ⟨k₀, v₀⟩ := e
    by_cases h1 : k < k₀
    · rw [mapAssign_cons_lt t v v₀ h1, mapFind_cons_ne _ v (Ne.symm hne)]
    · by_cases h2 : k = k₀
      · subst h2
        rw [mapAssign_cons_eq t k v v₀ h1, mapFind_cons_ne _ v (Ne.symm hne),
          mapFind_cons_ne _ v₀ (Ne.symm hne)]
      · rw [mapAssign_cons_gt t v v₀ h1 h2]
        by_cases h3 : k₀ = k'
        · subst h3
          rw [mapFind_cons_eq, mapFind_cons_eq]
        · rw [mapFind_cons_ne _ v₀ h3, mapFind_cons_ne _ v₀ h3]
          exact ih

theorem mapErase_assign (m : List (κ × β)) (k : κ) (v : β) :
    mapErase (mapAssign m k v) k = mapErase m k := by
  induction m with
  | nil =>
    show mapErase [(k, v)] k = mapErase [] k
    rw [mapErase_cons_eq]
  | cons e t ih =>
    obtain ⟨k', v'⟩ := e
    by_cases h1 : k < k'
    · rw [mapAssign_cons_lt t v v' h1, mapErase_cons_eq]
    · by_cases h2 : k = k'
      · subst h2
        rw [mapAssign_cons_eq t k v v' h1, mapErase_cons_eq, mapErase_cons_eq]
      · rw [mapAssign_cons_gt t v v' h1 h2, mapErase_cons_ne _ v' (Ne.symm h2),
          mapErase_cons_ne _ v' (Ne.symm h2), ih]

theorem mapFind_eq_none_iff (m : List (κ × β)) (k : κ) :
    mapFind m k = none ↔ k ∉ m.map Prod.fst := by
  induction m with
  | nil => simp [mapFind]
  | cons e t ih =>
    obtain ⟨k', v'⟩ := e
    by_cases h : k' = k
    · subst h
      simp [mapFind_cons_eq]
    · rw [mapFind_cons_ne _ v' h, ih]
      have h' : ¬ k = k' := fun h2 => h h2.symm
      simp [h']

theorem mapAssign_perm (m : List (κ × β)) (k : κ) (v : β) (hk : mapFind m k = none) :
    (mapAssign m k v).Perm ((k, v) :: m) := by
  induction m with
  | nil => exact List.Perm.refl _
  | cons e t ih =>
    obtain ⟨k', v'⟩ := e
    by_cases h : k' = k
    · subst h
      rw [mapFind_cons_eq] at hk
      cases hk
    · rw [mapFind_cons_ne _ v' h] at hk
      by_cases h1 : k < k'
      · rw [mapAssign_cons_lt t v v' h1]
      · rw [mapAssign_cons_gt t v v' h1 (Ne.symm h)]
        exact ((ih hk).cons (k', v')).trans (List.Perm.swap _ _ _)

theorem mapErase_perm (m : List (κ × β)) (k : κ) (v : β) (hnd : (m.map Prod.fst).Nodup)
    (hk : mapFind m k = some v) : m.Perm ((k, v) :: mapErase m k) := by
  induction m with
  | nil => cases hk
  | cons e t ih =>
    obtain ⟨k', v'⟩ := e
    have hnd' : k' ∉ t.map Prod.fst ∧ (t.map Prod.fst).Nodup := by
      simpa [List.nodup_cons] using hnd
    by_cases h : k' = k
    · subst h
      rw [mapFind_cons_eq] at hk
      cases hk
      have hfix : mapErase t k' = t := by
        simp only [mapErase]
        apply List.filter_eq_self.mpr
        intro a ha
        have : a.1 ≠ k' := fun h2 => hnd'.1 (h2 ▸ List.mem_map_of_mem Prod.fst ha)
        simpa using this
      rw [mapErase_cons_eq, hfix]
    · rw [mapFind_cons_ne _ v' h] at hk
      rw [mapErase_cons_ne t v' h]
      exact ((ih hnd'.2 hk).cons (k', v')).trans (List.Perm.swap _ _ _)

theorem mapErase_of_find_none (m : List (κ × β)) (k : κ)
    (h : mapFind m k = none) : mapErase m k = m := by
  induction m with
  | nil => rfl
  | cons e t ih =>
    obtain ⟨k', v⟩ := e
    by_cases hk : k' = k
    · subst hk
      rw [mapFind_cons_eq] at h
      cases h
    · rw [mapFind_cons_ne _ v hk] at h
      rw [mapErase_cons_ne t v hk, ih h]

theorem mapFind_assign_isSome (m : List (κ × β)) (k k' : κ) (v : β)
    (h : (mapFind m k').isSome) : (mapFind (mapAssign m k v) k').isSome := by
  by_cases hk : k' = k
  · subst hk
    simp [mapFind_assign_self]
  · rw [mapFind_assign_ne m v hk]
    exact h

theorem mapFind_assign_getD (m : List (κ × β)) (k k' : κ) (v d : β) :
    (mapFind (mapAssign m k v) k').getD d = if k' = k then v else (mapFind m k').getD d := by
  by_cases hk : k' = k
  · subst hk
    simp [mapFind_assign_self]
  · rw [mapFind_assign_ne m v hk]
    simp [hk]

theorem mapFind_emplace_getD (m : List (κ × β)) (k k' : κ) (d : β) :
    (mapFind (mapEmplace m k d) k').getD d = (mapFind m k').getD d := by
  unfold mapEmplace
  cases hf : mapFind m k with
  | some x => rfl
  | none =>
    simp only []
    rw [mapFind_assign_getD]
    by_cases hk : k' = k
    · subst hk
      simp [hf]
    · simp [hk]

theorem mapFind_emplace_isSome (m : List (κ × β)) (k k' : κ) (v : β)
    (h : k' = k ∨ (mapFind m k').isSome) : (mapFind (mapEmplace m k v) k').isSome := by
  unfold mapEmplace
  cases hf : mapFind m k with
  | some x =>
    rcases h with h | h
    · subst h
      simp [hf]
    · exact h
  | none =>
    simp only []
    rcases h with h | h
    · subst h
      simp [mapFind_assign_self]
    · exact mapFind_assign_isSome m k k' v h

end StdMapLemmas


/-! ## Lemmas on the ledger -/

theorem received_of_found (s : CRequestManager) (hash : uint256) (o : NodeId) (e : QueuedBlock)
    (hf : mapFind s.mapBlocksInFlight hash = some (o, e)) :
    (MarkBlockAsReceived s hash).2 =
      { s with
        mapNumBlocksInFlight := mapAssign s.mapNumBlocksInFlight o (numBlocksInFlight s o - 1)
        mapBlocksInFlight := mapErase s.mapBlocksInFlight hash } := by
  simp [MarkBlockAsReceived, hf]

theorem received_of_absent (s : CRequestManager) (hash : uint256)
    (hf : mapFind s.mapBlocksInFlight hash = none) : (MarkBlockAsReceived s hash).2 = s := by
  simp [MarkBlockAsReceived, hf]

theorem received_ledger (s : CRequestManager) (hash : uint256) :
    (MarkBlockAsReceived s hash).2.mapBlocksInFlight = mapErase s.mapBlocksInFlight hash := by
  cases hf : mapFind s.mapBlocksInFlight hash with
  | none => rw [received_of_absent s hash hf, mapErase_of_find_none _ _ hf]
  | some oe =>
    obtain ⟨o, e⟩ := oe
    rw [received_of_found s hash o e hf]

theorem received_nodeState (s : CRequestManager) (hash : uint256) :
    (MarkBlockAsReceived s hash).2.mapNodeState = s.mapNodeState := by
  cases hf : mapFind s.mapBlocksInFlight hash with
  | none => rw [received_of_absent s hash hf]
  | some oe =>
    obtain ⟨o, e⟩ := oe
    rw [received_of_found s hash o e hf]

theorem received_present (s : CRequestManager) (hash : uint256) (p : NodeId)
    (hp : (mapFind s.mapNumBlocksInFlight p).isSome) :
    (mapFind (MarkBlockAsReceived s hash).2.mapNumBlocksInFlight p).isSome := by
  cases hf : mapFind s.mapBlocksInFlight hash with
  | none => rw [received_of_absent s hash hf]; exact hp
  | some oe =>
    obtain ⟨o, e⟩ := oe
    rw [received_of_found s hash o e hf]
    exact mapFind_assign_isSome _ _ _ _ hp

theorem received_num_found (s : CRequestManager) (hash : uint256) (o : NodeId) (e : QueuedBlock)
    (hf : mapFind s.mapBlocksInFlight hash = some (o, e)) (p : NodeId) :
    numBlocksInFlight (MarkBlockAsReceived s hash).2 p =
      if p = o then numBlocksInFlight s o - 1 else numBlocksInFlight s p := by
  rw [received_of_found s hash o e hf]
  exact mapFind_assign_getD _ _ _ _ _

theorem mark_ledger (s : CRequestManager) (nodeid : NodeId) (hash : uint256) (pindex : BlockPtr) :
    (MarkBlockAsInFlight s nodeid hash pindex).mapBlocksInFlight =
      mapAssign (mapErase s.mapBlocksInFlight hash) hash
        (nodeid, { hash := hash, pindex := pindex, haveIndex := pindex.isSome }) := by
  unfold MarkBlockAsInFlight
  simp only []
  split <;> simp [received_ledger]

theorem mark_nodeState (s : CRequestManager) (nodeid : NodeId) (hash : uint256)
    (pindex : BlockPtr) : (MarkBlockAsInFlight s nodeid hash pindex).mapNodeState = s.mapNodeState := by
  unfold MarkBlockAsInFlight
  simp only []
  split <;> simp [received_nodeState]

theorem mark_counters_present (s : CRequestManager) (nodeid : NodeId) (hash : uint256)
    (pindex : BlockPtr) (c : int16_t)
    (hc : mapFind (MarkBlockAsReceived s hash).2.mapNumBlocksInFlight nodeid = some c) :
    (MarkBlockAsInFlight s nodeid hash pindex).mapNumBlocksInFlight =
      mapAssign (MarkBlockAsReceived s hash).2.mapNumBlocksInFlight nodeid (c + 1) := by
  unfold MarkBlockAsInFlight
  simp only [hc]

theorem mark_counters_absent (s : CRequestManager) (nodeid : NodeId) (hash : uint256)
    (pindex : BlockPtr)
    (hc : mapFind (MarkBlockAsReceived s hash).2.mapNumBlocksInFlight nodeid = none) :
    (MarkBlockAsInFlight s nodeid hash pindex).mapNumBlocksInFlight =
      (MarkBlockAsReceived s hash).2.mapNumBlocksInFlight := by
  unfold MarkBlockAsInFlight
  simp only [hc]

theorem mark_num_present (s : CRequestManager) (nodeid : NodeId) (hash : uint256)
    (pindex : BlockPtr)
    (hp : (mapFind (MarkBlockAsReceived s hash).2.mapNumBlocksInFlight nodeid).isSome)
    (p : NodeId) :
    numBlocksInFlight (MarkBlockAsInFlight s nodeid hash pindex) p =
      if p = nodeid then numBlocksInFlight (MarkBlockAsReceived s hash).2 nodeid + 1
      else numBlocksInFlight (MarkBlockAsReceived s hash).2 p := by
  obtain ⟨c, hc⟩ := Option.isSome_iff_exists.mp hp
  unfold numBlocksInFlight
  rw [mark_counters_present s nodeid hash pindex c hc, mapFind_assign_getD, hc]
  rfl

theorem ownedCount_of_perm (s s' : CRequestManager) (k : uint256) (o : NodeId) (e : QueuedBlock)
    (h : s.mapBlocksInFlight.Perm ((k, (o, e)) :: s'.mapBlocksInFlight)) (p : NodeId) :
    ownedCount s p = (if o = p then 1 else 0) + ownedCount s' p := by
  unfold ownedCount
  rw [(h.filter _).length_eq]
  by_cases hp : o = p
  · simp [List.filter_cons, hp, Nat.add_comm]
  · simp [List.filter_cons, hp]

theorem int16_toInt_natCast (n : Nat) (h : n < 32768) : ((n : Nat) : int16_t).toInt = n := by
  have hv : ((n : int16_t)).val = n := by
    rw [Fin.val_natCast]
    exact Nat.mod_eq_of_lt (by omega)
  simp [int16_t.toInt, hv, h]

theorem ledgerInv_empty : LedgerInv CRequestManager.empty [] :=
  { nodup := by simp [CRequestManager.empty]
    present := by simp
    count := by intro p; rfl }

theorem ledgerInv_received (s : CRequestManager) (known : List NodeId) (hash : uint256)
    (inv : LedgerInv s known) : LedgerInv (MarkBlockAsReceived s hash).2 known := by
  cases hf : mapFind s.mapBlocksInFlight hash with
  | none => rw [received_of_absent s hash hf]; exact inv
  | some oe =>
    obtain ⟨o, e⟩ := oe
    have hperm := mapErase_perm s.mapBlocksInFlight hash (o, e) inv.nodup hf
    have hl := received_ledger s hash
    refine ⟨?_, fun id hid => received_present s hash id (inv.present id hid), fun p => ?_⟩
    · rw [hl]
      exact inv.nodup.sublist ((List.filter_sublist _).map Prod.fst)
    · have hc := ownedCount_of_perm s (MarkBlockAsReceived s hash).2 hash o e (by rw [hl]; exact hperm)
      rw [received_num_found s hash o e hf p]
      by_cases hp : p = o
      · subst hp
        rw [if_pos rfl, inv.count p, hc p]
        simp
      · rw [if_neg hp, inv.count p, hc p]
        simp [Ne.symm hp]

theorem ledgerInv_mark (s : CRequestManager) (known : List NodeId) (nodeid : NodeId)
    (hash : uint256) (pindex : BlockPtr) (inv : LedgerInv s known) (hk : nodeid ∈ known) :
    LedgerInv (MarkBlockAsInFlight s nodeid hash pindex) known := by
  have inv1 := ledgerInv_received s known hash inv
  have hp1 := inv1.present nodeid hk
  have habs : mapFind (MarkBlockAsReceived s hash).2.mapBlocksInFlight hash = none := by
    rw [received_ledger]; exact mapFind_erase_self _ _
  have hl : (MarkBlockAsInFlight s nodeid hash pindex).mapBlocksInFlight =
      mapAssign (MarkBlockAsReceived s hash).2.mapBlocksInFlight hash
        (nodeid, { hash := hash, pindex := pindex, haveIndex := pindex.isSome }) := by
    rw [mark_ledger, received_ledger]
  have hperm := mapAssign_perm (MarkBlockAsReceived s hash).2.mapBlocksInFlight hash
    (nodeid, { hash := hash, pindex := pindex, haveIndex := pindex.isSome }) habs
  obtain ⟨c, hc⟩ := Option.isSome_iff_exists.mp hp1
  refine ⟨?_, fun id hid => ?_, fun p => ?_⟩
  · rw [hl]
    refine (hperm.map Prod.fst).nodup_iff.mpr ?_
    simp only [List.map_cons, List.nodup_cons]
    exact ⟨(mapFind_eq_none_iff _ _).mp habs, inv1.nodup⟩
  · rw [mark_counters_present s nodeid hash pindex c hc]
    exact mapFind_assign_isSome _ _ _ _ (inv1.present id hid)
  · have hcnt := ownedCount_of_perm (MarkBlockAsInFlight s nodeid hash pindex)
      (MarkBlockAsReceived s hash).2 hash nodeid _ (by rw [hl]; exact hperm) p
    rw [mark_num_present s nodeid hash pindex hp1 p, hcnt]
    by_cases hp : p = nodeid
    · subst hp
      rw [if_pos rfl, inv1.count p]
      simp [add_comm]
    · rw [if_neg hp, inv1.count p]
      simp [Ne.symm hp]

theorem ledgerInv_initNode (s : CRequestManager) (known : List NodeId) (pnode : CNode)
    (inv : LedgerInv s known) : LedgerInv (InitializeNodeState s pnode) (pnode.id :: known) := by
  refine ⟨inv.nodup, fun id hid => ?_, fun p => ?_⟩
  · refine mapFind_emplace_isSome _ _ _ _ ?_
    rcases List.mem_cons.mp hid with h | h
    · exact Or.inl h
    · exact Or.inr (inv.present id h)
  · have h1 : numBlocksInFlight (InitializeNodeState s pnode) p = numBlocksInFlight s p :=
      mapFind_emplace_getD _ _ _ _
    rw [h1, inv.count p]
    rfl

theorem ledgerInv_runOps (ops : List LedgerOp) :
    ∀ (s : CRequestManager) (known : List NodeId), LedgerInv s known →
      marksInitialized known ops = true → ∃ known', LedgerInv (runOps s ops) known' := by
  induction ops with
  | nil => intro s known inv _; exact ⟨known, inv⟩
  | cons op ops ih =>
    intro s known inv hm
    cases op with
    | initNode pnode =>
      exact ih _ _ (ledgerInv_initNode s known pnode inv) (by simpa [marksInitialized] using hm)
    | removeNode id =>
      exact ih (RemoveNodeState s id) known ⟨inv.nodup, inv.present, inv.count⟩
        (by simpa [marksInitialized] using hm)
    | markInFlight nodeid hash pindex =>
      have hm' : nodeid ∈ known ∧ marksInitialized known ops = true := by
        simpa [marksInitialized] using hm
      exact ih _ known (ledgerInv_mark s known nodeid hash pindex inv hm'.1) hm'.2
    | markReceived hash =>
      exact ih _ known (ledgerInv_received s known hash inv) (by simpa [marksInitialized] using hm)

theorem mark_find_self (s : CRequestManager) (nodeid : NodeId) (hash : uint256)
    (pindex : BlockPtr) :
    mapFind (MarkBlockAsInFlight s nodeid hash pindex).mapBlocksInFlight hash =
      some (nodeid, { hash := hash, pindex := pindex, haveIndex := pindex.isSome }) := by
  rw [mark_ledger, mapFind_assign_self]

theorem received_num (s : CRequestManager) (hash : uint256) (p : NodeId) :
    numBlocksInFlight (MarkBlockAsReceived s hash).2 p =
      match mapFind s.mapBlocksInFlight hash with
      | some (o, _) => if p = o then numBlocksInFlight s o - 1 else numBlocksInFlight s p
      | none => numBlocksInFlight s p := by
  cases hf : mapFind s.mapBlocksInFlight hash with
  | none => rw [received_of_absent s hash hf]
  | some oe =>
    obtain ⟨o, e⟩ := oe
    exact received_num_found s hash o e hf p

theorem mapErase_filter_key {κ β : Type} [DecidableEq κ] (m : List (κ × β)) (k : κ) :
    (mapErase m k).filter (fun x => decide (x.1 = k)) = [] := by
  simp only [mapErase, List.filter_filter]
  apply List.filter_eq_nil_iff.mpr
  intro a _
  simp

theorem int16_toInt_sub_one (c : int16_t) (h : -32768 < c.toInt) :
    (c - 1).toInt = c.toInt - 1 := by
  have h1 : (c - 1).val = (65536 - 1 + c.val) % 65536 := by
    rw [Fin.coe_sub]; rfl
  have hc := c.isLt
  simp only [int16_t.toInt] at h ⊢
  rw [h1]
  split_ifs at h ⊢ <;> omega

theorem int16_toInt_add_one (c : int16_t) (h : c.toInt < 32767) :
    (c + 1).toInt = c.toInt + 1 := by
  have h1 : (c + 1).val = (c.val + 1) % 65536 := by
    rw [Fin.val_add]; rfl
  have hc := c.isLt
  simp only [int16_t.toInt] at h ⊢
  rw [h1]
  split_ifs at h ⊢ <;> omega

/-! ## The claims on the ledger -/

/-- C1 (as amended): along every sequence of InitializeNodeState, RemoveNodeState,
MarkBlockAsInFlight and MarkBlockAsReceived calls from an empty request manager
in which each MarkBlockAsInFlight names a peer initialized earlier in the
sequence, and for every peer id p, the counter mapNumBlocksInFlight[p] is the
number of entries of mapBlocksInFlight owned by p, stored as an int16_t; it is
that number exactly while p owns fewer than 32768 entries. -/
theorem counter_consistent_for_initialized_peers (ops : List LedgerOp)
    (h : marksInitialized [] ops = true) (p : NodeId) :
    numBlocksInFlight (runOps CRequestManager.empty ops) p
        = ((ownedCount (runOps CRequestManager.empty ops) p : Nat) : int16_t) ∧
      (ownedCount (runOps CRequestManager.empty ops) p < 32768 →
        (numBlocksInFlight (runOps CRequestManager.empty ops) p).toInt
          = (ownedCount (runOps CRequestManager.empty ops) p : Int)) := by
  obtain ⟨known', inv⟩ := ledgerInv_runOps ops CRequestManager.empty [] ledgerInv_empty h
  refine ⟨inv.count p, fun hlt => ?_⟩
  rw [inv.count p]
  exact int16_toInt_natCast _ hlt

/-- C1, witness: two peers are initialized, blocks are marked, one changes
owner, a peer is removed and a block is received. -/
theorem counter_consistent_for_initialized_peers_witness :
    marksInitialized []
        [.initNode (peer 1), .initNode (peer 2), .markInFlight 1 10 none,
          .markInFlight 2 11 (some 3), .markInFlight 2 10 none, .removeNode 1,
          .markReceived 11] = true ∧
      ownedCount (runOps CRequestManager.empty
        [.initNode (peer 1), .initNode (peer 2), .markInFlight 1 10 none,
          .markInFlight 2 11 (some 3), .markInFlight 2 10 none, .removeNode 1,
          .markReceived 11]) 2 = 1 ∧
      (numBlocksInFlight (runOps CRequestManager.empty
        [.initNode (peer 1), .initNode (peer 2), .markInFlight 1 10 none,
          .markInFlight 2 11 (some 3), .markInFlight 2 10 none, .removeNode 1,
          .markReceived 11]) 2).toInt = 1 :=
  ⟨by decide, by decide,
    ((counter_consistent_for_initialized_peers
      [.initNode (peer 1), .initNode (peer 2), .markInFlight 1 10 none,
        .markInFlight 2 11 (some 3), .markInFlight 2 10 none, .removeNode 1,
        .markReceived 11] (by decide) 2).2 (by decide)).trans (by decide)⟩

/-- C1, counterexample: from the empty manager, MarkBlockAsInFlight(7, 1, null)
for the uninitialized peer 7 followed by MarkBlockAsReceived(1) leaves the
counter of peer 7 at -1 while peer 7 owns no entry. -/
theorem counter_inconsistent_for_unknown_peer :
    mapFind (runOps CRequestManager.empty
        [.markInFlight 7 1 none, .markReceived 1]).mapNumBlocksInFlight 7 = some 65535 ∧
      (numBlocksInFlight (runOps CRequestManager.empty
        [.markInFlight 7 1 none, .markReceived 1]) 7).toInt = -1 ∧
      ownedCount (runOps CRequestManager.empty [.markInFlight 7 1 none, .markReceived 1]) 7 = 0 ∧
      ownedCount (runOps CRequestManager.empty [.markInFlight 7 1 none]) 7 = 1 ∧
      numBlocksInFlight (runOps CRequestManager.empty [.markInFlight 7 1 none]) 7 = 0 := by
  decide

/-- C2 (as amended): for every ledger state, every peer p that has a counter and
every hash h, after MarkBlockAsInFlight(p, h, idx) followed by
MarkBlockAsReceived(h) the second call reports a removal, the ledger holds no
entry for h, and in_flight_count[p] has its prior value when h was not in flight
to p before (not in flight at all, or in flight to another peer), and its prior
value minus one (as an int16_t) when h was already in flight to p. -/
theorem mark_then_received (s : CRequestManager) (p : NodeId) (h : uint256) (idx : BlockPtr)
    (hp : (mapFind s.mapNumBlocksInFlight p).isSome = true) :
    (MarkBlockAsReceived (MarkBlockAsInFlight s p h idx) h).1 = true ∧
      mapFind (MarkBlockAsReceived (MarkBlockAsInFlight s p h idx) h).2.mapBlocksInFlight h
        = none ∧
      (inFlightOwner s h ≠ some p →
        numBlocksInFlight (MarkBlockAsReceived (MarkBlockAsInFlight s p h idx) h).2 p
          = numBlocksInFlight s p) ∧
      (inFlightOwner s h = some p →
        numBlocksInFlight (MarkBlockAsReceived (MarkBlockAsInFlight s p h idx) h).2 p
          = numBlocksInFlight s p - 1) := by
  have hfind := mark_find_self s p h idx
  have hp1 := received_present s h p hp
  have hnum : numBlocksInFlight (MarkBlockAsReceived (MarkBlockAsInFlight s p h idx) h).2 p
      = numBlocksInFlight (MarkBlockAsReceived s h).2 p := by
    rw [received_num_found _ h p _ hfind p, if_pos rfl, mark_num_present s p h idx hp1 p,
      if_pos rfl]
    exact add_sub_cancel_right _ _
  refine ⟨by simp [MarkBlockAsReceived, hfind], ?_, ?_, ?_⟩
  · rw [received_ledger]
    exact mapFind_erase_self _ _
  · intro hne
    rw [hnum, received_num]
    cases hf : mapFind s.mapBlocksInFlight h with
    | none => rfl
    | some oe =>
      obtain ⟨o, e⟩ := oe
      have hpo : p ≠ o := fun hpo => hne (by simp [inFlightOwner, hf, hpo])
      simp [hpo]
  · intro hown
    rw [hnum, received_num]
    cases hf : mapFind s.mapBlocksInFlight h with
    | none => simp [inFlightOwner, hf] at hown
    | some oe =>
      obtain ⟨o, e⟩ := oe
      have hpo : o = p := by simpa [inFlightOwner, hf] using hown
      simp [hpo]

/-- C2, witness: peer 1 has a counter, hash 5 is in flight to peer 2. -/
theorem mark_then_received_witness :
    (mapFind (runOps CRequestManager.empty
        [.initNode (peer 1), .initNode (peer 2), .markInFlight 1 4 none,
          .markInFlight 2 5 none]).mapNumBlocksInFlight 1).isSome = true ∧
      numBlocksInFlight (MarkBlockAsReceived (MarkBlockAsInFlight (runOps CRequestManager.empty
        [.initNode (peer 1), .initNode (peer 2), .markInFlight 1 4 none,
          .markInFlight 2 5 none]) 1 5 (some 0)) 5).2 1 = 1 :=
  ⟨by decide,
    ((mark_then_received (runOps CRequestManager.empty
        [.initNode (peer 1), .initNode (peer 2), .markInFlight 1 4 none,
          .markInFlight 2 5 none]) 1 5 (some 0) (by decide)).2.2.1 (by decide)).trans
      (by decide)⟩

/-- C2, counterexample: peer 1 is initialized and hash 5 is in flight to it, so
in_flight_count[1] = 1; after MarkBlockAsInFlight(1, 5, null) and
MarkBlockAsReceived(5) the ledger is empty and in_flight_count[1] = 0, not 1. -/
theorem mark_then_received_same_peer_counterexample :
    (mapFind (runOps CRequestManager.empty
        [.initNode (peer 1), .markInFlight 1 5 none]).mapNumBlocksInFlight 1).isSome = true ∧
      numBlocksInFlight (runOps CRequestManager.empty
        [.initNode (peer 1), .markInFlight 1 5 none]) 1 = 1 ∧
      numBlocksInFlight (MarkBlockAsReceived (MarkBlockAsInFlight (runOps CRequestManager.empty
        [.initNode (peer 1), .markInFlight 1 5 none]) 1 5 none) 5).2 1 = 0 := by
  decide

/-- C3 (as amended): for every ledger state in which hash h is in flight to
peer p1, and every peer p2 different from p1 that has a counter, after
MarkBlockAsInFlight(p2, h, idx) the ledger holds exactly one entry for h, owned
by p2 with metadata (h, idx, idx != null); in_flight_count[p1] is its prior value
minus one and in_flight_count[p2] its prior value plus one in int16_t
arithmetic, which is a decrease by 1 unless the prior value of p1 was -32768 and
an increase by 1 unless the prior value of p2 was 32767; every other ledger
entry, every other counter and the peer states are unchanged. -/
theorem ownership_transfer (s : CRequestManager) (p1 p2 : NodeId) (h : uint256)
    (idx : BlockPtr) (e : QueuedBlock)
    (hf : mapFind s.mapBlocksInFlight h = some (p1, e)) (hne : p2 ≠ p1)
    (hp2 : (mapFind s.mapNumBlocksInFlight p2).isSome = true) :
    mapFind (MarkBlockAsInFlight s p2 h idx).mapBlocksInFlight h
        = some (p2, { hash := h, pindex := idx, haveIndex := idx.isSome }) ∧
      ((MarkBlockAsInFlight s p2 h idx).mapBlocksInFlight.filter
        (fun x => decide (x.1 = h))).length = 1 ∧
      numBlocksInFlight (MarkBlockAsInFlight s p2 h idx) p1 = numBlocksInFlight s p1 - 1 ∧
      numBlocksInFlight (MarkBlockAsInFlight s p2 h idx) p2 = numBlocksInFlight s p2 + 1 ∧
      (-32768 < (numBlocksInFlight s p1).toInt →
        (numBlocksInFlight (MarkBlockAsInFlight s p2 h idx) p1).toInt
          = (numBlocksInFlight s p1).toInt - 1) ∧
      ((numBlocksInFlight s p2).toInt < 32767 →
        (numBlocksInFlight (MarkBlockAsInFlight s p2 h idx) p2).toInt
          = (numBlocksInFlight s p2).toInt + 1) ∧
      mapErase (MarkBlockAsInFlight s p2 h idx).mapBlocksInFlight h
        = mapErase s.mapBlocksInFlight h ∧
      (∀ q, q ≠ p1 → q ≠ p2 →
        mapFind (MarkBlockAsInFlight s p2 h idx).mapNumBlocksInFlight q
          = mapFind s.mapNumBlocksInFlight q) ∧
      (MarkBlockAsInFlight s p2 h idx).mapNodeState = s.mapNodeState := by
  have hp2' := received_present s h p2 hp2
  have hn1 : numBlocksInFlight (MarkBlockAsInFlight s p2 h idx) p1 = numBlocksInFlight s p1 - 1 := by
    rw [mark_num_present s p2 h idx hp2' p1, if_neg (Ne.symm hne),
      received_num_found s h p1 e hf p1, if_pos rfl]
  have hn2 : numBlocksInFlight (MarkBlockAsInFlight s p2 h idx) p2 = numBlocksInFlight s p2 + 1 := by
    rw [mark_num_present s p2 h idx hp2' p2, if_pos rfl,
      received_num_found s h p1 e hf p2, if_neg hne]
  refine ⟨mark_find_self s p2 h idx, ?_, hn1, hn2, ?_, ?_, ?_, ?_, mark_nodeState s p2 h idx⟩
  · rw [mark_ledger]
    have hperm := mapAssign_perm (mapErase s.mapBlocksInFlight h) h
      (p2, ({ hash := h, pindex := idx, haveIndex := idx.isSome } : QueuedBlock))
      (mapFind_erase_self _ _)
    rw [(hperm.filter _).length_eq, List.filter_cons_of_pos (by simp), mapErase_filter_key]
    rfl
  · intro hlt
    rw [hn1]
    exact int16_toInt_sub_one _ hlt
  · intro hlt
    rw [hn2]
    exact int16_toInt_add_one _ hlt
  · rw [mark_ledger, mapErase_assign]
    simp only [mapErase, List.filter_filter, Bool.and_self]
  · intro q hq1 hq2
    obtain ⟨c, hc⟩ := Option.isSome_iff_exists.mp hp2'
    rw [mark_counters_present s p2 h idx c hc, mapFind_assign_ne _ _ hq2,
      received_of_found s h p1 e hf]
    exact mapFind_assign_ne _ _ hq1

/-- C3, witness: hash 5 is in flight to peer 1 and is marked in flight to peer 2. -/
theorem ownership_transfer_witness :
    mapFind (runOps CRequestManager.empty
        [.initNode (peer 1), .initNode (peer 2), .markInFlight 1 5 none,
          .markInFlight 2 6 none]).mapBlocksInFlight 5
        = some (1, { hash := 5, pindex := none, haveIndex := false }) ∧
      numBlocksInFlight (MarkBlockAsInFlight (runOps CRequestManager.empty
        [.initNode (peer 1), .initNode (peer 2), .markInFlight 1 5 none,
          .markInFlight 2 6 none]) 2 5 (some 3)) 2 = 2 :=
  ⟨by decide,
    ((ownership_transfer (runOps CRequestManager.empty
        [.initNode (peer 1), .initNode (peer 2), .markInFlight 1 5 none,
          .markInFlight 2 6 none]) 1 2 5 (some 3) { hash := 5, pindex := none, haveIndex := false }
        (by decide) (by decide) (by decide)).2.2.2.1).trans (by decide)⟩

set_option maxRecDepth 1000000 in
/-- C3, counterexample: in `fullLedger` hash 1 is in flight to peer 1, peer 2
owns 32767 entries and its counter is 32767; after MarkBlockAsInFlight(2, 1,
null) the counter of peer 2 is -32768: it has not increased by 1. -/
theorem ownership_transfer_overflow_counterexample :
    mapFind fullLedger.mapBlocksInFlight 1
        = some (1, { hash := 1, pindex := none, haveIndex := false }) ∧
      (mapFind fullLedger.mapNumBlocksInFlight 1).isSome = true ∧
      (mapFind fullLedger.mapNumBlocksInFlight 2).isSome = true ∧
      ownedCount fullLedger 1 = 1 ∧ (numBlocksInFlight fullLedger 1).toInt = 1 ∧
      ownedCount fullLedger 2 = 32767 ∧ (numBlocksInFlight fullLedger 2).toInt = 32767 ∧
      (numBlocksInFlight (MarkBlockAsInFlight fullLedger 2 1 none) 2).toInt = -32768 := by
  refine ⟨by decide, by decide, by decide, ?_, by decide, ?_, by decide, by decide⟩
  · simp [ownedCount, fullLedger, List.filter_cons, List.filter_map, Function.comp_def]
  · simp [ownedCount, fullLedger, List.filter_cons, List.filter_map, Function.comp_def]

/-! ## Lemmas on `FindNextBlocksToDownload` -/

theorem scanBatch_appends (cm : CChainManager) (s : CRequestManager) (count : Nat)
    (nWindowEnd : Int) (batch : List Nat) :
    ∀ st : WalkState, ∃ added : List Nat,
      (scanBatch cm s count nWindowEnd batch st).2.vBlocks = st.vBlocks ++ added ∧
        added.Sublist batch ∧ ∀ p ∈ added, Fetchable cm s nWindowEnd p := by
  induction batch with
  | nil => intro st; exact ⟨[], by simp [scanBatch], List.Sublist.refl _, by simp⟩
  | cons pindex rest ih =>
    intro st
    unfold scanBatch
    split_ifs with h1 h2 h3 h4 h5 h6
    · obtain ⟨added, e, hs, hq⟩ := ih st
      exact ⟨added, e, hs.cons _, hq⟩
    · exact ⟨[], by simp, List.nil_sublist _, by simp⟩
    · obtain ⟨added, e, hs, hq⟩ := ih { st with pindexLastCommonBlock := some pindex }
      exact ⟨added, e, hs.cons _, hq⟩
    · obtain ⟨added, e, hs, hq⟩ := ih st
      exact ⟨added, e, hs.cons _, hq⟩
    · exact ⟨[], by simp, List.nil_sublist _, by simp⟩
    · refine ⟨[pindex], rfl, List.singleton_sublist.mpr (List.mem_cons_self _ _), ?_⟩
      intro p hp
      rw [List.mem_singleton.mp hp]
      simp only [Bool.or_eq_true, not_or, Bool.not_eq_true] at h3
      exact ⟨by simpa using h1, by simpa using h2, h3.1, h3.2, by omega⟩
    · obtain ⟨added, e, hs, hq⟩ := ih { st with vBlocks := st.vBlocks ++ [pindex] }
      refine ⟨pindex :: added, by simpa using e, hs.cons₂ _, ?_⟩
      intro p hp
      rcases List.mem_cons.mp hp with hp | hp
      · rw [hp]
        simp only [Bool.or_eq_true, not_or, Bool.not_eq_true] at h3
        exact ⟨by simpa using h1, by simpa using h2, h3.1, h3.2, by omega⟩
      · exact hq p hp

theorem walkLoop_appends (cm : CChainManager) (s : CRequestManager) (count : Nat) (best : Nat)
    (nWindowEnd nMaxHeight : Int) (fuel : Nat) :
    ∀ (pindexWalk : Nat) (st st' : WalkState),
      walkLoop cm s count best nWindowEnd nMaxHeight fuel pindexWalk st = some st' →
      ∃ added : List Nat, st'.vBlocks = st.vBlocks ++ added ∧
        ∀ p ∈ added, Fetchable cm s nWindowEnd p := by
  induction fuel with
  | zero =>
    intro w st st' h
    unfold walkLoop at h
    split_ifs at h
    cases h
    exact ⟨[], by simp, by simp⟩
  | succ fuel ih =>
    intro w st st' h
    unfold walkLoop at h
    split_ifs at h with hlt
    · simp only [] at h
      split at h
      · cases h
      · split at h
        · cases h
        · rename_i _ w' _ _ vToFetch _
          obtain ⟨added, e, _, hq⟩ := scanBatch_appends cm s count nWindowEnd vToFetch st
          split at h
          · rename_i st1 hsc
            cases h
            rw [hsc] at e
            exact ⟨added, e, hq⟩
          · rename_i st1 hsc
            rw [hsc] at e
            obtain ⟨added2, e2, hq2⟩ := ih w' st1 st' h
            refine ⟨added ++ added2, by rw [e2, e, List.append_assoc], ?_⟩
            intro p hp
            rcases List.mem_append.mp hp with hp | hp
            · exact hq p hp
            · exact hq2 p hp
    · cases h
      exact ⟨[], by simp, by simp⟩

theorem processBlockAvailability_ledger (cm : CChainManager) (s s1 : CRequestManager)
    (id : NodeId) (h : ProcessBlockAvailability cm s id = some s1) :
    s1.mapBlocksInFlight = s.mapBlocksInFlight ∧
      s1.mapNumBlocksInFlight = s.mapNumBlocksInFlight := by
  unfold ProcessBlockAvailability at h
  split at h
  · cases h
  · cases h
    exact ⟨rfl, rfl⟩

theorem alreadyAsked_congr (s s1 : CRequestManager)
    (h : s1.mapBlocksInFlight = s.mapBlocksInFlight) (hash : uint256) :
    AlreadyAskedForBlock s1 hash = AlreadyAskedForBlock s hash := by
  simp [AlreadyAskedForBlock, h]

/-- What a run of `FindNextBlocksToDownload` that returns has done. -/
theorem findNext_inv (W : Int) (cm : CChainManager) (fuel : Nat) (s : CRequestManager)
    (node : CNode) (count : Nat) (vBlocks : List Nat) (r : CRequestManager × List Nat)
    (h : FindNextBlocksToDownload W cm fuel s node count vBlocks = some r) :
    (r = (s, vBlocks)) ∨
      ∃ s1 state, ProcessBlockAvailability cm s node.id = some s1 ∧
        mapFind s1.mapNodeState node.id = some state ∧
        (r = (s1, vBlocks) ∨
          ∃ best common lc out, state.pindexBestKnownBlock = some best ∧
            r = (setLastCommonBlock s1 node.id state lc, out) ∧
            ((common = best ∧ lc = some common ∧ out = vBlocks) ∨
              ∃ st, walkLoop cm s1 count best (cm.Height + W)
                  (min (cm.index best).nHeight (cm.Height + W + 1)) fuel common
                  { pindexLastCommonBlock := some common, vBlocks := vBlocks } = some st ∧
                lc = st.pindexLastCommonBlock ∧ out = st.vBlocks)) := by
  unfold FindNextBlocksToDownload at h
  split_ifs at h with hc
  · exact Or.inl (Option.some.inj h).symm
  · right
    split at h
    · cases h
    · rename_i s1 hs1
      split at h
      · cases h
      · rename_i state hstate
        refine ⟨s1, state, hs1, hstate, ?_⟩
        split at h
        · exact Or.inl (Option.some.inj h).symm
        · rename_i best hbest
          split at h
          · cases h
          · split_ifs at h with hw
            · exact Or.inl (Option.some.inj h).symm
            · simp only [] at h
              split at h
              · cases h
              · split at h
                · cases h
                · cases h
                · rename_i common _
                  split_ifs at h with hcb
                  · exact Or.inr ⟨best, common, some common, vBlocks, hbest,
                      (Option.some.inj h).symm, Or.inl ⟨hcb, rfl, rfl⟩⟩
                  · split at h
                    · cases h
                    · rename_i st hst
                      exact Or.inr ⟨best, common, st.pindexLastCommonBlock, st.vBlocks, hbest,
                        (Option.some.inj h).symm, Or.inr ⟨st, hst, rfl, rfl⟩⟩

/-- The blocks appended by a run of `FindNextBlocksToDownload`, and what the run
leaves alone. -/
theorem findNext_appends (W : Int) (cm : CChainManager) (fuel : Nat) (s : CRequestManager)
    (node : CNode) (count : Nat) (vBlocks : List Nat) (r : CRequestManager × List Nat)
    (h : FindNextBlocksToDownload W cm fuel s node count vBlocks = some r) :
    r.1.mapBlocksInFlight = s.mapBlocksInFlight ∧
      r.1.mapNumBlocksInFlight = s.mapNumBlocksInFlight ∧
      ∃ added : List Nat, r.2 = vBlocks ++ added ∧
        ∀ p ∈ added, Fetchable cm s (cm.Height + W) p := by
  rcases findNext_inv W cm fuel s node count vBlocks r h with h0 | ⟨s1, state, hs1, _, h1⟩
  · subst h0
    exact ⟨rfl, rfl, [], by simp, by simp⟩
  · obtain ⟨hl, hn⟩ := processBlockAvailability_ledger cm s s1 node.id hs1
    rcases h1 with h1 | ⟨best, common, lc, out, _, hr, h2⟩
    · subst h1
      exact ⟨hl, hn, [], by simp, by simp⟩
    · subst hr
      refine ⟨hl, hn, ?_⟩
      rcases h2 with ⟨_, _, ho⟩ | ⟨st, hst, _, ho⟩
      · exact ⟨[], by simp [ho], by simp⟩
      · obtain ⟨added, e, hq⟩ := walkLoop_appends cm s1 count best _ _ fuel common _ st hst
        refine ⟨added, by rw [ho, e], ?_⟩
        intro p hp
        obtain ⟨q1, q2, q3, q4, q5⟩ := hq p hp
        exact ⟨by rw [← alreadyAsked_congr s s1 hl]; exact q1, q2, q3, q4, q5⟩

/-! ## Lemmas on the block index and `LastCommonAncestor` -/

theorem walkBack_none (index : Nat → CBlockIndex) (n : Nat) : walkBack index n none = none := by
  cases n <;> rfl

theorem walkBack_succ (index : Nat → CBlockIndex) (n : Nat) (a : Nat) :
    walkBack index (n + 1) (some a) = walkBack index n (index a).pprev := rfl

theorem walkBack_add (index : Nat → CBlockIndex) (m n : Nat) :
    ∀ p : BlockPtr, walkBack index (m + n) p = walkBack index n (walkBack index m p) := by
  induction m with
  | zero => intro p; rw [Nat.zero_add]; rfl
  | succ m ih =>
    intro p
    cases p with
    | none => rw [walkBack_none, walkBack_none, walkBack_none]
    | some a =>
      rw [show m + 1 + n = (m + n) + 1 by omega, walkBack_succ, walkBack_succ, ih]

theorem walkBack_height (index : Nat → CBlockIndex) (wf : WellFormed index) (n : Nat) :
    ∀ a x : Nat, walkBack index n (some a) = some x →
      (index x).nHeight = (index a).nHeight - n := by
  induction n with
  | zero =>
    intro a x h
    have : a = x := Option.some.inj h
    subst this
    simp
  | succ n ih =>
    intro a x h
    rw [walkBack_succ] at h
    cases hp : (index a).pprev with
    | none => rw [hp, walkBack_none] at h; cases h
    | some q =>
      rw [hp] at h
      have h1 := ih q x h
      have h2 := wf.height_prev a q hp
      rw [h1, h2]
      push_cast
      ring

theorem walkBack_some_of_add (index : Nat → CBlockIndex) (m n : Nat) (p : BlockPtr) (g : Nat)
    (h : walkBack index (m + n) p = some g) :
    ∃ y, walkBack index m p = some y ∧ walkBack index n (some y) = some g := by
  rw [walkBack_add] at h
  cases hy : walkBack index m p with
  | none => rw [hy, walkBack_none] at h; cases h
  | some y => rw [hy] at h; exact ⟨y, rfl, h⟩

theorem isAncestorOrEq_refl (index : Nat → CBlockIndex) (a : Nat) : IsAncestorOrEq index a a :=
  ⟨0, rfl⟩

theorem isAncestorOrEq_trans (index : Nat → CBlockIndex) {x y z : Nat}
    (h1 : IsAncestorOrEq index x y) (h2 : IsAncestorOrEq index y z) : IsAncestorOrEq index x z := by
  obtain ⟨n, hn⟩ := h1
  obtain ⟨m, hm⟩ := h2
  exact ⟨m + n, by rw [walkBack_add, hm, hn]⟩

theorem isAncestorOrEq_of_pprev (index : Nat → CBlockIndex) {a q : Nat}
    (h : (index a).pprev = some q) : IsAncestorOrEq index q a :=
  ⟨1, by rw [walkBack_succ, h]; rfl⟩

theorem isAncestorOrEq_height_le (index : Nat → CBlockIndex) (wf : WellFormed index) {x a : Nat}
    (h : IsAncestorOrEq index x a) : (index x).nHeight ≤ (index a).nHeight := by
  obtain ⟨n, hn⟩ := h
  have := walkBack_height index wf n a x hn
  omega

theorem isAncestorOrEq_walkBack (index : Nat → CBlockIndex) (wf : WellFormed index) {x a : Nat}
    (h : IsAncestorOrEq index x a) :
    walkBack index ((index a).nHeight - (index x).nHeight).toNat (some a) = some x := by
  obtain ⟨n, hn⟩ := h
  have h1 := walkBack_height index wf n a x hn
  have : ((index a).nHeight - (index x).nHeight).toNat = n := by omega
  rw [this, hn]

theorem isAncestorOrEq_antisymm (index : Nat → CBlockIndex) (wf : WellFormed index) {x y : Nat}
    (h1 : IsAncestorOrEq index x y) (h2 : IsAncestorOrEq index y x) : x = y := by
  have l1 := isAncestorOrEq_height_le index wf h1
  have l2 := isAncestorOrEq_height_le index wf h2
  have h := isAncestorOrEq_walkBack index wf h1
  have : ((index y).nHeight - (index x).nHeight).toNat = 0 := by omega
  rw [this] at h
  exact (Option.some.inj h).symm

/-- Two ancestors of one block, the first not higher than the second: the first
is an ancestor of the second. -/
theorem isAncestorOrEq_of_le (index : Nat → CBlockIndex) (wf : WellFormed index) {c y a : Nat}
    (hc : IsAncestorOrEq index c a) (hy : IsAncestorOrEq index y a)
    (hle : (index c).nHeight ≤ (index y).nHeight) : IsAncestorOrEq index c y := by
  have e1 := isAncestorOrEq_walkBack index wf hc
  have e2 := isAncestorOrEq_walkBack index wf hy
  have l2 := isAncestorOrEq_height_le index wf hy
  have hsplit : ((index a).nHeight - (index c).nHeight).toNat
      = ((index a).nHeight - (index y).nHeight).toNat
        + ((index y).nHeight - (index c).nHeight).toNat := by omega
  rw [hsplit, walkBack_add, e2] at e1
  exact ⟨_, e1⟩

theorem getAncestor_eq_walkBack (index : Nat → CBlockIndex) (a : Nat) (height : Int)
    (h1 : 0 ≤ height) (h2 : height ≤ (index a).nHeight) :
    GetAncestor index a height
      = walkBack index ((index a).nHeight - height).toNat (some a) := by
  unfold GetAncestor
  rw [if_neg (by omega)]

/-- In a well-formed index `GetAncestor` returns the ancestor at the height
asked for, for every height between that of a known ancestor and the block's. -/
theorem getAncestor_of_anc (index : Nat → CBlockIndex) (wf : WellFormed index) {x a : Nat}
    (hx : IsAncestorOrEq index x a) (height : Int) (h1 : (index x).nHeight ≤ height)
    (h2 : height ≤ (index a).nHeight) :
    ∃ y, GetAncestor index a height = some y ∧ IsAncestorOrEq index y a ∧
      IsAncestorOrEq index x y ∧ (index y).nHeight = height := by
  have hx0 := wf.height_nonneg x
  have e1 := isAncestorOrEq_walkBack index wf hx
  have hsplit : ((index a).nHeight - (index x).nHeight).toNat
      = ((index a).nHeight - height).toNat + (height - (index x).nHeight).toNat := by omega
  rw [hsplit] at e1
  obtain ⟨y, hy1, hy2⟩ := walkBack_some_of_add index _ _ _ _ e1
  refine ⟨y, ?_, ⟨_, hy1⟩, ⟨_, hy2⟩, ?_⟩
  · rw [getAncestor_eq_walkBack index a height (by omega) h2, hy1]
  · have := walkBack_height index wf _ a y hy1
    omega

theorem lcaLoop_self (index : Nat → CBlockIndex) (fuel : Nat) (a : Nat) :
    lcaLoop index fuel (some a) (some a) = some (some a) := by
  cases fuel <;> simp [lcaLoop]

theorem lcaLoop_step (index : Nat → CBlockIndex) (fuel : Nat) {a b : Nat} (h : a ≠ b) :
    lcaLoop index (fuel + 1) (some a) (some b)
      = lcaLoop index fuel (index a).pprev (index b).pprev := by
  simp [lcaLoop, h]

theorem lcaLoop_comm (index : Nat → CBlockIndex) (fuel : Nat) :
    ∀ pa pb : BlockPtr, lcaLoop index fuel pa pb = lcaLoop index fuel pb pa := by
  induction fuel with
  | zero =>
    intro pa pb
    cases pa <;> cases pb <;> simp only [lcaLoop]
    rename_i a b
    by_cases h : a = b
    · subst h; rfl
    · rw [if_neg h, if_neg (Ne.symm h)]
  | succ fuel ih =>
    intro pa pb
    cases pa <;> cases pb <;> simp only [lcaLoop]
    rename_i a b
    by_cases h : a = b
    · subst h; rfl
    · rw [if_neg h, if_neg (Ne.symm h)]
      exact ih _ _

/-- The loop of `LastCommonAncestor` from two blocks that both reach `g` in `n`
steps: with fuel `n` it returns their deepest common ancestor. -/
theorem lcaLoop_spec (index : Nat → CBlockIndex) (wf : WellFormed index) (n : Nat) :
    ∀ (a b g fuel : Nat), walkBack index n (some a) = some g →
      walkBack index n (some b) = some g → n ≤ fuel →
      ∃ r, lcaLoop index fuel (some a) (some b) = some (some r) ∧
        IsAncestorOrEq index r a ∧ IsAncestorOrEq index r b ∧
        ∀ c, IsAncestorOrEq index c a → IsAncestorOrEq index c b → IsAncestorOrEq index c r := by
  induction n with
  | zero =>
    intro a b g fuel ha hb _
    have e1 : a = g := Option.some.inj ha
    have e2 : b = g := Option.some.inj hb
    rw [e1, e2]
    exact ⟨g, lcaLoop_self index fuel g, isAncestorOrEq_refl index g,
      isAncestorOrEq_refl index g, fun c hc _ => hc⟩
  | succ n ih =>
    intro a b g fuel ha hb hfuel
    by_cases hab : a = b
    · subst hab
      exact ⟨a, lcaLoop_self index fuel a, isAncestorOrEq_refl index a,
        isAncestorOrEq_refl index a, fun c hc _ => hc⟩
    · obtain ⟨f, rfl⟩ : ∃ f, fuel = f + 1 := ⟨fuel - 1, by omega⟩
      rw [walkBack_succ] at ha hb
      cases hpa : (index a).pprev with
      | none => rw [hpa, walkBack_none] at ha; cases ha
      | some a' =>
        cases hpb : (index b).pprev with
        | none => rw [hpb, walkBack_none] at hb; cases hb
        | some b' =>
          rw [hpa] at ha
          rw [hpb] at hb
          obtain ⟨r, hr, ra, rb, hdeep⟩ := ih a' b' g f ha hb (by omega)
          refine ⟨r, ?_, isAncestorOrEq_trans index ra (isAncestorOrEq_of_pprev index hpa),
            isAncestorOrEq_trans index rb (isAncestorOrEq_of_pprev index hpb), ?_⟩
          · rw [lcaLoop_step index f hab, hpa, hpb, hr]
          · intro c hca hcb
            have hha := walkBack_height index wf n a' g ha
            have hhb := walkBack_height index wf n b' g hb
            have hpa' := wf.height_prev a a' hpa
            have hpb' := wf.height_prev b b' hpb
            have key : ∀ (u u' v : Nat), (index u).pprev = some u' →
                (index u).nHeight = (index v).nHeight → u ≠ v →
                IsAncestorOrEq index c u → IsAncestorOrEq index c v →
                IsAncestorOrEq index c u' := by
              intro u u' v hpu hh hne hcu hcv
              obtain ⟨m, hm⟩ := hcu
              cases m with
              | zero =>
                have hcu' : u = c := Option.some.inj hm
                subst hcu'
                exact absurd (isAncestorOrEq_antisymm index wf hcv
                  (isAncestorOrEq_of_le index wf (isAncestorOrEq_refl index v) hcv
                    (by omega))) hne
              | succ m =>
                rw [walkBack_succ, hpu] at hm
                exact ⟨m, hm⟩
            exact hdeep c (key a a' b hpa (by omega) hab hca hcb)
              (key b b' a hpb (by omega) (Ne.symm hab) hcb hca)

/-- `LastCommonAncestor` on a well-formed index, for two blocks with a common
ancestor `g`: with fuel at least the smaller height it returns the deepest
common ancestor. -/
theorem lastCommonAncestor_spec (index : Nat → CBlockIndex) (wf : WellFormed index)
    (a b g fuel : Nat) (ha : IsAncestorOrEq index g a) (hb : IsAncestorOrEq index g b)
    (hfuel : min (index a).nHeight (index b).nHeight ≤ (fuel : Int)) :
    ∃ r, LastCommonAncestor index fuel a b = some (some r) ∧
      IsAncestorOrEq index r a ∧ IsAncestorOrEq index r b ∧
      ∀ c, IsAncestorOrEq index c a → IsAncestorOrEq index c b → IsAncestorOrEq index c r := by
  have hg0 := wf.height_nonneg g
  have la := isAncestorOrEq_height_le index wf ha
  have lb := isAncestorOrEq_height_le index wf hb
  have ea := isAncestorOrEq_walkBack index wf ha
  have eb := isAncestorOrEq_walkBack index wf hb
  unfold LastCommonAncestor
  split_ifs with h1 h2
  · obtain ⟨a0, ha0, ha0a, hga0, hh⟩ :=
      getAncestor_of_anc index wf ha (index b).nHeight lb (by omega)
    have ea0 := isAncestorOrEq_walkBack index wf hga0
    rw [hh] at ea0
    obtain ⟨r, hr, ra, rb, hdeep⟩ := lcaLoop_spec index wf _ a0 b g fuel ea0 eb (by omega)
    refine ⟨r, by rw [ha0, hr], isAncestorOrEq_trans index ra ha0a, rb, ?_⟩
    intro c hca hcb
    have hc := isAncestorOrEq_height_le index wf hcb
    exact hdeep c (isAncestorOrEq_of_le index wf hca ha0a (by omega)) hcb
  · obtain ⟨b0, hb0, hb0b, hgb0, hh⟩ :=
      getAncestor_of_anc index wf hb (index a).nHeight la (by omega)
    have eb0 := isAncestorOrEq_walkBack index wf hgb0
    rw [hh] at eb0
    obtain ⟨r, hr, ra, rb, hdeep⟩ := lcaLoop_spec index wf _ a b0 g fuel ea eb0 (by omega)
    refine ⟨r, by rw [hb0, hr], ra, isAncestorOrEq_trans index rb hb0b, ?_⟩
    intro c hca hcb
    have hc := isAncestorOrEq_height_le index wf hca
    exact hdeep c hca (isAncestorOrEq_of_le index wf hcb hb0b (by omega))
  · have hh : (index a).nHeight = (index b).nHeight := by omega
    rw [hh] at ea
    exact lcaLoop_spec index wf _ a b g fuel ea eb (by omega)

theorem lastCommonAncestor_self (index : Nat → CBlockIndex) (fuel : Nat) (a : Nat) :
    LastCommonAncestor index fuel a a = some (some a) := by
  unfold LastCommonAncestor
  simp [lcaLoop_self]

theorem lastCommonAncestor_comm (index : Nat → CBlockIndex) (fuel : Nat) (a b : Nat) :
    LastCommonAncestor index fuel a b = LastCommonAncestor index fuel b a := by
  unfold LastCommonAncestor
  by_cases h1 : (index a).nHeight > (index b).nHeight
  · rw [if_pos h1, if_neg (by omega), if_pos h1]
    exact lcaLoop_comm index fuel _ _
  · by_cases h2 : (index b).nHeight > (index a).nHeight
    · rw [if_neg h1, if_pos h2, if_pos h2]
      exact lcaLoop_comm index fuel _ _
    · rw [if_neg h1, if_neg h2, if_neg h2, if_neg h1]
      exact lcaLoop_comm index fuel _ _

theorem forkIndex_wellFormed : WellFormed forkIndex := by
  constructor
  · intro p
    rcases p with _ | _ | _ | _ | _ | _ | _ | p <;> simp [forkIndex, mkBlock]
  · intro p q h
    rcases p with _ | _ | _ | _ | _ | _ | _ | p <;> simp [forkIndex, mkBlock] at h <;>
      subst h <;> simp [forkIndex, mkBlock]

theorem lineIndex_wellFormed (stored : Nat) : WellFormed (lineIndex stored) := by
  constructor
  · intro p
    simp [lineIndex]
  · intro p q h
    by_cases hp : p = 0
    · simp [lineIndex, hp] at h
    · have hq : p - 1 = q := by simpa [lineIndex, hp] using h
      subst hq
      simp only [lineIndex]
      omega

theorem forkIndex_not_ancestor : ¬ IsAncestorOrEq forkIndex 3 6 := by
  intro h
  have e := isAncestorOrEq_walkBack forkIndex forkIndex_wellFormed h
  have e2 : walkBack forkIndex ((forkIndex 6).nHeight - (forkIndex 3).nHeight).toNat (some 6)
      = some 5 := by decide
  rw [e2] at e
  exact absurd e (by decide)

/-! ## The walk of `FindNextBlocksToDownload` on a well-formed index -/

theorem fetchFloor_ge (count size : Nat) : 128 ≤ fetchFloor count size := by
  unfold fetchFloor
  exact le_max_right _ _

/-- The backward fill from `p` over `k` links that exist: `k + 1` blocks, all
between `x` (the block `k` links below `p`) and `p`. -/
theorem backfill_mem (index : Nat → CBlockIndex) (x : Nat) (k : Nat) :
    ∀ (p : Nat) (acc : List Nat), walkBack index k (some p) = some x →
      ∃ path, backfill index k p acc = some (path ++ acc) ∧ path.length = k + 1 ∧
        ∀ q ∈ path, IsAncestorOrEq index q p ∧ IsAncestorOrEq index x q := by
  induction k with
  | zero =>
    intro p acc h
    have hx : p = x := Option.some.inj h
    rw [← hx]
    refine ⟨[p], rfl, rfl, ?_⟩
    intro q hq
    rw [List.mem_singleton.mp hq]
    exact ⟨isAncestorOrEq_refl index p, isAncestorOrEq_refl index p⟩
  | succ k ih =>
    intro p acc h
    rw [walkBack_succ] at h
    cases hp : (index p).pprev with
    | none => rw [hp, walkBack_none] at h; cases h
    | some q =>
      rw [hp] at h
      obtain ⟨path, e, hl, hq⟩ := ih q (p :: acc) h
      refine ⟨path ++ [p], ?_, by simp [hl], ?_⟩
      · simp only [backfill, hp]
        rw [e, List.append_assoc]
        rfl
      · intro y hy
        rcases List.mem_append.mp hy with hy | hy
        · exact ⟨isAncestorOrEq_trans index (hq y hy).1 (isAncestorOrEq_of_pprev index hp),
            (hq y hy).2⟩
        · rw [List.mem_singleton.mp hy]
          exact ⟨isAncestorOrEq_refl index p,
            isAncestorOrEq_trans index ⟨k, h⟩ (isAncestorOrEq_of_pprev index hp)⟩

theorem scanBatch_lastCommon (cm : CChainManager) (s : CRequestManager) (count : Nat)
    (nWindowEnd : Int) (batch : List Nat) :
    ∀ st : WalkState,
      (scanBatch cm s count nWindowEnd batch st).2.pindexLastCommonBlock
          = st.pindexLastCommonBlock ∨
        ∃ p ∈ batch,
          (scanBatch cm s count nWindowEnd batch st).2.pindexLastCommonBlock = some p := by
  induction batch with
  | nil => intro st; exact Or.inl rfl
  | cons pindex rest ih =>
    intro st
    have lift : ∀ st1 : WalkState,
        (st1.pindexLastCommonBlock = st.pindexLastCommonBlock ∨
          st1.pindexLastCommonBlock = some pindex) →
        ((scanBatch cm s count nWindowEnd rest st1).2.pindexLastCommonBlock
            = st.pindexLastCommonBlock ∨
          ∃ p ∈ pindex :: rest,
            (scanBatch cm s count nWindowEnd rest st1).2.pindexLastCommonBlock = some p) := by
      intro st1 h1
      rcases ih st1 with h | ⟨p, hp, h⟩
      · rcases h1 with h1 | h1
        · exact Or.inl (h.trans h1)
        · exact Or.inr ⟨pindex, List.mem_cons_self _ _, h.trans h1⟩
      · exact Or.inr ⟨p, List.mem_cons_of_mem _ hp, h⟩
    unfold scanBatch
    split_ifs
    · exact lift st (Or.inl rfl)
    · exact Or.inl rfl
    · exact lift _ (Or.inr rfl)
    · exact lift st (Or.inl rfl)
    · exact Or.inl rfl
    · exact Or.inl rfl
    · exact lift _ (Or.inl rfl)

/-- The walk on a well-formed index, started at an ancestor of the peer's best
block with `nMaxHeight` not above that block: with fuel `nMaxHeight - height` it
returns, and the last common block it leaves is the one it was given or a block
between the start of the walk and the best block. -/
theorem walkLoop_total (cm : CChainManager) (wf : WellFormed cm.index) (s : CRequestManager)
    (count : Nat) (best : Nat) (nWindowEnd nMaxHeight : Int)
    (hmax : nMaxHeight ≤ (cm.index best).nHeight) (fuel : Nat) :
    ∀ (pindexWalk : Nat) (st : WalkState), IsAncestorOrEq cm.index pindexWalk best →
      nMaxHeight - (cm.index pindexWalk).nHeight ≤ (fuel : Int) →
      ∃ st', walkLoop cm s count best nWindowEnd nMaxHeight fuel pindexWalk st = some st' ∧
        (st'.pindexLastCommonBlock = st.pindexLastCommonBlock ∨
          ∃ c, st'.pindexLastCommonBlock = some c ∧ IsAncestorOrEq cm.index c best ∧
            IsAncestorOrEq cm.index pindexWalk c) := by
  induction fuel with
  | zero =>
    intro w st _ hf
    refine ⟨st, ?_, Or.inl rfl⟩
    unfold walkLoop
    rw [if_neg (by simp at hf; omega)]
  | succ fuel ih =>
    intro w st hw hf
    unfold walkLoop
    split_ifs with hlt
    · have hfl := fetchFloor_ge count st.vBlocks.length
      obtain ⟨n, hn⟩ : ∃ n : Int,
          min (nMaxHeight - (cm.index w).nHeight) (fetchFloor count st.vBlocks.length) = n :=
        ⟨_, rfl⟩
      have hn1 : 1 ≤ n := by rw [← hn]; exact le_min (by omega) (by omega)
      have hn2 : n ≤ nMaxHeight - (cm.index w).nHeight := by rw [← hn]; exact min_le_left _ _
      simp only [hn]
      obtain ⟨w', hw', hw'b, hww', hh⟩ :=
        getAncestor_of_anc cm.index wf hw ((cm.index w).nHeight + n) (by omega) (by omega)
      rw [hw']
      simp only []
      have e1 := isAncestorOrEq_walkBack cm.index wf hww'
      have hsplit : ((cm.index w').nHeight - (cm.index w).nHeight).toNat = (n.toNat - 1) + 1 := by
        omega
      rw [hsplit] at e1
      obtain ⟨x, hx1, hx2⟩ := walkBack_some_of_add cm.index _ _ _ _ e1
      obtain ⟨path, e, _, hq⟩ := backfill_mem cm.index x (n.toNat - 1) w' [] hx1
      rw [e, List.append_nil]
      simp only []
      have hlc := scanBatch_lastCommon cm s count nWindowEnd path st
      have hbetween : ∀ p ∈ path, IsAncestorOrEq cm.index p best ∧ IsAncestorOrEq cm.index w p := by
        intro p hp
        exact ⟨isAncestorOrEq_trans cm.index (hq p hp).1 hw'b,
          isAncestorOrEq_trans cm.index ⟨1, hx2⟩ (hq p hp).2⟩
      have hfinal : ∀ st1 : WalkState,
          scanBatch cm s count nWindowEnd path st = ((scanBatch cm s count nWindowEnd path st).1, st1) →
          (st1.pindexLastCommonBlock = st.pindexLastCommonBlock ∨
            ∃ c, st1.pindexLastCommonBlock = some c ∧ IsAncestorOrEq cm.index c best ∧
              IsAncestorOrEq cm.index w c) := by
        intro st1 hsc
        have h2 : (scanBatch cm s count nWindowEnd path st).2 = st1 := by rw [hsc]
        rw [h2] at hlc
        rcases hlc with h | ⟨p, hp, h⟩
        · exact Or.inl h
        · exact Or.inr ⟨p, h, hbetween p hp⟩
      split
      · rename_i st1 hsc
        exact ⟨st1, rfl, hfinal st1 (by rw [hsc])⟩
      · rename_i st1 hsc
        obtain ⟨st', hst', hlc'⟩ := ih w' st1 hw'b (by push_cast at hf ⊢; omega)
        refine ⟨st', hst', ?_⟩
        rcases hlc' with h | ⟨c, hc, hcb, hwc⟩
        · rw [h]
          exact hfinal st1 (by rw [hsc])
        · exact Or.inr ⟨c, hc, hcb, isAncestorOrEq_trans cm.index hww' hwc⟩
    · exact ⟨st, rfl, Or.inl rfl⟩

theorem processBlockAvailability_eq (cm : CChainManager) (s : CRequestManager) (id : NodeId)
    (state0 : CNodeState) (h : mapFind s.mapNodeState id = some state0) :
    ProcessBlockAvailability cm s id
      = some { s with
          mapNodeState := mapAssign s.mapNodeState id (processAvailability cm state0) } := by
  simp [ProcessBlockAvailability, h]

/-- The run of `FindNextBlocksToDownload` up to the start of the walk, for a
registered peer that has something of interest. -/
theorem findNext_eq (W : Int) (cm : CChainManager) (fuel : Nat) (s s1 : CRequestManager)
    (node : CNode) (count : Nat) (vBlocks : List Nat) (state : CNodeState)
    (best tip l common : Nat) (hcount : count ≠ 0)
    (hs1 : ProcessBlockAvailability cm s node.id = some s1)
    (hstate : mapFind s1.mapNodeState node.id = some state)
    (hbest : state.pindexBestKnownBlock = some best) (htip : cm.Tip = some tip)
    (hwork : (cm.index tip).nChainWork ≤ (cm.index best).nChainWork)
    (hseed : (match state.pindexLastCommonBlock with
      | none => cm.chainAt (min (cm.index best).nHeight cm.Height)
      | some l => some l) = some l)
    (hlca : LastCommonAncestor cm.index fuel l best = some (some common)) :
    FindNextBlocksToDownload W cm fuel s node count vBlocks =
      if common = best then some (setLastCommonBlock s1 node.id state (some common), vBlocks)
      else
        (walkLoop cm s1 count best (cm.Height + W)
          (min (cm.index best).nHeight (cm.Height + W + 1)) fuel common
          { pindexLastCommonBlock := some common, vBlocks := vBlocks }).map
        (fun st => (setLastCommonBlock s1 node.id state st.pindexLastCommonBlock, st.vBlocks)) := by
  unfold FindNextBlocksToDownload
  rw [if_neg hcount, hs1]
  simp only [hstate, hbest, htip]
  rw [if_neg (by omega)]
  simp only [hseed, hlca]
  split_ifs
  · rfl
  · cases walkLoop cm s1 count best (cm.Height + W)
      (min (cm.index best).nHeight (cm.Height + W + 1)) fuel common
      { pindexLastCommonBlock := some common, vBlocks := vBlocks } <;> rfl

theorem processBlockAvailability_state (cm : CChainManager) (s : CRequestManager) (id : NodeId)
    (state0 : CNodeState) (h : mapFind s.mapNodeState id = some state0) :
    ∃ s1, ProcessBlockAvailability cm s id = some s1 ∧
      mapFind s1.mapNodeState id = some (processAvailability cm state0) :=
  ⟨_, processBlockAvailability_eq cm s id state0 h, mapFind_assign_self _ _ _⟩

theorem processAvailability_lastCommon (cm : CChainManager) (state : CNodeState) :
    (processAvailability cm state).pindexLastCommonBlock = state.pindexLastCommonBlock := by
  unfold processAvailability
  split_ifs
  · split
    · split_ifs
      · split
        · rfl
        · split_ifs <;> rfl
      · rfl
    · rfl
  · rfl

/-! ## The walk on a simple extension of the active chain -/

theorem ancestorsAbove_add (index : Nat → CBlockIndex) (best : Nat) (lo : Int) (a b : Nat) :
    ancestorsAbove index best lo (a + b)
      = ancestorsAbove index best lo a ++ ancestorsAbove index best (lo + a) b := by
  unfold ancestorsAbove
  rw [List.range_add, List.filterMap_append, List.filterMap_map]
  congr 2
  funext i
  simp only [Function.comp]
  congr 1
  push_cast
  ring

theorem ancestorsAbove_one (index : Nat → CBlockIndex) (best : Nat) (lo : Int) (q : Nat)
    (h : GetAncestor index best (lo + 1) = some q) : ancestorsAbove index best lo 1 = [q] := by
  simp [ancestorsAbove, List.range_succ, h]

theorem ancestorsAbove_mem (index : Nat → CBlockIndex) (wf : WellFormed index) (best x : Nat)
    (hx : IsAncestorOrEq index x best) (lo : Int) (hlo : (index x).nHeight ≤ lo) (k : Nat)
    (p : Nat) (hp : p ∈ ancestorsAbove index best lo k) :
    IsAncestorOrEq index p best ∧ lo < (index p).nHeight ∧ (index p).nHeight ≤ lo + k := by
  unfold ancestorsAbove at hp
  obtain ⟨i, hi, hg⟩ := List.mem_filterMap.mp hp
  have hik : i < k := List.mem_range.mp hi
  have hle : lo + 1 + (i : Int) ≤ (index best).nHeight := by
    by_contra hcon
    unfold GetAncestor at hg
    rw [if_pos (Or.inl (by omega))] at hg
    cases hg
  obtain ⟨y, hy, hyb, _, hh⟩ := getAncestor_of_anc index wf hx (lo + 1 + (i : Int)) (by omega) hle
  rw [hy] at hg
  have : y = p := Option.some.inj hg
  subst this
  exact ⟨hyb, by omega, by omega⟩

/-- The predecessor of the ancestor at height `j` is the ancestor at height
`j - 1`. -/
theorem getAncestor_pprev (index : Nat → CBlockIndex) (wf : WellFormed index) (best x : Nat)
    (hx : IsAncestorOrEq index x best) (j : Int) (hj : (index x).nHeight < j) (p : Nat)
    (hp : GetAncestor index best j = some p) :
    ∃ q, (index p).pprev = some q ∧ GetAncestor index best (j - 1) = some q := by
  have hle : j ≤ (index best).nHeight := by
    by_contra hcon
    unfold GetAncestor at hp
    rw [if_pos (Or.inl (by omega))] at hp
    cases hp
  obtain ⟨y, hy, hyb, _, hh⟩ := getAncestor_of_anc index wf hx j (by omega) hle
  rw [hy] at hp
  have hyp : y = p := Option.some.inj hp
  subst hyp
  obtain ⟨q, hq, hqb, _, hhq⟩ := getAncestor_of_anc index wf hx (j - 1) (by omega) (by omega)
  have hqy := isAncestorOrEq_of_le index wf hqb hyb (by omega)
  have e := isAncestorOrEq_walkBack index wf hqy
  have h1 : ((index y).nHeight - (index q).nHeight).toNat = 1 := by omega
  rw [h1, walkBack_succ] at e
  refine ⟨q, ?_, hq⟩
  cases hpp : (index y).pprev with
  | none => rw [hpp] at e; cases e
  | some z => rw [hpp] at e; exact e

/-- The backward fill from the ancestor at height `lo + k + 1` is the list of
the ancestors at the heights `lo + 1 … lo + k + 1`. -/
theorem backfill_eq_ancestorsAbove (index : Nat → CBlockIndex) (wf : WellFormed index)
    (best x : Nat) (hx : IsAncestorOrEq index x best) (lo : Int)
    (hlo : (index x).nHeight ≤ lo) (k : Nat) :
    ∀ (p : Nat) (acc : List Nat), GetAncestor index best (lo + 1 + (k : Int)) = some p →
      backfill index k p acc = some (ancestorsAbove index best lo (k + 1) ++ acc) := by
  induction k with
  | zero =>
    intro p acc hp
    rw [ancestorsAbove_one index best lo p (by simpa using hp)]
    rfl
  | succ k ih =>
    intro p acc hp
    obtain ⟨q, hq, hq2⟩ := getAncestor_pprev index wf best x hx _ (by omega) p hp
    have hq3 : GetAncestor index best (lo + 1 + (k : Int)) = some q := by
      rw [← hq2]
      congr 1
      push_cast
      ring
    have hsnoc : ancestorsAbove index best lo (k + 1 + 1)
        = ancestorsAbove index best lo (k + 1) ++ [p] := by
      rw [ancestorsAbove_add index best lo (k + 1) 1]
      congr 1
      apply ancestorsAbove_one
      rw [← hp]
      congr 1
      push_cast
      ring
    simp only [backfill, hq]
    rw [ih q (p :: acc) hq3, hsnoc, List.append_assoc]
    rfl

theorem scanBatch_cons (cm : CChainManager) (s : CRequestManager) (count : Nat)
    (nWindowEnd : Int) (pindex : Nat) (rest : List Nat) (st : WalkState) :
    scanBatch cm s count nWindowEnd (pindex :: rest) st =
      if AlreadyAskedForBlock s (cm.index pindex).hashBlock then
        scanBatch cm s count nWindowEnd rest st
      else if !(cm.index pindex).validTree then (true, st)
      else if (cm.index pindex).haveData || cm.Contains pindex then
        if (cm.index pindex).nChainTx ≠ 0 then
          scanBatch cm s count nWindowEnd rest { st with pindexLastCommonBlock := some pindex }
        else scanBatch cm s count nWindowEnd rest st
      else if (cm.index pindex).nHeight > nWindowEnd then (true, st)
      else if (st.vBlocks ++ [pindex]).length = count then
        (true, { st with vBlocks := st.vBlocks ++ [pindex] })
      else scanBatch cm s count nWindowEnd rest { st with vBlocks := st.vBlocks ++ [pindex] } := by
  rw [scanBatch]

theorem scanBatch_append (cm : CChainManager) (s : CRequestManager) (count : Nat)
    (nWindowEnd : Int) (l1 l2 : List Nat) :
    ∀ st : WalkState,
      scanBatch cm s count nWindowEnd (l1 ++ l2) st =
        if (scanBatch cm s count nWindowEnd l1 st).1 = true then
          scanBatch cm s count nWindowEnd l1 st
        else scanBatch cm s count nWindowEnd l2 (scanBatch cm s count nWindowEnd l1 st).2 := by
  induction l1 with
  | nil => intro st; simp [scanBatch]
  | cons p rest ih =>
    intro st
    rw [List.cons_append, scanBatch_cons cm s count nWindowEnd p (rest ++ l2),
      scanBatch_cons cm s count nWindowEnd p rest]
    by_cases h1 : AlreadyAskedForBlock s (cm.index p).hashBlock = true
    · simp only [if_pos h1]
      exact ih st
    · simp only [if_neg h1]
      by_cases h2 : (!(cm.index p).validTree) = true
      · simp only [if_pos h2]
        simp
      · simp only [if_neg h2]
        by_cases h3 : ((cm.index p).haveData || cm.Contains p) = true
        · simp only [if_pos h3]
          by_cases h4 : (cm.index p).nChainTx ≠ 0
          · simp only [if_pos h4]
            exact ih _
          · simp only [if_neg h4]
            exact ih _
        · simp only [if_neg h3]
          by_cases h5 : (cm.index p).nHeight > nWindowEnd
          · simp only [if_pos h5]
            simp
          · simp only [if_neg h5]
            by_cases h6 : (st.vBlocks ++ [p]).length = count
            · simp only [if_pos h6]
              simp
            · simp only [if_neg h6]
              exact ih _

/-- The scan of blocks that are valid, not stored, not on the active chain and
inside the window, into a vector with fewer than `count` entries: the blocks not
in flight are appended until the vector has `count` entries. -/
theorem scanBatch_within (cm : CChainManager) (s : CRequestManager) (count : Nat)
    (nWindowEnd : Int) (batch : List Nat) :
    ∀ (lc : BlockPtr) (out : List Nat),
      (∀ p ∈ batch, (cm.index p).validTree = true ∧ (cm.index p).haveData = false ∧
        cm.Contains p = false ∧ (cm.index p).nHeight ≤ nWindowEnd) →
      out.length < count →
      scanBatch cm s count nWindowEnd batch { pindexLastCommonBlock := lc, vBlocks := out } =
        (decide (count ≤ out.length + (batch.filter (notInFlight cm s)).length),
          { pindexLastCommonBlock := lc,
            vBlocks := out ++ (batch.filter (notInFlight cm s)).take (count - out.length) }) := by
  induction batch with
  | nil =>
    intro lc out _ hlt
    simp [scanBatch, hlt]
  | cons p rest ih =>
    intro lc out hall hlt
    obtain ⟨hv, hd, hc, hw⟩ := hall p (List.mem_cons_self _ _)
    have hrest : ∀ q ∈ rest, (cm.index q).validTree = true ∧ (cm.index q).haveData = false ∧
        cm.Contains q = false ∧ (cm.index q).nHeight ≤ nWindowEnd :=
      fun q hq => hall q (List.mem_cons_of_mem _ hq)
    unfold scanBatch
    by_cases hasked : AlreadyAskedForBlock s (cm.index p).hashBlock = true
    · rw [if_pos hasked, ih lc out hrest hlt]
      have : notInFlight cm s p = false := by simp [notInFlight, hasked]
      rw [List.filter_cons_of_neg (by simp [this])]
    · have hnf : notInFlight cm s p = true := by simpa [notInFlight] using hasked
      rw [if_neg hasked, if_neg (by simp [hv]), if_neg (by simp [hd, hc]),
        if_neg (by omega), List.filter_cons_of_pos hnf]
      by_cases hfull : (out ++ [p]).length = count
      · rw [if_pos hfull]
        have h1 : count - out.length = 1 := by simp at hfull; omega
        have h2 : count ≤ out.length + ((rest.filter (notInFlight cm s)).length + 1) := by
          simp at hfull; omega
        simp [h1, h2]
      · rw [if_neg hfull]
        have hlt' : (out ++ [p]).length < count := by simp at hfull ⊢; omega
        rw [ih lc (out ++ [p]) hrest hlt']
        have h1 : count - out.length = (count - (out ++ [p]).length) + 1 := by
          simp at hlt' ⊢; omega
        rw [h1, List.take_succ_cons, List.append_assoc]
        simp only [List.length_append, List.length_cons, List.length_nil, List.singleton_append]
        congr 2
        apply propext
        omega

/-- The scan of one block above the window that is valid, not stored and not on
the active chain: nothing is written. -/
theorem scanBatch_above (cm : CChainManager) (s : CRequestManager) (count : Nat)
    (nWindowEnd : Int) (q : Nat) (st : WalkState) (hv : (cm.index q).validTree = true)
    (hd : (cm.index q).haveData = false) (hc : cm.Contains q = false)
    (hw : nWindowEnd < (cm.index q).nHeight) :
    (scanBatch cm s count nWindowEnd [q] st).2 = st := by
  unfold scanBatch
  split_ifs <;> simp_all [scanBatch]

theorem walkLoop_done (cm : CChainManager) (s : CRequestManager) (count : Nat) (best : Nat)
    (nWindowEnd nMaxHeight : Int) (fuel : Nat) (pindexWalk : Nat) (st : WalkState)
    (h : nMaxHeight ≤ (cm.index pindexWalk).nHeight) :
    walkLoop cm s count best nWindowEnd nMaxHeight fuel pindexWalk st = some st := by
  cases fuel <;> simp [walkLoop, not_lt.mpr h]

theorem walkLoop_succ (cm : CChainManager) (s : CRequestManager) (count : Nat) (best : Nat)
    (nWindowEnd nMaxHeight : Int) (fuel : Nat) (pindexWalk : Nat) (st : WalkState) (n : Int)
    (w : Nat) (batch : List Nat) (hlt : (cm.index pindexWalk).nHeight < nMaxHeight)
    (hn : min (nMaxHeight - (cm.index pindexWalk).nHeight) (fetchFloor count st.vBlocks.length) = n)
    (hw : GetAncestor cm.index best ((cm.index pindexWalk).nHeight + n) = some w)
    (hb : backfill cm.index (n.toNat - 1) w [] = some batch) :
    walkLoop cm s count best nWindowEnd nMaxHeight (fuel + 1) pindexWalk st =
      if (scanBatch cm s count nWindowEnd batch st).1 = true then
        some (scanBatch cm s count nWindowEnd batch st).2
      else walkLoop cm s count best nWindowEnd nMaxHeight fuel w
        (scanBatch cm s count nWindowEnd batch st).2 := by
  rw [walkLoop, if_pos hlt]
  simp only [hn, hw, hb]
  rcases scanBatch cm s count nWindowEnd batch st with ⟨b, st1⟩
  cases b <;> simp

theorem contains_of_above (cm : CChainManager) (p : Nat)
    (h : cm.Height < (cm.index p).nHeight) : cm.Contains p = false := by
  unfold CChainManager.Height at h
  unfold CChainManager.Contains CChainManager.chainAt
  rw [if_pos (Or.inr (by omega))]
  simp

theorem ancestorsAbove_zero (index : Nat → CBlockIndex) (best : Nat) (lo : Int) :
    ancestorsAbove index best lo 0 = [] := rfl

/-- The walk over a stretch of the peer's chain above the active tip whose
blocks are all valid and not stored: the blocks not in flight at heights up to
the end of the window are appended in ascending height until the vector has
`count` entries. -/
theorem walkLoop_simple (cm : CChainManager) (wf : WellFormed cm.index) (s : CRequestManager)
    (count best : Nat) (W : Int)
    (hplain : ∀ p, IsAncestorOrEq cm.index p best → cm.Height < (cm.index p).nHeight →
      (cm.index p).validTree = true ∧ (cm.index p).haveData = false)
    (fuel : Nat) :
    ∀ (walk : Nat) (lc : BlockPtr) (out : List Nat), IsAncestorOrEq cm.index walk best →
      cm.Height ≤ (cm.index walk).nHeight → out.length < count →
      min (cm.index best).nHeight (cm.Height + W + 1) - (cm.index walk).nHeight ≤ (fuel : Int) →
      ∃ st', walkLoop cm s count best (cm.Height + W)
          (min (cm.index best).nHeight (cm.Height + W + 1)) fuel walk
          { pindexLastCommonBlock := lc, vBlocks := out } = some st' ∧
        st'.vBlocks = out ++
          ((ancestorsAbove cm.index best (cm.index walk).nHeight
            (min (cm.index best).nHeight (cm.Height + W) - (cm.index walk).nHeight).toNat).filter
            (notInFlight cm s)).take (count - out.length) := by
  have hmin1 := min_le_left (cm.index best).nHeight (cm.Height + W + 1)
  have hmin2 := min_le_right (cm.index best).nHeight (cm.Height + W + 1)
  have hmin3 := min_le_left (cm.index best).nHeight (cm.Height + W)
  have hmin4 := min_le_right (cm.index best).nHeight (cm.Height + W)
  have hminA : min (cm.index best).nHeight (cm.Height + W)
      ≤ min (cm.index best).nHeight (cm.Height + W + 1) := le_min hmin3 (by omega)
  have hminB : min (cm.index best).nHeight (cm.Height + W + 1)
      ≤ min (cm.index best).nHeight (cm.Height + W) + 1 := by
    rcases min_choice (cm.index best).nHeight (cm.Height + W) with h | h <;> rw [h] <;> omega
  have hdone : ∀ (fuel : Nat) (walk : Nat) (lc : BlockPtr) (out : List Nat),
      min (cm.index best).nHeight (cm.Height + W + 1) ≤ (cm.index walk).nHeight →
      ∃ st', walkLoop cm s count best (cm.Height + W)
          (min (cm.index best).nHeight (cm.Height + W + 1)) fuel walk
          { pindexLastCommonBlock := lc, vBlocks := out } = some st' ∧
        st'.vBlocks = out ++
          ((ancestorsAbove cm.index best (cm.index walk).nHeight
            (min (cm.index best).nHeight (cm.Height + W) - (cm.index walk).nHeight).toNat).filter
            (notInFlight cm s)).take (count - out.length) := by
    intro fuel walk lc out hge
    refine ⟨_, walkLoop_done cm s count best _ _ fuel walk _ hge, ?_⟩
    have hK : (min (cm.index best).nHeight (cm.Height + W) - (cm.index walk).nHeight).toNat = 0 := by
      omega
    rw [hK, ancestorsAbove_zero]
    simp
  induction fuel with
  | zero =>
    intro walk lc out _ _ _ hf
    exact hdone 0 walk lc out (by simp at hf; omega)
  | succ fuel ih =>
    intro walk lc out hw hT hout hf
    by_cases hlt : (cm.index walk).nHeight < min (cm.index best).nHeight (cm.Height + W + 1)
    swap
    · exact hdone (fuel + 1) walk lc out (by omega)
    have hfl := fetchFloor_ge count out.length
    obtain ⟨n, hn⟩ : ∃ n : Int,
        min (min (cm.index best).nHeight (cm.Height + W + 1) - (cm.index walk).nHeight)
          (fetchFloor count out.length) = n := ⟨_, rfl⟩
    have hn1 : 1 ≤ n := by rw [← hn]; exact le_min (by omega) (by omega)
    have hn2 : n ≤ min (cm.index best).nHeight (cm.Height + W + 1) - (cm.index walk).nHeight := by
      rw [← hn]; exact min_le_left _ _
    obtain ⟨w', hw', hw'b, hww', hh⟩ :=
      getAncestor_of_anc cm.index wf hw ((cm.index walk).nHeight + n) (by omega) (by omega)
    obtain ⟨N, hN⟩ : ∃ N : Nat, n.toNat - 1 = N := ⟨_, rfl⟩
    have hnN : n = (N : Int) + 1 := by omega
    have hbf := backfill_eq_ancestorsAbove cm.index wf best walk hw (cm.index walk).nHeight
      (le_refl _) N w' [] (by rw [← hw']; congr 1; omega)
    rw [List.append_nil] at hbf
    have hbf' : backfill cm.index (n.toNat - 1) w' []
        = some (ancestorsAbove cm.index best (cm.index walk).nHeight (N + 1)) := by
      rw [hN]; exact hbf
    have hstep := walkLoop_succ cm s count best (cm.Height + W)
      (min (cm.index best).nHeight (cm.Height + W + 1)) fuel walk
      { pindexLastCommonBlock := lc, vBlocks := out } n w'
      (ancestorsAbove cm.index best (cm.index walk).nHeight (N + 1)) hlt hn hw' hbf'
    rw [hstep]
    clear hstep hbf' hbf
    obtain ⟨K, hK⟩ : ∃ K : Nat,
        (min (cm.index best).nHeight (cm.Height + W) - (cm.index walk).nHeight).toNat = K :=
      ⟨_, rfl⟩
    rw [hK]
    have hplain' : ∀ (k : Nat) (p : Nat),
        p ∈ ancestorsAbove cm.index best (cm.index walk).nHeight k →
        (cm.index walk).nHeight + k ≤ cm.Height + W →
        (cm.index p).validTree = true ∧ (cm.index p).haveData = false ∧
          cm.Contains p = false ∧ (cm.index p).nHeight ≤ cm.Height + W := by
      intro k p hp hk
      obtain ⟨hpb, hp1, hp2⟩ := ancestorsAbove_mem cm.index wf best walk hw _ (le_refl _) k p hp
      obtain ⟨hv, hd⟩ := hplain p hpb (by omega)
      exact ⟨hv, hd, contains_of_above cm p (by omega), by omega⟩
    by_cases hcase : N + 1 ≤ K
    · -- the whole batch is inside the window
      obtain ⟨R, hR⟩ : ∃ R : Nat, K = (N + 1) + R := ⟨K - (N + 1), by omega⟩
      have hwithin := scanBatch_within cm s count (cm.Height + W)
        (ancestorsAbove cm.index best (cm.index walk).nHeight (N + 1)) lc out
        (fun p hp => hplain' (N + 1) p hp (by push_cast; omega)) hout
      rw [hwithin]
      simp only []
      rw [hR, ancestorsAbove_add cm.index best (cm.index walk).nHeight (N + 1) R,
        List.filter_append]
      by_cases hfull : count ≤ out.length +
          ((ancestorsAbove cm.index best (cm.index walk).nHeight (N + 1)).filter
            (notInFlight cm s)).length
      · rw [if_pos (by simpa using hfull)]
        refine ⟨_, rfl, ?_⟩
        rw [List.take_append_of_le_length (by omega)]
      · rw [if_neg (by simpa using hfull)]
        have htake : ((ancestorsAbove cm.index best (cm.index walk).nHeight (N + 1)).filter
            (notInFlight cm s)).take (count - out.length)
            = (ancestorsAbove cm.index best (cm.index walk).nHeight (N + 1)).filter
              (notInFlight cm s) := List.take_of_length_le (by omega)
        rw [htake]
        obtain ⟨st', hst', hv'⟩ := ih w' lc
          (out ++ (ancestorsAbove cm.index best (cm.index walk).nHeight (N + 1)).filter
            (notInFlight cm s)) hw'b (by omega) (by rw [List.length_append]; omega)
          (by push_cast at hf ⊢; omega)
        refine ⟨st', hst', ?_⟩
        rw [hv', List.take_append_eq_append_take, htake, List.append_assoc, hh]
        have e1 : (min (cm.index best).nHeight (cm.Height + W)
            - ((cm.index walk).nHeight + n)).toNat = R := by omega
        have e2 : (cm.index walk).nHeight + n = (cm.index walk).nHeight + ((N + 1 : Nat) : Int) := by
          push_cast; omega
        rw [e1, e2, List.length_append]
        congr 3
        omega
    · -- the last block of the batch is the first one above the window
      have hKN : N = K := by omega
      subst hKN
      have hwin : (cm.index walk).nHeight + (N : Int) ≤ cm.Height + W := by omega
      have hq : ancestorsAbove cm.index best ((cm.index walk).nHeight + (N : Int)) 1 = [w'] := by
        apply ancestorsAbove_one
        rw [← hw']
        congr 1
        omega
      rw [ancestorsAbove_add cm.index best (cm.index walk).nHeight N 1, hq, scanBatch_append]
      have hwithin := scanBatch_within cm s count (cm.Height + W)
        (ancestorsAbove cm.index best (cm.index walk).nHeight N) lc out
        (fun p hp => hplain' N p hp hwin) hout
      rw [hwithin]
      simp only []
      obtain ⟨hv, hd⟩ := hplain w' hw'b (by omega)
      have habove := scanBatch_above cm s count (cm.Height + W) w'
        { pindexLastCommonBlock := lc,
          vBlocks := out ++ ((ancestorsAbove cm.index best (cm.index walk).nHeight N).filter
            (notInFlight cm s)).take (count - out.length) }
        hv hd (contains_of_above cm w' (by omega)) (by omega)
      split_ifs with h1 h2
      · exact ⟨_, rfl, rfl⟩
      · exact ⟨_, rfl, by rw [habove]⟩
      · rw [habove]
        exact ⟨_, walkLoop_done cm s count best _ _ fuel w' _ (by omega), rfl⟩

theorem chainAt_height (cm : CChainManager) (tip : Nat) (h : cm.Tip = some tip) :
    cm.chainAt cm.Height = some tip := by
  unfold CChainManager.Tip at h
  unfold CChainManager.chainAt CChainManager.Height
  have hne : cm.vChain ≠ [] := by
    intro h0
    rw [h0] at h
    cases h
  have hlen : 0 < cm.vChain.length := List.length_pos.mpr hne
  rw [if_neg (by omega), List.get?_eq_getElem?, ← h, List.getLast?_eq_getElem?]
  congr 1
  omega

theorem processAvailability_of_null (cm : CChainManager) (state : CNodeState)
    (h : state.hashLastUnknownBlock = 0) : processAvailability cm state = state := by
  unfold processAvailability
  rw [if_neg (by simp [h])]

theorem lineIndex_walkBack (stored : Nat) (n : Nat) :
    ∀ a : Nat, n ≤ a → walkBack (lineIndex stored) n (some a) = some (a - n) := by
  induction n with
  | zero => intro a _; rfl
  | succ n ih =>
    intro a ha
    have hp : (lineIndex stored a).pprev = some (a - 1) := by
      simp [lineIndex]
      omega
    rw [walkBack_succ, hp, ih (a - 1) (by omega)]
    congr 1
    omega

theorem lineIndex_ancestor (stored : Nat) (x a : Nat) (h : x ≤ a) :
    IsAncestorOrEq (lineIndex stored) x a :=
  ⟨a - x, by rw [lineIndex_walkBack stored (a - x) a (by omega)]; congr 1; omega⟩

theorem chainAt_some (cm : CChainManager) (height : Int) (h0 : 0 ≤ height)
    (h1 : height ≤ cm.Height) : ∃ l, cm.chainAt height = some l := by
  unfold CChainManager.Height at h1
  unfold CChainManager.chainAt
  rw [if_neg (by omega)]
  exact ⟨_, List.get?_eq_get (by omega)⟩

theorem tip_of_nonempty (cm : CChainManager) (h : cm.vChain ≠ []) : ∃ tip, cm.Tip = some tip :=
  ⟨_, List.getLast?_eq_getLast _ h⟩

theorem findNext_of_no_best (W : Int) (cm : CChainManager) (fuel : Nat) (s s1 : CRequestManager)
    (node : CNode) (count : Nat) (vBlocks : List Nat) (state : CNodeState) (hcount : count ≠ 0)
    (hs1 : ProcessBlockAvailability cm s node.id = some s1)
    (hstate : mapFind s1.mapNodeState node.id = some state)
    (hbest : state.pindexBestKnownBlock = none) :
    FindNextBlocksToDownload W cm fuel s node count vBlocks = some (s1, vBlocks) := by
  unfold FindNextBlocksToDownload
  rw [if_neg hcount, hs1]
  simp only [hstate, hbest]

theorem findNext_of_less_work (W : Int) (cm : CChainManager) (fuel : Nat)
    (s s1 : CRequestManager) (node : CNode) (count : Nat) (vBlocks : List Nat)
    (state : CNodeState) (best tip : Nat) (hcount : count ≠ 0)
    (hs1 : ProcessBlockAvailability cm s node.id = some s1)
    (hstate : mapFind s1.mapNodeState node.id = some state)
    (hbest : state.pindexBestKnownBlock = some best) (htip : cm.Tip = some tip)
    (hwork : (cm.index best).nChainWork < (cm.index tip).nChainWork) :
    FindNextBlocksToDownload W cm fuel s node count vBlocks = some (s1, vBlocks) := by
  unfold FindNextBlocksToDownload
  rw [if_neg hcount, hs1]
  simp only [hstate, hbest, htip]
  rw [if_pos hwork]

/-- `FindNextBlocksToDownload` returns: on a well-formed index in which all
branches meet (at the genesis block), for a registered peer, a non-empty
active chain and fuel at least the height of the peer's best block. -/
theorem findNext_returns (W : Int) (cm : CChainManager) (fuel : Nat) (s : CRequestManager)
    (node : CNode) (count : Nat) (vBlocks : List Nat) (state0 : CNodeState)
    (wf : WellFormed cm.index)
    (hroot : ∀ a b, ∃ g, IsAncestorOrEq cm.index g a ∧ IsAncestorOrEq cm.index g b)
    (hs : mapFind s.mapNodeState node.id = some state0) (hchain : cm.vChain ≠ [])
    (hfuel : ∀ best, (processAvailability cm state0).pindexBestKnownBlock = some best →
      (cm.index best).nHeight ≤ (fuel : Int)) :
    ∃ r, FindNextBlocksToDownload W cm fuel s node count vBlocks = some r := by
  by_cases hcount : count = 0
  · exact ⟨(s, vBlocks), by simp [FindNextBlocksToDownload, hcount]⟩
  obtain ⟨s1, hs1, hstate⟩ := processBlockAvailability_state cm s node.id state0 hs
  cases hbest : (processAvailability cm state0).pindexBestKnownBlock with
  | none =>
    exact ⟨_, findNext_of_no_best W cm fuel s s1 node count vBlocks _ hcount hs1 hstate hbest⟩
  | some best =>
    obtain ⟨tip, htip⟩ := tip_of_nonempty cm hchain
    by_cases hwork : (cm.index best).nChainWork < (cm.index tip).nChainWork
    · exact ⟨_, findNext_of_less_work W cm fuel s s1 node count vBlocks _ best tip hcount hs1
        hstate hbest htip hwork⟩
    · have hb0 := wf.height_nonneg best
      have hH : 0 ≤ cm.Height := by
        unfold CChainManager.Height
        have := List.length_pos.mpr hchain
        omega
      obtain ⟨l, hseed⟩ : ∃ l, (match (processAvailability cm state0).pindexLastCommonBlock with
          | none => cm.chainAt (min (cm.index best).nHeight cm.Height)
          | some l => some l) = some l := by
        cases (processAvailability cm state0).pindexLastCommonBlock with
        | none => exact chainAt_some cm _ (le_min hb0 hH) (min_le_right _ _)
        | some l => exact ⟨l, rfl⟩
      obtain ⟨g, hgl, hgb⟩ := hroot l best
      obtain ⟨common, hlca, _, hcb, _⟩ := lastCommonAncestor_spec cm.index wf l best g fuel hgl hgb
        (le_trans (min_le_right _ _) (hfuel best hbest))
      rw [findNext_eq W cm fuel s s1 node count vBlocks _ best tip l common hcount hs1 hstate hbest
        htip (by omega) hseed hlca]
      split_ifs
      · exact ⟨_, rfl⟩
      · have h0 := wf.height_nonneg common
        have hf := hfuel best hbest
        obtain ⟨st', hst', _⟩ := walkLoop_total cm wf s1 count best (cm.Height + W)
          (min (cm.index best).nHeight (cm.Height + W + 1)) (min_le_left _ _) fuel common
          { pindexLastCommonBlock := some common, vBlocks := vBlocks } hcb
          (by have := min_le_left (cm.index best).nHeight (cm.Height + W + 1); omega)
        rw [hst']
        exact ⟨_, rfl⟩

theorem scanBatch_count (cm : CChainManager) (s : CRequestManager) (count : Nat)
    (nWindowEnd : Int) (batch : List Nat) :
    ∀ st : WalkState, st.vBlocks.length < count →
      (scanBatch cm s count nWindowEnd batch st).2.vBlocks.length ≤ count ∧
        ((scanBatch cm s count nWindowEnd batch st).1 = false →
          (scanBatch cm s count nWindowEnd batch st).2.vBlocks.length < count) := by
  induction batch with
  | nil => intro st h; exact ⟨le_of_lt h, fun _ => h⟩
  | cons p rest ih =>
    intro st h
    rw [scanBatch_cons]
    split_ifs with h1 h2 h3 h4 h5 h6
    · exact ih st h
    · exact ⟨le_of_lt h, by simp⟩
    · exact ih _ h
    · exact ih st h
    · exact ⟨le_of_lt h, by simp⟩
    · exact ⟨le_of_eq h6, by simp⟩
    · refine ih _ ?_
      simp only [List.length_append, List.length_singleton] at h6 ⊢
      omega

/-- When the vector given to the walk has fewer than `count` entries, the vector
it leaves has at most `count`. -/
theorem walkLoop_count (cm : CChainManager) (s : CRequestManager) (count : Nat) (best : Nat)
    (nWindowEnd nMaxHeight : Int) (fuel : Nat) :
    ∀ (pindexWalk : Nat) (st st' : WalkState), st.vBlocks.length < count →
      walkLoop cm s count best nWindowEnd nMaxHeight fuel pindexWalk st = some st' →
      st'.vBlocks.length ≤ count := by
  induction fuel with
  | zero =>
    intro w st st' hlen h
    unfold walkLoop at h
    split_ifs at h
    cases h
    exact le_of_lt hlen
  | succ fuel ih =>
    intro w st st' hlen h
    unfold walkLoop at h
    split_ifs at h with hlt
    · simp only [] at h
      split at h
      · cases h
      · split at h
        · cases h
        · rename_i _ w' _ _ vToFetch _
          have hc := scanBatch_count cm s count nWindowEnd vToFetch st hlen
          split at h
          · rename_i st1 hsc
            cases h
            rw [hsc] at hc
            exact hc.1
          · rename_i st1 hsc
            rw [hsc] at hc
            exact ih w' st1 st' (hc.2 rfl) h
    · cases h
      exact le_of_lt hlen

/-- When the vector given to `FindNextBlocksToDownload` has fewer than `count`
entries, the vector it leaves has at most `count`. -/
theorem findNext_count_bound (W : Int) (cm : CChainManager) (fuel : Nat) (s : CRequestManager)
    (node : CNode) (count : Nat) (vBlocks : List Nat) (r : CRequestManager × List Nat)
    (hlen : vBlocks.length < count)
    (h : FindNextBlocksToDownload W cm fuel s node count vBlocks = some r) :
    r.2.length ≤ count := by
  rcases findNext_inv W cm fuel s node count vBlocks r h with h0 | ⟨s1, state, _, _, h1⟩
  · subst h0
    exact le_of_lt hlen
  · rcases h1 with h1 | ⟨best, common, lc, out, _, hr, h2⟩
    · subst h1
      exact le_of_lt hlen
    · subst hr
      rcases h2 with ⟨_, _, ho⟩ | ⟨st, hst, _, ho⟩
      · simp only [ho]
        exact le_of_lt hlen
      · simp only [ho]
        exact walkLoop_count cm s1 count best _ _ fuel common _ st hlen hst

/-! ## The claims on `LastCommonAncestor` -/

/-- C9: on a well-formed block index, for blocks a and b that reach a common
block g (their genesis) and fuel at least the smaller of their heights,
LastCommonAncestor(a, b) returns a non-null block that is an ancestor-or-equal
of both a and b and of which every common ancestor-or-equal of a and b is an
ancestor-or-equal; and LastCommonAncestor(a, a) = a. -/
theorem lastCommonAncestor_deepest (index : Nat → CBlockIndex) (wf : WellFormed index)
    (a b g fuel : Nat) (ha : IsAncestorOrEq index g a) (hb : IsAncestorOrEq index g b)
    (hfuel : min (index a).nHeight (index b).nHeight ≤ (fuel : Int)) :
    (∃ r, LastCommonAncestor index fuel a b = some (some r) ∧
      IsAncestorOrEq index r a ∧ IsAncestorOrEq index r b ∧
      ∀ c, IsAncestorOrEq index c a → IsAncestorOrEq index c b → IsAncestorOrEq index c r) ∧
    LastCommonAncestor index fuel a a = some (some a) :=
  ⟨lastCommonAncestor_spec index wf a b g fuel ha hb hfuel, lastCommonAncestor_self index fuel a⟩

/-- C9, witness: in `forkIndex` the tips 3 (height 3) and 6 (height 4) of the
two branches have block 1 as last common ancestor. -/
theorem lastCommonAncestor_deepest_witness :
    LastCommonAncestor forkIndex 3 3 6 = some (some 1) ∧
      ((∃ r, LastCommonAncestor forkIndex 3 3 6 = some (some r) ∧
        IsAncestorOrEq forkIndex r 3 ∧ IsAncestorOrEq forkIndex r 6 ∧
        ∀ c, IsAncestorOrEq forkIndex c 3 → IsAncestorOrEq forkIndex c 6 →
          IsAncestorOrEq forkIndex c r) ∧
      LastCommonAncestor forkIndex 3 3 3 = some (some 3)) :=
  ⟨by decide,
    lastCommonAncestor_deepest forkIndex forkIndex_wellFormed 3 6 0 3 ⟨3, by decide⟩
      ⟨4, by decide⟩ (by decide)⟩

/-- C10: LastCommonAncestor(a, b) and LastCommonAncestor(b, a) have the same
outcome on every block index and with every fuel; on a well-formed index, for
blocks that reach a common block g and fuel at least the smaller height, both
return the same non-null block. -/
theorem lastCommonAncestor_symmetric (index : Nat → CBlockIndex) (a b fuel : Nat) :
    LastCommonAncestor index fuel a b = LastCommonAncestor index fuel b a ∧
      (WellFormed index → ∀ g, IsAncestorOrEq index g a → IsAncestorOrEq index g b →
        min (index a).nHeight (index b).nHeight ≤ (fuel : Int) →
        ∃ r, LastCommonAncestor index fuel a b = some (some r) ∧
          LastCommonAncestor index fuel b a = some (some r)) := by
  refine ⟨lastCommonAncestor_comm index fuel a b, fun wf g ha hb hfuel => ?_⟩
  obtain ⟨r, hr, _⟩ := lastCommonAncestor_spec index wf a b g fuel ha hb hfuel
  exact ⟨r, hr, by rw [← lastCommonAncestor_comm index fuel a b, hr]⟩

/-- C10, witness: in `forkIndex` both orders of the tips 3 and 6 give block 1. -/
theorem lastCommonAncestor_symmetric_witness :
    LastCommonAncestor forkIndex 3 6 3 = some (some 1) ∧
      ∃ r, LastCommonAncestor forkIndex 3 3 6 = some (some r) ∧
        LastCommonAncestor forkIndex 3 6 3 = some (some r) :=
  ⟨by decide,
    (lastCommonAncestor_symmetric forkIndex 3 6 3).2 forkIndex_wellFormed 0 ⟨3, by decide⟩
      ⟨4, by decide⟩ (by decide)⟩

/-! ## The claims on `FindNextBlocksToDownload` -/

/-- C4: for every manager state, peer, count and initial out vector, whenever
FindNextBlocksToDownload returns, the out vector is the initial one followed by
appended blocks none of which has a hash that is a key of mapBlocksInFlight, and
the ledger (entries and counters) is unchanged. The call does return when the
index is well formed with all branches meeting at one root, the peer is
registered, the active chain is not empty and the fuel is at least the height of
the peer's best block. -/
theorem findNext_excludes_in_flight (W : Int) (cm : CChainManager) (fuel : Nat)
    (s : CRequestManager) (node : CNode) (count : Nat) (vBlocks : List Nat) :
    (∀ r : CRequestManager × List Nat,
      FindNextBlocksToDownload W cm fuel s node count vBlocks = some r →
      (∃ added : List Nat, r.2 = vBlocks ++ added ∧
          ∀ p ∈ added, mapFind s.mapBlocksInFlight (cm.index p).hashBlock = none) ∧
        r.1.mapBlocksInFlight = s.mapBlocksInFlight ∧
        r.1.mapNumBlocksInFlight = s.mapNumBlocksInFlight) ∧
    (WellFormed cm.index →
      (∀ a b, ∃ g, IsAncestorOrEq cm.index g a ∧ IsAncestorOrEq cm.index g b) →
      cm.vChain ≠ [] →
      ∀ state0, mapFind s.mapNodeState node.id = some state0 →
      (∀ best, (processAvailability cm state0).pindexBestKnownBlock = some best →
        (cm.index best).nHeight ≤ (fuel : Int)) →
      ∃ r, FindNextBlocksToDownload W cm fuel s node count vBlocks = some r) := by
  refine ⟨fun r h => ?_, fun wf hroot hchain state0 hs hfuel =>
    findNext_returns W cm fuel s node count vBlocks state0 wf hroot hs hchain hfuel⟩
  obtain ⟨hl, hn, added, e, hq⟩ := findNext_appends W cm fuel s node count vBlocks r h
  refine ⟨⟨added, e, fun p hp => ?_⟩, hl, hn⟩
  have h1 := (hq p hp).1
  simpa [AlreadyAskedForBlock] using h1

/-- C4, witness: tip at height 2, window 3, the peer's best block at height 10,
block 4 in flight to another peer: blocks 3 and 5 are appended. -/
theorem findNext_excludes_in_flight_witness :
    FindNextBlocksToDownload 3 (lineChain 2) 20 (busyLedger none) (peer 1) 64 []
        = some (busyLedger (some 2), [3, 5]) ∧
      ((∃ added : List Nat, (busyLedger (some 2), [3, 5]).2 = [] ++ added ∧
          ∀ p ∈ added,
            mapFind (busyLedger none).mapBlocksInFlight ((lineChain 2).index p).hashBlock
              = none) ∧
        (busyLedger (some 2), [3, 5]).1.mapBlocksInFlight = (busyLedger none).mapBlocksInFlight ∧
        (busyLedger (some 2), [3, 5]).1.mapNumBlocksInFlight
          = (busyLedger none).mapNumBlocksInFlight) ∧
      ∃ r, FindNextBlocksToDownload 3 (lineChain 2) 20 (busyLedger none) (peer 1) 64 [] = some r :=
  ⟨by decide,
    (findNext_excludes_in_flight 3 (lineChain 2) 20 (busyLedger none) (peer 1) 64 []).1
      (busyLedger (some 2), [3, 5]) (by decide),
    (findNext_excludes_in_flight 3 (lineChain 2) 20 (busyLedger none) (peer 1) 64 []).2
      (lineIndex_wellFormed 2)
      (fun a b => ⟨0, lineIndex_ancestor 2 0 a (Nat.zero_le a), lineIndex_ancestor 2 0 b (Nat.zero_le b)⟩)
      (by decide)
      { CNodeState.init 0 0 with pindexBestKnownBlock := some 10 } (by decide)
      (fun best hb => by
        have : best = 10 := (Option.some.inj hb).symm
        subst this
        decide)⟩

/-- C5: for every manager state, chain view, peer and count, whenever
FindNextBlocksToDownload returns, every block it appended to the out vector has
height <= chainActive.Height() + BLOCK_DOWNLOAD_WINDOW. The call does return
when the index is well formed with all branches meeting at one root, the peer is
registered, the active chain is not empty and the fuel is at least the height of
the peer's best block. -/
theorem findNext_within_window (W : Int) (cm : CChainManager) (fuel : Nat)
    (s : CRequestManager) (node : CNode) (count : Nat) (vBlocks : List Nat) :
    (∀ r : CRequestManager × List Nat,
      FindNextBlocksToDownload W cm fuel s node count vBlocks = some r →
      ∃ added : List Nat, r.2 = vBlocks ++ added ∧
        ∀ p ∈ added, (cm.index p).nHeight ≤ cm.Height + W) ∧
    (WellFormed cm.index →
      (∀ a b, ∃ g, IsAncestorOrEq cm.index g a ∧ IsAncestorOrEq cm.index g b) →
      cm.vChain ≠ [] →
      ∀ state0, mapFind s.mapNodeState node.id = some state0 →
      (∀ best, (processAvailability cm state0).pindexBestKnownBlock = some best →
        (cm.index best).nHeight ≤ (fuel : Int)) →
      ∃ r, FindNextBlocksToDownload W cm fuel s node count vBlocks = some r) := by
  refine ⟨fun r h => ?_, fun wf hroot hchain state0 hs hfuel =>
    findNext_returns W cm fuel s node count vBlocks state0 wf hroot hs hchain hfuel⟩
  obtain ⟨_, _, added, e, hq⟩ := findNext_appends W cm fuel s node count vBlocks r h
  exact ⟨added, e, fun p hp => (hq p hp).2.2.2.2⟩

/-- C5, witness: tip at height 2, window 3, the peer's best block at height 10:
blocks 3, 4 and 5 are appended and block 6 is not. -/
theorem findNext_within_window_witness :
    FindNextBlocksToDownload 3 (lineChain 2) 20 (onePeer 1 10 none) (peer 1) 64 [9]
        = some (onePeer 1 10 (some 2), [9, 3, 4, 5]) ∧
      (∃ added : List Nat, (onePeer 1 10 (some 2), [9, 3, 4, 5]).2 = [9] ++ added ∧
        ∀ p ∈ added, ((lineChain 2).index p).nHeight ≤ (lineChain 2).Height + 3) ∧
      ∃ r, FindNextBlocksToDownload 3 (lineChain 2) 20 (onePeer 1 10 none) (peer 1) 64 [9]
        = some r :=
  ⟨by decide,
    (findNext_within_window 3 (lineChain 2) 20 (onePeer 1 10 none) (peer 1) 64 [9]).1
      (onePeer 1 10 (some 2), [9, 3, 4, 5]) (by decide),
    (findNext_within_window 3 (lineChain 2) 20 (onePeer 1 10 none) (peer 1) 64 [9]).2
      (lineIndex_wellFormed 2)
      (fun a b => ⟨0, lineIndex_ancestor 2 0 a (Nat.zero_le a), lineIndex_ancestor 2 0 b (Nat.zero_le b)⟩)
      (by decide)
      { CNodeState.init 0 0 with pindexBestKnownBlock := some 10 } (by decide)
      (fun best hb => by
        have : best = 10 := (Option.some.inj hb).symm
        subst this
        decide)⟩

/-- C7, the code at the failing input: with count = 1 and an out vector that
already holds one block, the test `vBlocks.size() == count` never holds and the
call appends the three blocks 3, 4, 5 of the window, more than count. -/
theorem findNext_exceeds_count_on_full_vector :
    FindNextBlocksToDownload 3 (lineChain 2) 20 (onePeer 1 10 none) (peer 1) 1 [9]
        = some (onePeer 1 10 (some 2), [9, 3, 4, 5]) ∧
      ([9, 3, 4, 5] : List Nat).length - ([9] : List Nat).length = 3 := by
  decide

/-- C8 (as amended): let count be at least 1, the block index well formed, the
peer registered, and after availability processing let its best_known_block B be
non-null with chain-work >= the active tip's and its stored last_common_block L
be non-null and share a root with B (whether or not L is an ancestor of B). With
fuel at least B's height, LastCommonAncestor(L, B) returns a block A,
FindNextBlocksToDownload is the walk started at A (or the immediate return with
last_common_block = A when A = B), it returns, and the last_common_block stored
at the return is an ancestor-or-equal of B and a descendant-or-equal of A. -/
theorem findNext_reorg_repair (W : Int) (cm : CChainManager) (fuel : Nat) (s : CRequestManager)
    (node : CNode) (count : Nat) (vBlocks : List Nat) (state0 : CNodeState) (best tip L : Nat)
    (wf : WellFormed cm.index) (hcount : count ≠ 0)
    (hs : mapFind s.mapNodeState node.id = some state0)
    (hbest : (processAvailability cm state0).pindexBestKnownBlock = some best)
    (htip : cm.Tip = some tip)
    (hwork : (cm.index tip).nChainWork ≤ (cm.index best).nChainWork)
    (hL : state0.pindexLastCommonBlock = some L)
    (hg : ∃ g, IsAncestorOrEq cm.index g L ∧ IsAncestorOrEq cm.index g best)
    (hfuel : (cm.index best).nHeight ≤ (fuel : Int)) :
    ∃ (common : Nat) (s1 : CRequestManager),
      LastCommonAncestor cm.index fuel L best = some (some common) ∧
      ProcessBlockAvailability cm s node.id = some s1 ∧
      FindNextBlocksToDownload W cm fuel s node count vBlocks =
        (if common = best then
          some (setLastCommonBlock s1 node.id (processAvailability cm state0) (some common),
            vBlocks)
        else
          (walkLoop cm s1 count best (cm.Height + W)
            (min (cm.index best).nHeight (cm.Height + W + 1)) fuel common
            { pindexLastCommonBlock := some common, vBlocks := vBlocks }).map
          (fun st => (setLastCommonBlock s1 node.id (processAvailability cm state0)
            st.pindexLastCommonBlock, st.vBlocks))) ∧
      ∃ (r : CRequestManager × List Nat) (c : Nat),
        FindNextBlocksToDownload W cm fuel s node count vBlocks = some r ∧
        (mapFind r.1.mapNodeState node.id).map (fun st => st.pindexLastCommonBlock)
          = some (some c) ∧
        (mapFind r.1.mapNodeState node.id).map (fun st => st.pindexBestKnownBlock)
          = some (some best) ∧
        IsAncestorOrEq cm.index c best ∧ IsAncestorOrEq cm.index common c := by
  obtain ⟨g, hgL, hgb⟩ := hg
  have hLb := isAncestorOrEq_height_le cm.index wf hgL
  obtain ⟨common, hlca, hcL, hcb, _⟩ :=
    lastCommonAncestor_spec cm.index wf L best g fuel hgL hgb
      (le_trans (min_le_right _ _) hfuel)
  obtain ⟨s1, hs1, hstate⟩ := processBlockAvailability_state cm s node.id state0 hs
  have hseed : (match (processAvailability cm state0).pindexLastCommonBlock with
      | none => cm.chainAt (min (cm.index best).nHeight cm.Height)
      | some l => some l) = some L := by
    rw [processAvailability_lastCommon, hL]
  have heq := findNext_eq W cm fuel s s1 node count vBlocks _ best tip L common hcount hs1 hstate
    hbest htip hwork hseed hlca
  refine ⟨common, s1, hlca, hs1, heq, ?_⟩
  rw [heq]
  split_ifs with hcb'
  · refine ⟨_, common, rfl, ?_, ?_, hcb, isAncestorOrEq_refl _ _⟩
    · simp [setLastCommonBlock, mapFind_assign_self]
    · simp [setLastCommonBlock, mapFind_assign_self, hbest]
  · have h0 := wf.height_nonneg common
    obtain ⟨st', hst', hlc'⟩ := walkLoop_total cm wf s1
      count best (cm.Height + W) (min (cm.index best).nHeight (cm.Height + W + 1))
      (min_le_left _ _) fuel common { pindexLastCommonBlock := some common, vBlocks := vBlocks }
      hcb (by have := min_le_left (cm.index best).nHeight (cm.Height + W + 1); omega)
    rw [hst']
    rcases hlc' with h | ⟨c, hc, hcb2, hcc⟩
    · refine ⟨_, common, rfl, ?_, ?_, hcb, isAncestorOrEq_refl _ _⟩
      · simp [setLastCommonBlock, mapFind_assign_self, h]
      · simp [setLastCommonBlock, mapFind_assign_self, hbest]
    · refine ⟨_, c, rfl, ?_, ?_, hcb2, hcc⟩
      · simp [setLastCommonBlock, mapFind_assign_self, hc]
      · simp [setLastCommonBlock, mapFind_assign_self, hbest]

/-- C8, witness: in `forkChain` the active chain ends in block 3, the peer's
best block is 6 on the other branch and its stored last common block is 3. The
call moves the last common block to block 4 (the stored block of the peer's
branch above the fork point 1) and asks for blocks 5 and 6. -/
theorem findNext_reorg_repair_witness :
    ¬ IsAncestorOrEq forkIndex 3 6 ∧
      FindNextBlocksToDownload 1 forkChain 4 (onePeer 1 6 (some 3)) (peer 1) 64 []
        = some (onePeer 1 6 (some 4), [5, 6]) ∧
      ∃ (common : Nat) (s1 : CRequestManager),
        LastCommonAncestor forkChain.index 4 3 6 = some (some common) ∧
        ProcessBlockAvailability forkChain (onePeer 1 6 (some 3)) (peer 1).id = some s1 ∧
        FindNextBlocksToDownload 1 forkChain 4 (onePeer 1 6 (some 3)) (peer 1) 64 [] =
          (if common = 6 then
            some (setLastCommonBlock s1 (peer 1).id
              (processAvailability forkChain
                { CNodeState.init 0 0 with
                  pindexBestKnownBlock := some 6, pindexLastCommonBlock := some 3 })
              (some common), [])
          else
            (walkLoop forkChain s1 64 6 (forkChain.Height + 1)
              (min (forkChain.index 6).nHeight (forkChain.Height + 1 + 1)) 4 common
              { pindexLastCommonBlock := some common, vBlocks := [] }).map
            (fun st => (setLastCommonBlock s1 (peer 1).id
              (processAvailability forkChain
                { CNodeState.init 0 0 with
                  pindexBestKnownBlock := some 6, pindexLastCommonBlock := some 3 })
              st.pindexLastCommonBlock, st.vBlocks))) ∧
        ∃ (r : CRequestManager × List Nat) (c : Nat),
          FindNextBlocksToDownload 1 forkChain 4 (onePeer 1 6 (some 3)) (peer 1) 64 [] = some r ∧
          (mapFind r.1.mapNodeState (peer 1).id).map (fun st => st.pindexLastCommonBlock)
            = some (some c) ∧
          (mapFind r.1.mapNodeState (peer 1).id).map (fun st => st.pindexBestKnownBlock)
            = some (some 6) ∧
          IsAncestorOrEq forkChain.index c 6 ∧ IsAncestorOrEq forkChain.index common c :=
  ⟨forkIndex_not_ancestor, by decide,
    findNext_reorg_repair 1 forkChain 4 (onePeer 1 6 (some 3)) (peer 1) 64 []
      { CNodeState.init 0 0 with pindexBestKnownBlock := some 6, pindexLastCommonBlock := some 3 }
      6 3 3 forkIndex_wellFormed (by decide) (by decide) (by decide) (by decide) (by decide)
      (by decide) ⟨0, ⟨3, by decide⟩, ⟨4, by decide⟩⟩ (by decide)⟩

/-- C8, counterexample: with count = 0 the call returns at once. In `forkChain`
the peer's best block 6 has no less chain-work than the tip 3, the stored
last common block 3 shares the root 0 with it, is not one of its ancestors, and
LastCommonAncestor(3, 6) = 1; after the call the stored last common block is
still 3, which is not an ancestor of the best block. -/
theorem findNext_no_repair_for_zero_count :
    (forkChain.index 3).nChainWork ≤ (forkChain.index 6).nChainWork ∧
      forkChain.Tip = some 3 ∧
      IsAncestorOrEq forkIndex 0 3 ∧ IsAncestorOrEq forkIndex 0 6 ∧
      ¬ IsAncestorOrEq forkIndex 3 6 ∧
      LastCommonAncestor forkIndex 4 3 6 = some (some 1) ∧
      FindNextBlocksToDownload 1 forkChain 4 (onePeer 1 6 (some 3)) (peer 1) 0 []
        = some (onePeer 1 6 (some 3), []) ∧
      (mapFind (onePeer 1 6 (some 3)).mapNodeState 1).map (fun st => st.pindexLastCommonBlock)
        = some (some 3) ∧
      (mapFind (onePeer 1 6 (some 3)).mapNodeState 1).map (fun st => st.pindexBestKnownBlock)
        = some (some 6) ∧
      (mapFind (onePeer 1 6 (some 3)).mapNodeState 1).map (fun st => st.hashLastUnknownBlock)
        = some 0 :=
  ⟨by decide, by decide, ⟨3, by decide⟩, ⟨4, by decide⟩, forkIndex_not_ancestor, by decide,
    by decide, by decide, by decide, by decide⟩

/-- C6: let the block index be well formed, the active tip be at height T, the
peer's best_known_block B lie on a chain that extends the active tip with
B.height > T and chain-work >= the tip's, hash_last_unknown and
last_common_block be null, every ancestor of B above height T be VALID_TREE
without local data (such a block is never in the active chain), the out vector
be empty and count >= 1. Then, with fuel at least B.height,
FindNextBlocksToDownload(peer, count, out) returns with out equal to the first
min(count, available) blocks, in ascending height, among the ancestors of B at
heights T+1 .. min(B.height, T + BLOCK_DOWNLOAD_WINDOW) whose hash is not in the
ledger, and leaves the ledger as it was. -/
theorem findNext_simple_extension (W : Int) (cm : CChainManager) (fuel : Nat)
    (s : CRequestManager) (node : CNode) (count : Nat) (state0 : CNodeState) (best tip : Nat)
    (wf : WellFormed cm.index) (hcount : 1 ≤ count)
    (hs : mapFind s.mapNodeState node.id = some state0)
    (hunknown : state0.hashLastUnknownBlock = 0)
    (hbest : state0.pindexBestKnownBlock = some best)
    (hcommon : state0.pindexLastCommonBlock = none)
    (htip : cm.Tip = some tip) (htipHeight : (cm.index tip).nHeight = cm.Height)
    (hext : IsAncestorOrEq cm.index tip best)
    (hhigher : cm.Height < (cm.index best).nHeight)
    (hwork : (cm.index tip).nChainWork ≤ (cm.index best).nChainWork)
    (hplain : ∀ p, IsAncestorOrEq cm.index p best → cm.Height < (cm.index p).nHeight →
      (cm.index p).validTree = true ∧ (cm.index p).haveData = false)
    (hfuel : (cm.index best).nHeight ≤ (fuel : Int)) :
    ∃ s', FindNextBlocksToDownload W cm fuel s node count []
        = some (s', expectedDownload W cm s best count) ∧
      s'.mapBlocksInFlight = s.mapBlocksInFlight ∧
      s'.mapNumBlocksInFlight = s.mapNumBlocksInFlight := by
  obtain ⟨s1, hs1, hstate⟩ := processBlockAvailability_state cm s node.id state0 hs
  rw [processAvailability_of_null cm state0 hunknown] at hstate
  obtain ⟨hl, hnum⟩ := processBlockAvailability_ledger cm s s1 node.id hs1
  have hseed : (match state0.pindexLastCommonBlock with
      | none => cm.chainAt (min (cm.index best).nHeight cm.Height)
      | some l => some l) = some tip := by
    rw [hcommon]
    simp only []
    rw [min_eq_right (le_of_lt hhigher)]
    exact chainAt_height cm tip htip
  obtain ⟨r, hr, hrt, _, hdeep⟩ := lastCommonAncestor_spec cm.index wf tip best tip fuel
    (isAncestorOrEq_refl _ _) hext (le_trans (min_le_right _ _) hfuel)
  have hrtip : r = tip :=
    isAncestorOrEq_antisymm cm.index wf hrt (hdeep tip (isAncestorOrEq_refl _ _) hext)
  rw [hrtip] at hr
  have hne : tip ≠ best := by
    intro h
    rw [h] at htipHeight
    omega
  have heq := findNext_eq W cm fuel s s1 node count [] state0 best tip tip
    tip (by omega) hs1 hstate hbest htip hwork hseed hr
  rw [if_neg hne] at heq
  obtain ⟨st', hst', hv⟩ := walkLoop_simple cm wf s1 count best W hplain fuel tip (some tip) []
    hext (by omega) (by simpa using hcount)
    (by
      have := min_le_left (cm.index best).nHeight (cm.Height + W + 1)
      have := wf.height_nonneg tip
      omega)
  rw [hst'] at heq
  have hfilter : notInFlight cm s1 = notInFlight cm s := by
    funext p
    simp [notInFlight, alreadyAsked_congr s s1 hl]
  refine ⟨setLastCommonBlock s1 node.id state0 st'.pindexLastCommonBlock, ?_, hl, hnum⟩
  rw [heq]
  simp only [Option.map_some']
  rw [hv, htipHeight, hfilter]
  simp [expectedDownload]

theorem lineChain_plain (tip : Nat) (best : Nat) :
    ∀ p, IsAncestorOrEq (lineChain tip).index p best →
      (lineChain tip).Height < ((lineChain tip).index p).nHeight →
      ((lineChain tip).index p).validTree = true ∧ ((lineChain tip).index p).haveData = false := by
  intro p _ h
  constructor
  · simp [lineChain, lineIndex]
  · simp only [lineChain, lineIndex, CChainManager.Height, List.length_range] at h
    simp only [lineChain, lineIndex, decide_eq_false_iff_not]
    omega

set_option maxRecDepth 100000 in
/-- C6, witness: scenarios 3 and 4 of the specification. The active tip is at
height 500, the window is 1024, the peer's best block is at height 2000 and
count is 64. With an empty ledger the call returns the blocks at heights
501..564; with the block at height 501 in flight to another peer it returns the
blocks at heights 502..565. -/
theorem findNext_simple_extension_witness :
    (FindNextBlocksToDownload 1024 (lineChain 500) 2000 (windowScenario [] none) (peer 1) 64 []
        = some (windowScenario [] (some 500), List.range' 501 64) ∧
      ∃ s', FindNextBlocksToDownload 1024 (lineChain 500) 2000 (windowScenario [] none)
          (peer 1) 64 []
          = some (s', expectedDownload 1024 (lineChain 500) (windowScenario [] none) 2000 64) ∧
        s'.mapBlocksInFlight = (windowScenario [] none).mapBlocksInFlight ∧
        s'.mapNumBlocksInFlight = (windowScenario [] none).mapNumBlocksInFlight) ∧
    (FindNextBlocksToDownload 1024 (lineChain 500) 2000
        (windowScenario [(502, (2, { hash := 502, pindex := some 501, haveIndex := true }))] none)
        (peer 1) 64 []
        = some (windowScenario
            [(502, (2, { hash := 502, pindex := some 501, haveIndex := true }))] (some 500),
          List.range' 502 64) ∧
      ∃ s', FindNextBlocksToDownload 1024 (lineChain 500) 2000
          (windowScenario [(502, (2, { hash := 502, pindex := some 501, haveIndex := true }))] none)
          (peer 1) 64 []
          = some (s', expectedDownload 1024 (lineChain 500)
            (windowScenario [(502, (2, { hash := 502, pindex := some 501, haveIndex := true }))]
              none) 2000 64) ∧
        s'.mapBlocksInFlight = (windowScenario
          [(502, (2, { hash := 502, pindex := some 501, haveIndex := true }))]
          none).mapBlocksInFlight ∧
        s'.mapNumBlocksInFlight = (windowScenario
          [(502, (2, { hash := 502, pindex := some 501, haveIndex := true }))]
          none).mapNumBlocksInFlight) :=
  ⟨⟨by decide,
      findNext_simple_extension 1024 (lineChain 500) 2000 (windowScenario [] none) (peer 1) 64
        { CNodeState.init 0 0 with pindexBestKnownBlock := some 2000 } 2000 500
        (lineIndex_wellFormed 500) (by decide) (by decide) (by decide) (by decide) (by decide)
        (by decide) (by decide) (lineIndex_ancestor 500 500 2000 (by decide)) (by decide)
        (by decide) (lineChain_plain 500 2000) (by decide)⟩,
    ⟨by decide,
      findNext_simple_extension 1024 (lineChain 500) 2000
        (windowScenario [(502, (2, { hash := 502, pindex := some 501, haveIndex := true }))] none)
        (peer 1) 64
        { CNodeState.init 0 0 with pindexBestKnownBlock := some 2000 } 2000 500
        (lineIndex_wellFormed 500) (by decide) (by decide) (by decide) (by decide) (by decide)
        (by decide) (by decide) (lineIndex_ancestor 500 500 2000 (by decide)) (by decide)
        (by decide) (lineChain_plain 500 2000) (by decide)⟩⟩

/-! ## The claims on the peer registry and on block availability -/

/-- C13, the code at the failing input: `RemoveNodeState` erases the peer state
and nothing else, for every state; in `removalScenario`, after
RemoveNodeState(1), the state of peer 1 is gone but hash 5 is still in the
ledger, owned by peer 1, and the counter of peer 1 is still 1. -/
theorem removeNodeState_keeps_ledger :
    (∀ (s : CRequestManager) (id : NodeId),
      mapFind (RemoveNodeState s id).mapNodeState id = none ∧
        (RemoveNodeState s id).mapBlocksInFlight = s.mapBlocksInFlight ∧
        (RemoveNodeState s id).mapNumBlocksInFlight = s.mapNumBlocksInFlight) ∧
    (mapFind removalScenario.mapNodeState 1).map (fun st => st.fPreferredDownload) = some true ∧
    mapFind (RemoveNodeState removalScenario 1).mapNodeState 1 = none ∧
    inFlightOwner (RemoveNodeState removalScenario 1) 5 = some 1 ∧
    IsBlockInFlight (RemoveNodeState removalScenario 1) 5 = true ∧
    ownedCount (RemoveNodeState removalScenario 1) 1 = 1 ∧
    GetBlocksInFlight (RemoveNodeState removalScenario 1) 1 = some 1 :=
  ⟨fun s id => ⟨mapFind_erase_self s.mapNodeState id, rfl, rfl⟩, by decide, by decide, by decide,
    by decide, by decide, by decide⟩

theorem processAvailability_bestWork (cm : CChainManager) (state : CNodeState) :
    bestWork cm state ≤ bestWork cm (processAvailability cm state) ∧
      (state.pindexBestKnownBlock ≠ none →
        (processAvailability cm state).pindexBestKnownBlock ≠ none) := by
  unfold processAvailability
  split_ifs with h1
  · split
    · rename_i pindex _
      split_ifs with h2
      · cases hb : state.pindexBestKnownBlock with
        | none =>
          simp only [bestWork, hb]
          exact ⟨by omega, fun h => absurd rfl h⟩
        | some best =>
          simp only [bestWork, hb]
          split_ifs with h3
          · exact ⟨by simp only []; omega, fun _ => by simp⟩
          · exact ⟨by simp [hb], fun _ => by simp [hb]⟩
      · exact ⟨le_refl _, id⟩
    · exact ⟨le_refl _, id⟩
  · exact ⟨le_refl _, id⟩

theorem updateAvailability_bestWork (cm : CChainManager) (hash : uint256) (state : CNodeState) :
    bestWork cm state ≤ bestWork cm (updateAvailability cm hash state) ∧
      (state.pindexBestKnownBlock ≠ none →
        (updateAvailability cm hash state).pindexBestKnownBlock ≠ none) := by
  unfold updateAvailability
  split
  · rename_i pindex _
    split_ifs with h2
    · cases hb : state.pindexBestKnownBlock with
      | none =>
        simp only [bestWork, hb]
        exact ⟨by omega, fun h => absurd rfl h⟩
      | some best =>
        simp only [bestWork, hb]
        split_ifs with h3
        · exact ⟨by simp only []; omega, fun _ => by simp⟩
        · exact ⟨by simp [hb], fun _ => by simp [hb]⟩
    · exact ⟨le_refl _, id⟩
  · exact ⟨le_refl _, id⟩

theorem updateBlockAvailability_eq (cm : CChainManager) (s : CRequestManager) (nodeid : NodeId)
    (hash : uint256) (state0 : CNodeState) (hs : mapFind s.mapNodeState nodeid = some state0) :
    ∃ s', UpdateBlockAvailability cm s nodeid hash = some s' ∧
      mapFind s'.mapNodeState nodeid
        = some (updateAvailability cm hash (processAvailability cm state0)) ∧
      s'.mapBlocksInFlight = s.mapBlocksInFlight ∧
      s'.mapNumBlocksInFlight = s.mapNumBlocksInFlight := by
  obtain ⟨s1, hs1, hstate⟩ := processBlockAvailability_state cm s nodeid state0 hs
  obtain ⟨hl, hn⟩ := processBlockAvailability_ledger cm s s1 nodeid hs1
  have e : UpdateBlockAvailability cm s nodeid hash
      = some { s1 with
          mapNodeState := mapAssign s1.mapNodeState nodeid
            (updateAvailability cm hash (processAvailability cm state0)) } := by
    simp only [UpdateBlockAvailability, hs1, hstate]
  exact ⟨_, e, mapFind_assign_self _ _ _, hl, hn⟩

/-- C14: for every state, chain view, registered peer p and hash h,
ProcessBlockAvailability(p) and UpdateBlockAvailability(p, h) return, and
neither lowers the chain-work of p's best_known_block (null counting as below
every block) nor turns a non-null best_known_block into null. -/
theorem bestKnown_work_monotone (cm : CChainManager) (s : CRequestManager) (p : NodeId)
    (h : uint256) (state0 : CNodeState) (hs : mapFind s.mapNodeState p = some state0) :
    (∃ s' state', ProcessBlockAvailability cm s p = some s' ∧
      mapFind s'.mapNodeState p = some state' ∧
      bestWork cm state0 ≤ bestWork cm state' ∧
      (state0.pindexBestKnownBlock ≠ none → state'.pindexBestKnownBlock ≠ none)) ∧
    (∃ s' state', UpdateBlockAvailability cm s p h = some s' ∧
      mapFind s'.mapNodeState p = some state' ∧
      bestWork cm state0 ≤ bestWork cm state' ∧
      (state0.pindexBestKnownBlock ≠ none → state'.pindexBestKnownBlock ≠ none)) := by
  have h1 := processAvailability_bestWork cm state0
  have h2 := updateAvailability_bestWork cm h (processAvailability cm state0)
  constructor
  · obtain ⟨s1, hs1, hstate⟩ := processBlockAvailability_state cm s p state0 hs
    exact ⟨s1, _, hs1, hstate, h1.1, h1.2⟩
  · obtain ⟨s', hs', hstate, _⟩ := updateBlockAvailability_eq cm s p h state0 hs
    exact ⟨s', _, hs', hstate, le_trans h1.1 h2.1, fun hne => h2.2 (h1.2 hne)⟩

/-- C14, witness: in `forkChain` peer 1 has best known block 3 (chain-work 4)
and the pending announcement of block 6 (hash 106, chain-work 5);
ProcessBlockAvailability makes block 6 the best known block, and so does
UpdateBlockAvailability for the hash 102 of block 2 (chain-work 3). -/
theorem bestKnown_work_monotone_witness :
    (ProcessBlockAvailability forkChain announceScenario 1).map
        (fun s' => (mapFind s'.mapNodeState 1).map (fun st => st.pindexBestKnownBlock))
      = some (some (some 6)) ∧
    (UpdateBlockAvailability forkChain announceScenario 1 102).map
        (fun s' => (mapFind s'.mapNodeState 1).map (fun st => st.pindexBestKnownBlock))
      = some (some (some 6)) ∧
    (∃ s' state', ProcessBlockAvailability forkChain announceScenario 1 = some s' ∧
      mapFind s'.mapNodeState 1 = some state' ∧
      bestWork forkChain announceState ≤ bestWork forkChain state' ∧
      (announceState.pindexBestKnownBlock ≠ none → state'.pindexBestKnownBlock ≠ none)) ∧
    (∃ s' state', UpdateBlockAvailability forkChain announceScenario 1 102 = some s' ∧
      mapFind s'.mapNodeState 1 = some state' ∧
      bestWork forkChain announceState ≤ bestWork forkChain state' ∧
      (announceState.pindexBestKnownBlock ≠ none → state'.pindexBestKnownBlock ≠ none)) :=
  ⟨by decide, by decide,
    bestKnown_work_monotone forkChain announceScenario 1 102 announceState (by decide)⟩

/-- C15 (as amended): for every state, registered peer p and hash h,
UpdateBlockAvailability(p, h) returns, and with `state1` the peer state after
the promotion step: if h resolves to an index with chain_work > 0 whose work is
>= the work of best_known_block (or best_known_block is null), best_known_block
becomes that index and nothing else changes; if h is unknown or resolves to an
index with zero work, hash_last_unknown becomes h and nothing else changes; if h
resolves to an index with positive but lower work, the peer state is left as it
is (hash_last_unknown is not set). -/
theorem updateBlockAvailability_cases (cm : CChainManager) (s : CRequestManager) (p : NodeId)
    (h : uint256) (state0 : CNodeState) (hs : mapFind s.mapNodeState p = some state0) :
    ∃ s' state', UpdateBlockAvailability cm s p h = some s' ∧
      mapFind s'.mapNodeState p = some state' ∧
      (∀ idx, cm.LookupBlockIndex h = some idx → 0 < (cm.index idx).nChainWork →
        ((processAvailability cm state0).pindexBestKnownBlock = none ∨
          ∃ b, (processAvailability cm state0).pindexBestKnownBlock = some b ∧
            (cm.index b).nChainWork ≤ (cm.index idx).nChainWork) →
        state' = { processAvailability cm state0 with pindexBestKnownBlock := some idx }) ∧
      ((cm.LookupBlockIndex h = none ∨
          ∃ idx, cm.LookupBlockIndex h = some idx ∧ (cm.index idx).nChainWork = 0) →
        state' = { processAvailability cm state0 with hashLastUnknownBlock := h }) ∧
      (∀ idx b, cm.LookupBlockIndex h = some idx → 0 < (cm.index idx).nChainWork →
        (processAvailability cm state0).pindexBestKnownBlock = some b →
        (cm.index idx).nChainWork < (cm.index b).nChainWork →
        state' = processAvailability cm state0) := by
  obtain ⟨s', hs', hstate, _⟩ := updateBlockAvailability_eq cm s p h state0 hs
  refine ⟨s', _, hs', hstate, ?_, ?_, ?_⟩
  · intro idx hl hw hb
    unfold updateAvailability
    simp only [hl]
    rw [if_pos (by omega)]
    rcases hb with hb | ⟨b, hb, hle⟩
    · simp only [hb]
    · simp only [hb]
      rw [if_pos (by omega)]
  · intro hc
    unfold updateAvailability
    rcases hc with hl | ⟨idx, hl, hw⟩
    · simp only [hl]
    · simp only [hl]
      rw [if_neg (by omega)]
  · intro idx b hl hw hb hlt
    unfold updateAvailability
    simp only [hl]
    rw [if_pos (by omega)]
    simp only [hb]
    rw [if_neg (by omega)]

/-- C15, witness: peer 1 of `forkChain` has best known block 3 and the pending
announcement of block 6; the announcement of the unknown hash 7 is recorded as
hash_last_unknown after block 6 was promoted. -/
theorem updateBlockAvailability_cases_witness :
    (UpdateBlockAvailability forkChain announceScenario 1 7).map
        (fun s' => mapFind s'.mapNodeState 1)
      = some (some { CNodeState.init 0 0 with
          pindexBestKnownBlock := some 6, hashLastUnknownBlock := 7 }) ∧
    ∃ s' state', UpdateBlockAvailability forkChain announceScenario 1 7 = some s' ∧
      mapFind s'.mapNodeState 1 = some state' ∧
      (∀ idx, forkChain.LookupBlockIndex 7 = some idx → 0 < (forkChain.index idx).nChainWork →
        ((processAvailability forkChain announceState).pindexBestKnownBlock = none ∨
          ∃ b, (processAvailability forkChain announceState).pindexBestKnownBlock = some b ∧
            (forkChain.index b).nChainWork ≤ (forkChain.index idx).nChainWork) →
        state' = { processAvailability forkChain announceState with
          pindexBestKnownBlock := some idx }) ∧
      ((forkChain.LookupBlockIndex 7 = none ∨
          ∃ idx, forkChain.LookupBlockIndex 7 = some idx ∧ (forkChain.index idx).nChainWork = 0) →
        state' = { processAvailability forkChain announceState with hashLastUnknownBlock := 7 }) ∧
      (∀ idx b, forkChain.LookupBlockIndex 7 = some idx → 0 < (forkChain.index idx).nChainWork →
        (processAvailability forkChain announceState).pindexBestKnownBlock = some b →
        (forkChain.index idx).nChainWork < (forkChain.index b).nChainWork →
        state' = processAvailability forkChain announceState) :=
  ⟨by decide, updateBlockAvailability_cases forkChain announceScenario 1 7 announceState (by decide)⟩

/-- C15, counterexample: peer 1 of `forkChain` has best known block 6
(chain-work 5) and no pending announcement; hash 102 resolves to block 2, whose
chain-work 3 is positive but lower. After UpdateBlockAvailability(1, 102) the
peer state is unchanged: hash_last_unknown is still null, not 102. -/
theorem updateBlockAvailability_lower_work_counterexample :
    forkChain.LookupBlockIndex 102 = some 2 ∧ (forkChain.index 2).nChainWork = 3 ∧
      (forkChain.index 6).nChainWork = 5 ∧
      (mapFind (onePeer 1 6 none).mapNodeState 1).map (fun st => st.hashLastUnknownBlock)
        = some 0 ∧
      (UpdateBlockAvailability forkChain (onePeer 1 6 none) 1 102).map
          (fun s' => (mapFind s'.mapNodeState 1).map (fun st => st.hashLastUnknownBlock))
        = some (some 0) ∧
      UpdateBlockAvailability forkChain (onePeer 1 6 none) 1 102 = some (onePeer 1 6 none) := by
  decide

/-! ## The claims on `StartDownload` and `GetNodeStateStats` -/

theorem startSync_eq (cm : CChainManager) (s : CRequestManager) (node : CNode)
    (state : CNodeState) (bh : Nat) (hbh : cm.pindexBestHeader = some bh) :
    startSync cm s node state
      = some (withSyncStarted s node.id state,
          [NetMsg.GETHEADERS node.id (locatorStart cm bh) 0]) := by
  unfold startSync
  simp only [hbh, withSyncStarted, locatorStart]

/-- `StartDownload` for a registered peer and a non-null best header. -/
theorem startDownload_eq (cm : CChainManager) (nPreferredDownload : Int)
    (fImporting fReindex : Bool) (adjustedTime : Int) (s : CRequestManager) (node : CNode)
    (state : CNodeState) (bh : Nat) (hs : mapFind s.mapNodeState node.id = some state)
    (hbh : cm.pindexBestHeader = some bh) :
    StartDownload cm nPreferredDownload fImporting fReindex adjustedTime s node =
      if fetchEligible cm nPreferredDownload fImporting fReindex adjustedTime state node bh
          = true then
        some (withSyncStarted s node.id state, [NetMsg.GETHEADERS node.id (locatorStart cm bh) 0])
      else some (s, []) := by
  unfold StartDownload fetchEligible
  simp only [hs, hbh, startSync_eq cm s node state bh hbh]
  have h86400 : (24 : Int) * 60 * 60 = 86400 := by norm_num
  rw [h86400]
  cases state.fSyncStarted <;> cases node.fClient <;> cases fImporting <;> cases fReindex <;>
    cases state.fPreferredDownload <;> cases node.fOneShot <;>
    by_cases h0 : nPreferredDownload = 0 <;>
    by_cases ht : (cm.index bh).nTime > adjustedTime - 86400 <;> simp [h0, ht]

theorem startDownload_state (cm : CChainManager) (nPreferredDownload : Int)
    (fImporting fReindex : Bool) (adjustedTime : Int) (s : CRequestManager) (node : CNode)
    (state : CNodeState) (r : CRequestManager × List NetMsg)
    (hs : mapFind s.mapNodeState node.id = some state)
    (h : StartDownload cm nPreferredDownload fImporting fReindex adjustedTime s node = some r) :
    r.1 = s ∨ r.1 = withSyncStarted s node.id state := by
  cases hbh : cm.pindexBestHeader with
  | none =>
    unfold StartDownload at h
    simp only [hs, hbh, startSync] at h
    split_ifs at h
    cases h
    exact Or.inl rfl
  | some bh =>
    rw [startDownload_eq cm nPreferredDownload fImporting fReindex adjustedTime s node state bh hs
      hbh] at h
    split_ifs at h
    · cases h
      exact Or.inr rfl
    · cases h
      exact Or.inl rfl

/-- C17, the code at the failing input: `StartDownload` never writes
first_headers_expected_height (the field keeps its value in every run). With the
active tip of `lineChain 2` at height 2 and the fresh, eligible peer 1, the call
sends the GETHEADERS and sets sync_started, and first_headers_expected_height is
still 0, not 2. -/
theorem startDownload_leaves_expected_height :
    (∀ (cm : CChainManager) (nPreferredDownload : Int) (fImporting fReindex : Bool)
        (adjustedTime : Int) (s : CRequestManager) (node : CNode) (state : CNodeState)
        (r : CRequestManager × List NetMsg),
      mapFind s.mapNodeState node.id = some state →
      StartDownload cm nPreferredDownload fImporting fReindex adjustedTime s node = some r →
      (mapFind r.1.mapNodeState node.id).map (fun st => st.nFirstHeadersExpectedHeight)
        = some state.nFirstHeadersExpectedHeight) ∧
    heightOr (lineChain 2) (lineChain 2).Tip = 2 ∧
    (StartDownload (lineChain 2) 0 false false 0 (InitializeNodeState CRequestManager.empty (peer 1))
        (peer 1)).map (fun r => r.2) = some [NetMsg.GETHEADERS 1 1 0] ∧
    (StartDownload (lineChain 2) 0 false false 0 (InitializeNodeState CRequestManager.empty (peer 1))
        (peer 1)).map (fun r => (mapFind r.1.mapNodeState 1).map (fun st => st.fSyncStarted))
      = some (some true) ∧
    (StartDownload (lineChain 2) 0 false false 0 (InitializeNodeState CRequestManager.empty (peer 1))
        (peer 1)).map
        (fun r => (mapFind r.1.mapNodeState 1).map (fun st => st.nFirstHeadersExpectedHeight))
      = some (some 0) := by
  refine ⟨?_, by decide, by decide, by decide, by decide⟩
  intro cm n imp re t s node state r hs h
  rcases startDownload_state cm n imp re t s node state r hs h with h1 | h1
  · rw [h1, hs]
    rfl
  · rw [h1]
    simp [withSyncStarted, mapFind_assign_self]

/-- C18: for every state, registered node, clock value and non-null best header,
StartDownload sends exactly one GETHEADERS to the node, with the locator taken
at best_header.prev when prev exists and at best_header otherwise and with a
null stop hash, and sets sync_started, when sync_started is false, the node is
not a client, the process is neither importing nor reindexing, and (the peer is
preferred-download, or nPreferredDownload is 0 and the peer is not one-shot, or
best_header's block time is later than adjusted time minus 86400 seconds); in
every other case it sends nothing and leaves the manager unchanged. A second
call with the same arguments sends nothing, and after a call that sent the
GETHEADERS every later call sends nothing, whatever the globals and the clock. -/
theorem startDownload_sends_iff_eligible (cm : CChainManager) (nPreferredDownload : Int)
    (fImporting fReindex : Bool) (adjustedTime : Int) (s : CRequestManager) (node : CNode)
    (state : CNodeState) (bh : Nat) (hs : mapFind s.mapNodeState node.id = some state)
    (hbh : cm.pindexBestHeader = some bh) :
    (fetchEligible cm nPreferredDownload fImporting fReindex adjustedTime state node bh = true →
      StartDownload cm nPreferredDownload fImporting fReindex adjustedTime s node
        = some (withSyncStarted s node.id state,
            [NetMsg.GETHEADERS node.id (locatorStart cm bh) 0])) ∧
    (fetchEligible cm nPreferredDownload fImporting fReindex adjustedTime state node bh = false →
      StartDownload cm nPreferredDownload fImporting fReindex adjustedTime s node
        = some (s, [])) ∧
    (∀ r, StartDownload cm nPreferredDownload fImporting fReindex adjustedTime s node = some r →
      StartDownload cm nPreferredDownload fImporting fReindex adjustedTime r.1 node
        = some (r.1, [])) ∧
    (∀ (n' : Int) (fImporting' fReindex' : Bool) (adjustedTime' : Int),
      StartDownload cm n' fImporting' fReindex' adjustedTime' (withSyncStarted s node.id state) node
        = some (withSyncStarted s node.id state, [])) := by
  have heq := startDownload_eq cm nPreferredDownload fImporting fReindex adjustedTime s node state
    bh hs hbh
  have hstarted : ∀ (n' : Int) (fImporting' fReindex' : Bool) (adjustedTime' : Int),
      StartDownload cm n' fImporting' fReindex' adjustedTime' (withSyncStarted s node.id state) node
        = some (withSyncStarted s node.id state, []) := by
    intro n' imp' re' t'
    have hs' : mapFind (withSyncStarted s node.id state).mapNodeState node.id
        = some { state with fSyncStarted := true } := mapFind_assign_self _ _ _
    rw [startDownload_eq cm n' imp' re' t' _ node _ bh hs' hbh, if_neg]
    simp [fetchEligible]
  refine ⟨fun he => by rw [heq, if_pos he], fun he => by rw [heq, if_neg (by simp [he])], ?_,
    hstarted⟩
  intro r hr
  rw [heq] at hr
  split_ifs at hr with he
  · cases hr
    exact hstarted _ _ _ _
  · cases hr
    rw [heq, if_neg he]

/-- C18, witness: the fresh peer 1 and `lineChain 2`, whose best header is block
2 with predecessor 1: the call sends one GETHEADERS with the locator taken at
block 1, and a second call sends nothing. -/
theorem startDownload_sends_iff_eligible_witness :
    StartDownload (lineChain 2) 0 false false 100000
        (InitializeNodeState CRequestManager.empty (peer 1)) (peer 1)
      = some (withSyncStarted (InitializeNodeState CRequestManager.empty (peer 1)) 1
          (CNodeState.init 0 0), [NetMsg.GETHEADERS 1 1 0]) ∧
    StartDownload (lineChain 2) 0 false false 100000
        (withSyncStarted (InitializeNodeState CRequestManager.empty (peer 1)) 1
          (CNodeState.init 0 0)) (peer 1)
      = some (withSyncStarted (InitializeNodeState CRequestManager.empty (peer 1)) 1
          (CNodeState.init 0 0), []) :=
  ⟨(startDownload_sends_iff_eligible (lineChain 2) 0 false false 100000
      (InitializeNodeState CRequestManager.empty (peer 1)) (peer 1) (CNodeState.init 0 0) 2
      (by decide) (by decide)).1 (by decide),
    (startDownload_sends_iff_eligible (lineChain 2) 0 false false 100000
      (InitializeNodeState CRequestManager.empty (peer 1)) (peer 1) (CNodeState.init 0 0) 2
      (by decide) (by decide)).2.2.2 0 false false 100000⟩

/-- C19, the code at the failing input: for every registered peer
`GetNodeStateStats` returns false and leaves `stats` untouched. In
`statsScenario` peer 1 is registered with best known block at height 4, last
common block at height 1 and blocks at heights 3 and 4 in flight: the call
returns (false, untouched stats), where the claim has true with nSyncHeight = 4,
nCommonHeight = 1 and vHeightInFlight = [3, 4]; for the unregistered peer 2 the
code has no defined result. -/
theorem getNodeStateStats_inverted :
    (∀ (s : CRequestManager) (nodeid : NodeId) (stats : CNodeStateStats) (state : CNodeState),
      mapFind s.mapNodeState nodeid = some state →
      GetNodeStateStats s nodeid stats = some (false, stats)) ∧
    GetNodeStateStats statsScenario 1 noStats = some (false, noStats) ∧
    (mapFind statsScenario.mapNodeState 1).map
        (fun state => fillStats forkChain statsScenario 1 state noStats)
      = some { nSyncHeight := 4, nCommonHeight := 1, vHeightInFlight := [3, 4] } ∧
    mapFind statsScenario.mapNodeState 2 = none ∧
    GetNodeStateStats statsScenario 2 noStats = none := by
  refine ⟨?_, by decide, by decide, by decide, by decide⟩
  intro s nodeid stats state hs
  simp [GetNodeStateStats, hs]

/-! ## Lemmas on `RequestNextBlocksToDownload` -/

theorem getAncestor_height (index : Nat → CBlockIndex) (wf : WellFormed index) (a : Nat)
    (height : Int) (y : Nat) (e : GetAncestor index a height = some y) :
    (index y).nHeight = height := by
  unfold GetAncestor at e
  split_ifs at e with hc
  have := walkBack_height index wf _ a y e
  omega

/-- The backward fill on a well-formed index gives blocks of ascending height,
none above the block it starts at and none more than `k` below it. -/
theorem backfill_sorted (index : Nat → CBlockIndex) (wf : WellFormed index) (k : Nat) :
    ∀ (p : Nat) (acc out : List Nat), backfill index k p acc = some out →
      ∃ path, out = path ++ acc ∧
        path.Pairwise (fun a b => (index a).nHeight < (index b).nHeight) ∧
        ∀ q ∈ path, (index p).nHeight - (k : Int) ≤ (index q).nHeight ∧
          (index q).nHeight ≤ (index p).nHeight := by
  induction k with
  | zero =>
    intro p acc out h
    simp only [backfill] at h
    cases h
    exact ⟨[p], rfl, List.pairwise_singleton _ _, by simp⟩
  | succ k ih =>
    intro p acc out h
    simp only [backfill] at h
    cases hp : (index p).pprev with
    | none => rw [hp] at h; cases h
    | some q =>
      rw [hp] at h
      simp only [] at h
      obtain ⟨path, e, hpw, hq⟩ := ih q (p :: acc) out h
      have hh := wf.height_prev p q hp
      refine ⟨path ++ [p], by rw [e]; simp, ?_, ?_⟩
      · rw [List.pairwise_append]
        refine ⟨hpw, List.pairwise_singleton _ _, ?_⟩
        intro a ha b hb
        rw [List.mem_singleton.mp hb]
        have := (hq a ha).2
        omega
      · intro y hy
        rcases List.mem_append.mp hy with hy | hy
        · have := hq y hy
          push_cast
          omega
        · rw [List.mem_singleton.mp hy]
          push_cast
          omega

/-- The blocks that the walk appends on a well-formed index are of ascending
height, all above the block at which the walk starts. -/
theorem walkLoop_sorted (cm : CChainManager) (wf : WellFormed cm.index) (s : CRequestManager)
    (count : Nat) (best : Nat) (nWindowEnd nMaxHeight : Int) (fuel : Nat) :
    ∀ (pindexWalk : Nat) (st st' : WalkState),
      walkLoop cm s count best nWindowEnd nMaxHeight fuel pindexWalk st = some st' →
      ∃ added : List Nat, st'.vBlocks = st.vBlocks ++ added ∧
        added.Pairwise (fun a b => (cm.index a).nHeight < (cm.index b).nHeight) ∧
        ∀ q ∈ added, (cm.index pindexWalk).nHeight < (cm.index q).nHeight := by
  induction fuel with
  | zero =>
    intro w st st' h
    unfold walkLoop at h
    split_ifs at h
    cases h
    exact ⟨[], by simp, List.Pairwise.nil, by simp⟩
  | succ fuel ih =>
    intro w st st' h
    unfold walkLoop at h
    split_ifs at h with hlt
    · have hfl := fetchFloor_ge count st.vBlocks.length
      obtain ⟨n, hn⟩ : ∃ n : Int,
          min (nMaxHeight - (cm.index w).nHeight) (fetchFloor count st.vBlocks.length) = n :=
        ⟨_, rfl⟩
      have hn1 : 1 ≤ n := by rw [← hn]; exact le_min (by omega) (by omega)
      simp only [hn] at h
      split at h
      · cases h
      · rename_i w' hw'
        have hh := getAncestor_height cm.index wf best _ w' hw'
        split at h
        · cases h
        · rename_i vToFetch hfill
          obtain ⟨path, e0, hpw, hpath⟩ := backfill_sorted cm.index wf _ w' [] vToFetch hfill
          rw [List.append_nil] at e0
          subst e0
          obtain ⟨added, e, hsub, _⟩ := scanBatch_appends cm s count nWindowEnd vToFetch st
          have hpw1 := hpw.sublist hsub
          have hb1 : ∀ q ∈ added, (cm.index w).nHeight < (cm.index q).nHeight ∧
              (cm.index q).nHeight ≤ (cm.index w').nHeight := by
            intro q hq
            have := hpath q (hsub.subset hq)
            omega
          split at h
          · rename_i st1 hsc
            cases h
            rw [hsc] at e
            exact ⟨added, e, hpw1, fun q hq => (hb1 q hq).1⟩
          · rename_i st1 hsc
            rw [hsc] at e
            obtain ⟨added2, e2, hpw2, hb2⟩ := ih w' st1 st' h
            refine ⟨added ++ added2, by rw [e2, e, List.append_assoc], ?_, ?_⟩
            · rw [List.pairwise_append]
              refine ⟨hpw1, hpw2, ?_⟩
              intro a ha b hb
              have := (hb1 a ha).2
              have := hb2 b hb
              omega
            · intro q hq
              rcases List.mem_append.mp hq with hq | hq
              · exact (hb1 q hq).1
              · have := hb2 q hq
                omega
    · cases h
      exact ⟨[], by simp, List.Pairwise.nil, by simp⟩

/-- The blocks that `FindNextBlocksToDownload` appends to an empty vector on a
well-formed index are of ascending height. -/
theorem findNext_sorted (W : Int) (cm : CChainManager) (wf : WellFormed cm.index) (fuel : Nat)
    (s : CRequestManager) (node : CNode) (count : Nat) (r : CRequestManager × List Nat)
    (h : FindNextBlocksToDownload W cm fuel s node count [] = some r) :
    r.2.Pairwise (fun a b => (cm.index a).nHeight < (cm.index b).nHeight) := by
  rcases findNext_inv W cm fuel s node count [] r h with h0 | ⟨s1, state, _, _, h1⟩
  · subst h0
    exact List.Pairwise.nil
  · rcases h1 with h1 | ⟨best, common, lc, out, _, hr, h2⟩
    · subst h1
      exact List.Pairwise.nil
    · subst hr
      rcases h2 with ⟨_, _, ho⟩ | ⟨st, hst, _, ho⟩
      · simp only [ho]
        exact List.Pairwise.nil
      · obtain ⟨added, e, hpw, _⟩ := walkLoop_sorted cm wf s1 count best _ _ fuel common _ st hst
        simp only [ho, e, List.nil_append]
        exact hpw

theorem findNext_nodup (W : Int) (cm : CChainManager) (wf : WellFormed cm.index) (fuel : Nat)
    (s : CRequestManager) (node : CNode) (count : Nat) (r : CRequestManager × List Nat)
    (h : FindNextBlocksToDownload W cm fuel s node count [] = some r) : r.2.Nodup := by
  have hpw := findNext_sorted W cm wf fuel s node count r h
  unfold List.Nodup
  exact hpw.imp (fun {a b} hab e => by rw [e] at hab; exact lt_irrefl _ hab)

theorem int16_toInt_add_nat (c : int16_t) (k : Nat) (h : c.toInt + (k : Int) < 32768) :
    (c + ((k : Nat) : int16_t)).toInt = c.toInt + (k : Int) := by
  have h1 : (c + ((k : Nat) : int16_t)).val = (c.val + k % 65536) % 65536 := by
    rw [Fin.val_add, Fin.val_natCast]
  have hc := c.isLt
  simp only [int16_t.toInt] at h ⊢
  rw [h1]
  split_ifs at h ⊢ <;> omega

/-- The entry that `MarkBlockAsInFlight` stores for a hash. -/
theorem mark_fresh (s : CRequestManager) (nodeid : NodeId) (hash : uint256) (pindex : BlockPtr)
    (c : int16_t) (hf : mapFind s.mapBlocksInFlight hash = none)
    (hc : mapFind s.mapNumBlocksInFlight nodeid = some c) :
    MarkBlockAsInFlight s nodeid hash pindex =
      { s with
        mapBlocksInFlight := mapAssign s.mapBlocksInFlight hash
          (nodeid, { hash := hash, pindex := pindex, haveIndex := pindex.isSome })
        mapNumBlocksInFlight := mapAssign s.mapNumBlocksInFlight nodeid (c + 1) } := by
  unfold MarkBlockAsInFlight
  rw [received_of_absent s hash hf]
  simp only [hc]

/-- Marking a list of distinct hashes none of which is in the ledger: each gets
an entry of the peer, nothing else changes in the ledger, and the counter of the
peer goes up by the length of the list. -/
theorem markAll_fresh (cm : CChainManager) (nodeid : NodeId) (vs : List uint256) :
    ∀ (s : CRequestManager) (c : int16_t), vs.Nodup →
      (∀ h ∈ vs, mapFind s.mapBlocksInFlight h = none) →
      mapFind s.mapNumBlocksInFlight nodeid = some c →
      (∀ h, mapFind (markAll cm nodeid s vs).mapBlocksInFlight h =
        if h ∈ vs then
          some (nodeid,
            { hash := h, pindex := (cm.LookupBlockIndex h),
              haveIndex := (cm.LookupBlockIndex h).isSome })
        else mapFind s.mapBlocksInFlight h) ∧
      mapFind (markAll cm nodeid s vs).mapNumBlocksInFlight nodeid
        = some (c + ((vs.length : Nat) : int16_t)) ∧
      (∀ p, p ≠ nodeid → mapFind (markAll cm nodeid s vs).mapNumBlocksInFlight p
        = mapFind s.mapNumBlocksInFlight p) ∧
      (markAll cm nodeid s vs).mapNodeState = s.mapNodeState := by
  induction vs with
  | nil =>
    intro s c _ _ hc
    refine ⟨fun h => by simp [markAll], ?_, fun p _ => rfl, rfl⟩
    simp [markAll, hc]
  | cons h0 vs ih =>
    intro s c hnd hfresh hc
    have hstep := mark_fresh s nodeid h0 (cm.LookupBlockIndex h0) c
      (hfresh h0 (List.mem_cons_self _ _)) hc
    have hnd' := List.nodup_cons.mp hnd
    have e : markAll cm nodeid s (h0 :: vs)
        = markAll cm nodeid (MarkBlockAsInFlight s nodeid h0 (cm.LookupBlockIndex h0)) vs := rfl
    rw [e]
    obtain ⟨i1, i2, i3, i4⟩ := ih (MarkBlockAsInFlight s nodeid h0 (cm.LookupBlockIndex h0)) (c + 1)
      hnd'.2
      (fun h hh => by
        rw [hstep]
        have hne : h0 ≠ h := fun e => hnd'.1 (e ▸ hh)
        simp only []
        rw [mapFind_assign_ne _ _ (Ne.symm hne)]
        exact hfresh h (List.mem_cons_of_mem _ hh))
      (by rw [hstep]; exact mapFind_assign_self _ _ _)
    refine ⟨fun h => ?_, ?_, fun p hp => ?_, ?_⟩
    · rw [i1 h]
      by_cases hh : h ∈ vs
      · rw [if_pos hh, if_pos (List.mem_cons_of_mem _ hh)]
      · rw [if_neg hh]
        by_cases h1 : h = h0
        · subst h1
          rw [if_pos (List.mem_cons_self _ _), hstep]
          exact mapFind_assign_self _ _ _
        · rw [if_neg (by simp [h1, hh]), hstep]
          exact mapFind_assign_ne _ _ h1
    · rw [i2]
      congr 1
      simp only [List.length_cons]
      push_cast
      ring
    · rw [i3 p hp, hstep]
      exact mapFind_assign_ne _ _ hp
    · rw [i4, hstep]

/-- The result of `RequestNextBlocksToDownload` for a peer that is skipped. -/
theorem requestNext_skip (W : Int) (cm : CChainManager) (AlreadyHaveBlock : uint256 → Bool)
    (fuel : Nat) (s : CRequestManager) (node : CNode) (counter : int16_t)
    (hc : mapFind s.mapNumBlocksInFlight node.id = some counter)
    (hskip : node.fDisconnect = true ∨ node.fClient = true ∨ 64 ≤ counter.toInt) :
    RequestNextBlocksToDownload W cm AlreadyHaveBlock fuel s node = some (s, []) := by
  unfold RequestNextBlocksToDownload
  simp only [hc]
  rw [if_neg]
  intro hcond
  simp only [Bool.and_eq_true, Bool.not_eq_true', decide_eq_true_eq] at hcond
  rcases hskip with h | h | h
  · rw [hcond.1.1] at h; cases h
  · rw [hcond.1.2] at h; cases h
  · omega

/-- The result of `RequestNextBlocksToDownload` for a peer that is not skipped:
the blocks come from `FindNextBlocksToDownload`, and the hashes requested are
those that pass the two filters. -/
theorem requestNext_inv (W : Int) (cm : CChainManager) (AlreadyHaveBlock : uint256 → Bool)
    (fuel : Nat) (s : CRequestManager) (node : CNode) (counter : int16_t)
    (r : CRequestManager × List NetMsg)
    (hc : mapFind s.mapNumBlocksInFlight node.id = some counter)
    (hd : node.fDisconnect = false) (hcl : node.fClient = false) (hlt : counter.toInt < 64)
    (h : RequestNextBlocksToDownload W cm AlreadyHaveBlock fuel s node = some r) :
    ∃ s1 vToDownload vNew,
      FindNextBlocksToDownload W cm fuel s node (64 - counter.toInt).toNat [] =
        some (s1, vToDownload) ∧
      vNew = ((vToDownload.map (fun pindex => (cm.index pindex).hashBlock)).filter
        (fun hash => !AlreadyHaveBlock hash)).filter
          (fun hash => !(mapFind s1.mapBlocksInFlight hash).isSome) ∧
      ((vNew = [] ∧ r = (s1, [])) ∨
        (vNew ≠ [] ∧ r = (markAll cm node.id s1 vNew, [NetMsg.GETDATA node.id vNew]))) := by
  unfold RequestNextBlocksToDownload at h
  simp only [hc, hd, hcl, hlt, decide_True, Bool.not_false, Bool.and_self, if_true] at h
  split at h
  · cases h
  · rename_i s1 vToDownload hfn
    refine ⟨s1, vToDownload, _, hfn, rfl, ?_⟩
    split_ifs at h with h1 h2
    · left
      refine ⟨?_, (Option.some.inj h).symm⟩
      rw [List.isEmpty_iff] at h1
      rw [h1]
      rfl
    · left
      exact ⟨List.isEmpty_iff.mp h2, (Option.some.inj h).symm⟩
    · right
      exact ⟨fun e => h2 (List.isEmpty_iff.mpr e), (Option.some.inj h).symm⟩

theorem requestNext_returns (W : Int) (cm : CChainManager) (AlreadyHaveBlock : uint256 → Bool)
    (fuel : Nat) (s : CRequestManager) (node : CNode) (counter : int16_t) (state0 : CNodeState)
    (wf : WellFormed cm.index)
    (hc : mapFind s.mapNumBlocksInFlight node.id = some counter)
    (hroot : ∀ a b, ∃ g, IsAncestorOrEq cm.index g a ∧ IsAncestorOrEq cm.index g b)
    (hs : mapFind s.mapNodeState node.id = some state0) (hchain : cm.vChain ≠ [])
    (hfuel : ∀ best, (processAvailability cm state0).pindexBestKnownBlock = some best →
      (cm.index best).nHeight ≤ (fuel : Int)) :
    ∃ r, RequestNextBlocksToDownload W cm AlreadyHaveBlock fuel s node = some r := by
  obtain ⟨r0, hr0⟩ := findNext_returns W cm fuel s node (64 - counter.toInt).toNat [] state0 wf
    hroot hs hchain hfuel
  unfold RequestNextBlocksToDownload
  simp only [hc, hr0]
  split_ifs <;> exact ⟨_, rfl⟩

/-! ## The cap on the blocks in flight -/

theorem ledgerInv_congr (s s' : CRequestManager) (known : List NodeId)
    (hl : s'.mapBlocksInFlight = s.mapBlocksInFlight)
    (hn : s'.mapNumBlocksInFlight = s.mapNumBlocksInFlight) (inv : LedgerInv s known) :
    LedgerInv s' known := by
  refine ⟨by rw [hl]; exact inv.nodup, fun id hid => by rw [hn]; exact inv.present id hid,
    fun p => ?_⟩
  have := inv.count p
  unfold numBlocksInFlight ownedCount at this ⊢
  rw [hn, hl]
  exact this

theorem capInv_congr (s s' : CRequestManager)
    (hl : s'.mapBlocksInFlight = s.mapBlocksInFlight)
    (hn : s'.mapNumBlocksInFlight = s.mapNumBlocksInFlight) (inv : CapInv s) : CapInv s' := by
  refine ⟨ledgerInv_congr s s' [] hl hn inv.1, fun p => ?_⟩
  have := inv.2 p
  unfold ownedCount at this ⊢
  rw [hl]
  exact this

theorem capInv_empty : CapInv CRequestManager.empty :=
  ⟨ledgerInv_empty, fun p => by simp [ownedCount, CRequestManager.empty]⟩

theorem ledgerInv_forget (s : CRequestManager) (known : List NodeId) (inv : LedgerInv s known) :
    LedgerInv s [] :=
  ⟨inv.nodup, fun _ hid => absurd hid (List.not_mem_nil _), inv.count⟩

theorem ledgerInv_of_counter (s : CRequestManager) (id : NodeId) (inv : LedgerInv s [])
    (h : (mapFind s.mapNumBlocksInFlight id).isSome) : LedgerInv s [id] :=
  ⟨inv.nodup, fun p hp => by rw [List.mem_singleton.mp hp]; exact h, inv.count⟩

theorem ownedCount_received_le (s : CRequestManager) (hash : uint256) (p : NodeId) :
    ownedCount (MarkBlockAsReceived s hash).2 p ≤ ownedCount s p := by
  unfold ownedCount
  rw [received_ledger]
  exact ((List.filter_sublist _).filter _).length_le

theorem ownedCount_mark_le (s : CRequestManager) (nodeid : NodeId) (hash : uint256)
    (pindex : BlockPtr) (p : NodeId) :
    ownedCount (MarkBlockAsInFlight s nodeid hash pindex) p
      ≤ ownedCount s p + (if p = nodeid then 1 else 0) := by
  have hperm := mapAssign_perm (mapErase s.mapBlocksInFlight hash) hash
    (nodeid, ({ hash := hash, pindex := pindex, haveIndex := pindex.isSome } : QueuedBlock))
    (mapFind_erase_self _ _)
  have hsub : ((mapErase s.mapBlocksInFlight hash).filter (fun e => decide (e.2.1 = p))).length
      ≤ (s.mapBlocksInFlight.filter (fun e => decide (e.2.1 = p))).length :=
    ((List.filter_sublist _).filter _).length_le
  unfold ownedCount
  rw [mark_ledger, (hperm.filter _).length_eq]
  by_cases hp : p = nodeid
  · subst hp
    simp only [List.filter_cons, decide_True, if_true, List.length_cons]
    omega
  · have hp' : ¬ nodeid = p := fun e => hp e.symm
    simp only [List.filter_cons, hp', decide_False, if_neg hp]
    simp only [Bool.false_eq_true, if_false]
    omega

theorem markAll_ledgerInv (cm : CChainManager) (nodeid : NodeId) (vs : List uint256) :
    ∀ s : CRequestManager, LedgerInv s [nodeid] →
      LedgerInv (markAll cm nodeid s vs) [nodeid] ∧
        ∀ p, ownedCount (markAll cm nodeid s vs) p
          ≤ ownedCount s p + (if p = nodeid then vs.length else 0) := by
  induction vs with
  | nil =>
    intro s inv
    exact ⟨inv, fun p => by simp [markAll]⟩
  | cons h0 vs ih =>
    intro s inv
    have e : markAll cm nodeid s (h0 :: vs)
        = markAll cm nodeid (MarkBlockAsInFlight s nodeid h0 (cm.LookupBlockIndex h0)) vs := rfl
    rw [e]
    obtain ⟨i1, i2⟩ := ih _ (ledgerInv_mark s [nodeid] nodeid h0 (cm.LookupBlockIndex h0) inv
      (List.mem_singleton.mpr rfl))
    refine ⟨i1, fun p => ?_⟩
    have h1 := i2 p
    have h2 := ownedCount_mark_le s nodeid h0 (cm.LookupBlockIndex h0) p
    simp only [List.length_cons]
    split_ifs at h1 h2 ⊢ <;> omega

/-- Under the invariant a counter that is present is the number of entries of
its peer. -/
theorem capInv_counter (s : CRequestManager) (inv : CapInv s) (p : NodeId) (c : int16_t)
    (h : mapFind s.mapNumBlocksInFlight p = some c) : c.toInt = (ownedCount s p : Int) := by
  have h1 := inv.1.count p
  have h2 := inv.2 p
  unfold numBlocksInFlight at h1
  rw [h, Option.getD_some] at h1
  rw [h1]
  exact int16_toInt_natCast _ (by omega)

theorem capInv_requestNext (W : Int) (cm : CChainManager) (AlreadyHaveBlock : uint256 → Bool)
    (fuel : Nat) (s : CRequestManager) (node : CNode) (r : CRequestManager × List NetMsg)
    (inv : CapInv s)
    (h : RequestNextBlocksToDownload W cm AlreadyHaveBlock fuel s node = some r) :
    CapInv r.1 := by
  cases hc : mapFind s.mapNumBlocksInFlight node.id with
  | none =>
    unfold RequestNextBlocksToDownload at h
    simp only [hc] at h
    cases h
  | some counter =>
    by_cases hskip : node.fDisconnect = true ∨ node.fClient = true ∨ 64 ≤ counter.toInt
    · rw [requestNext_skip W cm AlreadyHaveBlock fuel s node counter hc hskip] at h
      cases h
      exact inv
    · have hd : node.fDisconnect = false := by
        cases hx : node.fDisconnect with
        | false => rfl
        | true => exact absurd (Or.inl hx) hskip
      have hcl : node.fClient = false := by
        cases hx : node.fClient with
        | false => rfl
        | true => exact absurd (Or.inr (Or.inl hx)) hskip
      have hlt : counter.toInt < 64 := by
        by_contra hx
        exact hskip (Or.inr (Or.inr (not_lt.mp hx)))
      obtain ⟨s1, vToDownload, vNew, hfn, hnew, hr⟩ :=
        requestNext_inv W cm AlreadyHaveBlock fuel s node counter r hc hd hcl hlt h
      obtain ⟨hl, hn, _⟩ := findNext_appends W cm fuel s node _ [] _ hfn
      simp only [] at hl hn
      have inv1 : CapInv s1 := capInv_congr s s1 hl hn inv
      rcases hr with ⟨_, hr⟩ | ⟨_, hr⟩
      · subst hr
        exact inv1
      · subst hr
        have hlen0 : vToDownload.length ≤ (64 - counter.toInt).toNat :=
          findNext_count_bound W cm fuel s node _ [] _ (by simp; omega) hfn
        have hlen : vNew.length ≤ (64 - counter.toInt).toNat := by
          rw [hnew]
          refine le_trans (List.length_filter_le _ _) (le_trans (List.length_filter_le _ _) ?_)
          rw [List.length_map]
          exact hlen0
        have hc1 : mapFind s1.mapNumBlocksInFlight node.id = some counter := by rw [hn]; exact hc
        have hcnt := capInv_counter s1 inv1 node.id counter hc1
        obtain ⟨i1, i2⟩ := markAll_ledgerInv cm node.id vNew s1
          (ledgerInv_of_counter s1 node.id inv1.1 (by rw [hc1]; rfl))
        refine ⟨ledgerInv_forget _ _ i1, fun p => ?_⟩
        show ownedCount (markAll cm node.id s1 vNew) p ≤ 64
        have h1 := i2 p
        have h2 := inv1.2 p
        by_cases hp : p = node.id
        · subst hp
          rw [if_pos rfl] at h1
          omega
        · rw [if_neg hp] at h1
          omega

theorem updateBlockAvailability_ledger (cm : CChainManager) (s s1 : CRequestManager)
    (nodeid : NodeId) (hash : uint256) (h : UpdateBlockAvailability cm s nodeid hash = some s1) :
    s1.mapBlocksInFlight = s.mapBlocksInFlight ∧
      s1.mapNumBlocksInFlight = s.mapNumBlocksInFlight := by
  unfold UpdateBlockAvailability at h
  split at h
  · cases h
  · rename_i s0 hs0
    obtain ⟨hl, hn⟩ := processBlockAvailability_ledger cm s s0 nodeid hs0
    split at h
    · cases h
    · cases h
      exact ⟨hl, hn⟩

theorem updatePreferredDownload_ledger (s : CRequestManager) (n : Int) (node : CNode)
    (r : CRequestManager × Int) (h : UpdatePreferredDownload s n node = some r) :
    r.1.mapBlocksInFlight = s.mapBlocksInFlight ∧
      r.1.mapNumBlocksInFlight = s.mapNumBlocksInFlight := by
  unfold UpdatePreferredDownload at h
  split at h
  · cases h
  · cases h
    exact ⟨rfl, rfl⟩

theorem startDownload_ledger (cm : CChainManager) (n : Int) (fImporting fReindex : Bool)
    (adjustedTime : Int) (s : CRequestManager) (node : CNode)
    (r : CRequestManager × List NetMsg)
    (h : StartDownload cm n fImporting fReindex adjustedTime s node = some r) :
    r.1.mapBlocksInFlight = s.mapBlocksInFlight ∧
      r.1.mapNumBlocksInFlight = s.mapNumBlocksInFlight := by
  cases hs : mapFind s.mapNodeState node.id with
  | none =>
    unfold StartDownload at h
    simp only [hs] at h
    cases h
  | some state =>
    rcases startDownload_state cm n fImporting fReindex adjustedTime s node state r hs h with e | e
    · rw [e]
      exact ⟨rfl, rfl⟩
    · rw [e]
      exact ⟨rfl, rfl⟩

theorem setPeerFirstHeaderReceived_ledger (cm : CChainManager) (s s1 : CRequestManager)
    (node : CNode) (pindexLast : BlockPtr)
    (h : SetPeerFirstHeaderReceived cm s node pindexLast = some s1) :
    s1.mapBlocksInFlight = s.mapBlocksInFlight ∧
      s1.mapNumBlocksInFlight = s.mapNumBlocksInFlight := by
  unfold SetPeerFirstHeaderReceived at h
  split at h
  · cases h
  · split_ifs at h
    · split at h
      · split_ifs at h
        · cases h
          exact ⟨rfl, rfl⟩
        · cases h
          exact ⟨rfl, rfl⟩
      · cases h
        exact ⟨rfl, rfl⟩
    · cases h
      exact ⟨rfl, rfl⟩

theorem trackTxRelay_ledger (s : CRequestManager) (now : Int) (tx : CTransaction) :
    (TrackTxRelay s now tx).mapBlocksInFlight = s.mapBlocksInFlight ∧
      (TrackTxRelay s now tx).mapNumBlocksInFlight = s.mapNumBlocksInFlight := by
  unfold TrackTxRelay
  simp only []
  split <;> exact ⟨rfl, rfl⟩

/-- Every call other than a direct `MarkBlockAsInFlight` keeps the invariant. -/
theorem capInv_apply (env : CallEnv) (s s1 : CRequestManager) (op : ManagerOp) (inv : CapInv s)
    (h : op.apply env s = some s1) : CapInv s1 := by
  cases op with
  | initNode pnode =>
    cases h
    exact ⟨ledgerInv_forget _ _ (ledgerInv_initNode s [] pnode inv.1), inv.2⟩
  | removeNode id =>
    cases h
    exact capInv_congr s _ rfl rfl inv
  | markReceived hash =>
    cases h
    exact ⟨ledgerInv_received s [] hash inv.1,
      fun p => le_trans (ownedCount_received_le s hash p) (inv.2 p)⟩
  | processAvailability nodeid =>
    obtain ⟨hl, hn⟩ := processBlockAvailability_ledger env.cm s s1 nodeid h
    exact capInv_congr s s1 hl hn inv
  | updateAvailability nodeid hash =>
    obtain ⟨hl, hn⟩ := updateBlockAvailability_ledger env.cm s s1 nodeid hash h
    exact capInv_congr s s1 hl hn inv
  | updatePreferred node =>
    simp only [ManagerOp.apply, Option.map_eq_some'] at h
    obtain ⟨r, hr, e⟩ := h
    obtain ⟨hl, hn⟩ := updatePreferredDownload_ledger s _ node r hr
    rw [← e]
    exact capInv_congr s r.1 hl hn inv
  | startDownload node =>
    simp only [ManagerOp.apply, Option.map_eq_some'] at h
    obtain ⟨r, hr, e⟩ := h
    obtain ⟨hl, hn⟩ := startDownload_ledger _ _ _ _ _ s node r hr
    rw [← e]
    exact capInv_congr s r.1 hl hn inv
  | firstHeaderReceived node pindexLast =>
    obtain ⟨hl, hn⟩ := setPeerFirstHeaderReceived_ledger env.cm s s1 node pindexLast h
    exact capInv_congr s s1 hl hn inv
  | findNext node count vBlocks =>
    simp only [ManagerOp.apply, Option.map_eq_some'] at h
    obtain ⟨r, hr, e⟩ := h
    obtain ⟨hl, hn, _⟩ := findNext_appends _ _ _ s node count vBlocks r hr
    rw [← e]
    exact capInv_congr s r.1 hl hn inv
  | trackTx tx =>
    cases h
    obtain ⟨hl, hn⟩ := trackTxRelay_ledger s env.now tx
    exact capInv_congr s _ hl hn inv
  | requestNext node =>
    simp only [ManagerOp.apply, Option.map_eq_some'] at h
    obtain ⟨r, hr, e⟩ := h
    rw [← e]
    exact capInv_requestNext _ _ _ _ s node r inv hr

theorem capInv_runManager (calls : List (CallEnv × ManagerOp)) :
    ∀ s s1 : CRequestManager, CapInv s → runManager s calls = some s1 → CapInv s1 := by
  induction calls with
  | nil =>
    intro s s1 inv h
    cases h
    exact inv
  | cons call calls ih =>
    intro s s1 inv h
    obtain ⟨env, op⟩ := call
    simp only [runManager] at h
    split at h
    · cases h
    · rename_i s0 hs0
      exact ih s0 s1 (capInv_apply env s s0 op inv hs0) h

/-- C11 (as amended): for every sequence of calls other than a direct
MarkBlockAsInFlight (InitializeNodeState, RemoveNodeState, MarkBlockAsReceived,
ProcessBlockAvailability, UpdateBlockAvailability, UpdatePreferredDownload,
StartDownload, SetPeerFirstHeaderReceived, FindNextBlocksToDownload,
TrackTxRelay, RequestNextBlocksToDownload), each made in an arbitrary
environment, that starts from an empty manager and runs to its end, every
peer's in_flight_count is at least 0 and at most 64, and it is the number of
ledger entries owned by the peer. -/
theorem inFlight_cap_without_direct_marks (calls : List (CallEnv × ManagerOp))
    (s : CRequestManager) (h : runManager CRequestManager.empty calls = some s) :
    ∀ (p : NodeId) (n : Int), GetBlocksInFlight s p = some n →
      0 ≤ n ∧ n ≤ 64 ∧ n = (ownedCount s p : Int) := by
  intro p n hn
  have inv := capInv_runManager calls _ s capInv_empty h
  simp only [GetBlocksInFlight, Option.map_eq_some'] at hn
  obtain ⟨c, hc, e⟩ := hn
  have h1 := capInv_counter s inv p c hc
  have h2 := inv.2 p
  rw [← e, h1]
  exact ⟨by omega, by omega, rfl⟩

set_option maxRecDepth 100000 in
/-- C11, counterexample: after InitializeNodeState for peer 1 and 65 calls of
MarkBlockAsInFlight for peer 1 with the hashes 1 … 65, in_flight_count of peer 1
is 65. -/
theorem inFlight_cap_exceeded_by_marks :
    GetBlocksInFlight (runOps CRequestManager.empty overCapOps) 1 = some 65 := by
  decide

set_option maxRecDepth 100000 in
/-- C11, witness: peer 1 is registered, hears of block 100 and is asked for
blocks twice: the first request brings its in_flight_count to 64, the second
leaves it there. -/
theorem inFlight_cap_without_direct_marks_witness :
    runManager CRequestManager.empty capCalls = some capState ∧
      GetBlocksInFlight capState 1 = some 64 ∧
      ∀ (p : NodeId) (n : Int), GetBlocksInFlight capState p = some n →
        0 ≤ n ∧ n ≤ 64 ∧ n = (ownedCount capState p : Int) :=
  have h : runManager CRequestManager.empty capCalls = some capState := by decide
  ⟨h, by decide, inFlight_cap_without_direct_marks capCalls capState h⟩

/-! ## The claims on `RequestNextBlocksToDownload` -/

/-- C12: let the block index be well formed with distinct blocks having distinct
hashes, and let the node have a counter. If the node is disconnecting, is a
client, or has in_flight_count >= 64, RequestNextBlocksToDownload sends no
message and leaves the manager unchanged. Otherwise, whenever it returns, either
no message is sent and the ledger and the counters are unchanged, or exactly one
GETDATA is sent, to this node, with a non-empty list of hashes in which no hash
occurs twice and none of which was in the ledger before the call; after the call
each of these hashes is in the ledger and owned by this peer, every other hash
has the owner it had before, in_flight_count of the peer has increased by the
number of hashes, and the counters of the other peers are unchanged. The call
does return when moreover all branches of the index meet at one root, the peer
is registered, the active chain is not empty and the fuel is at least the height
of the peer's best block. -/
theorem requestNext_requests_what_it_marks (W : Int) (cm : CChainManager)
    (AlreadyHaveBlock : uint256 → Bool) (fuel : Nat) (s : CRequestManager) (node : CNode)
    (counter : int16_t) (wf : WellFormed cm.index)
    (hinj : ∀ a b, (cm.index a).hashBlock = (cm.index b).hashBlock → a = b)
    (hc : mapFind s.mapNumBlocksInFlight node.id = some counter) :
    ((node.fDisconnect = true ∨ node.fClient = true ∨ 64 ≤ counter.toInt) →
      RequestNextBlocksToDownload W cm AlreadyHaveBlock fuel s node = some (s, [])) ∧
    (∀ r, RequestNextBlocksToDownload W cm AlreadyHaveBlock fuel s node = some r →
      (r.2 = [] ∧ r.1.mapBlocksInFlight = s.mapBlocksInFlight ∧
        r.1.mapNumBlocksInFlight = s.mapNumBlocksInFlight) ∨
      ∃ vInv : List uint256, vInv ≠ [] ∧ r.2 = [NetMsg.GETDATA node.id vInv] ∧ vInv.Nodup ∧
        (∀ h ∈ vInv, IsBlockInFlight s h = false) ∧
        (∀ h, inFlightOwner r.1 h = if h ∈ vInv then some node.id else inFlightOwner s h) ∧
        GetBlocksInFlight r.1 node.id = some (counter.toInt + (vInv.length : Int)) ∧
        ∀ p, p ≠ node.id → GetBlocksInFlight r.1 p = GetBlocksInFlight s p) ∧
    ((∀ a b, ∃ g, IsAncestorOrEq cm.index g a ∧ IsAncestorOrEq cm.index g b) →
      cm.vChain ≠ [] →
      ∀ state0, mapFind s.mapNodeState node.id = some state0 →
      (∀ best, (processAvailability cm state0).pindexBestKnownBlock = some best →
        (cm.index best).nHeight ≤ (fuel : Int)) →
      ∃ r, RequestNextBlocksToDownload W cm AlreadyHaveBlock fuel s node = some r) := by
  refine ⟨requestNext_skip W cm AlreadyHaveBlock fuel s node counter hc, fun r h => ?_,
    fun hroot hchain state0 hs hfuel =>
      requestNext_returns W cm AlreadyHaveBlock fuel s node counter state0 wf hc hroot hs hchain
        hfuel⟩
  by_cases hskip : node.fDisconnect = true ∨ node.fClient = true ∨ 64 ≤ counter.toInt
  · rw [requestNext_skip W cm AlreadyHaveBlock fuel s node counter hc hskip] at h
    cases h
    exact Or.inl ⟨rfl, rfl, rfl⟩
  · have hd : node.fDisconnect = false := by
      cases hx : node.fDisconnect with
      | false => rfl
      | true => exact absurd (Or.inl hx) hskip
    have hcl : node.fClient = false := by
      cases hx : node.fClient with
      | false => rfl
      | true => exact absurd (Or.inr (Or.inl hx)) hskip
    have hlt : counter.toInt < 64 := by
      by_contra hx
      exact hskip (Or.inr (Or.inr (not_lt.mp hx)))
    obtain ⟨s1, vToDownload, vNew, hfn, hnew, hr⟩ :=
      requestNext_inv W cm AlreadyHaveBlock fuel s node counter r hc hd hcl hlt h
    obtain ⟨hl, hn, _⟩ := findNext_appends W cm fuel s node _ [] _ hfn
    simp only [] at hl hn
    rcases hr with ⟨_, hr⟩ | ⟨hne, hr⟩
    · subst hr
      exact Or.inl ⟨rfl, hl, hn⟩
    · right
      have hnd0 : vToDownload.Nodup := findNext_nodup W cm wf fuel s node _ _ hfn
      have hlen0 : vToDownload.length ≤ (64 - counter.toInt).toNat :=
        findNext_count_bound W cm fuel s node _ [] _ (by simp; omega) hfn
      have hnd : vNew.Nodup := by
        rw [hnew]
        exact ((hnd0.map (fun a b e => hinj a b e)).filter _).filter _
      have hlen : vNew.length ≤ (64 - counter.toInt).toNat := by
        rw [hnew]
        refine le_trans (List.length_filter_le _ _) (le_trans (List.length_filter_le _ _) ?_)
        rw [List.length_map]
        exact hlen0
      have hfresh : ∀ h ∈ vNew, mapFind s1.mapBlocksInFlight h = none := by
        intro h hh
        rw [hnew] at hh
        have := (List.mem_filter.mp hh).2
        simpa using this
      obtain ⟨i1, i2, i3, _⟩ := markAll_fresh cm node.id vNew s1 counter hnd hfresh
        (by rw [hn]; exact hc)
      subst hr
      refine ⟨vNew, hne, rfl, hnd, fun h hh => ?_, fun h => ?_, ?_, fun p hp => ?_⟩
      · have := hfresh h hh
        rw [hl] at this
        simp [IsBlockInFlight, this]
      · simp only [inFlightOwner, i1 h]
        split_ifs
        · rfl
        · rw [hl]
      · simp only [GetBlocksInFlight, i2, Option.map_some']
        rw [int16_toInt_add_nat counter vNew.length (by omega)]
      · simp only [GetBlocksInFlight, i3 p hp, hn]

/-- C12, witness: tip at height 2, window 3, the peer's best block at height 5
and nothing in flight: one GETDATA for the hashes 4, 5, 6 of the blocks 3, 4, 5,
which are then in flight to the peer, whose counter is 3. -/
theorem requestNext_requests_what_it_marks_witness :
    RequestNextBlocksToDownload 3 (lineChain 2) (fun _ => false) 20 (onePeer 1 5 none) (peer 1)
        = some (markAll (lineChain 2) 1 (onePeer 1 5 (some 2)) [4, 5, 6],
            [NetMsg.GETDATA 1 [4, 5, 6]]) ∧
      GetBlocksInFlight (markAll (lineChain 2) 1 (onePeer 1 5 (some 2)) [4, 5, 6]) 1 = some 3 ∧
      ((markAll (lineChain 2) 1 (onePeer 1 5 (some 2)) [4, 5, 6],
            [NetMsg.GETDATA 1 [4, 5, 6]]).2 = [] ∧
          (markAll (lineChain 2) 1 (onePeer 1 5 (some 2)) [4, 5, 6],
            [NetMsg.GETDATA 1 [4, 5, 6]]).1.mapBlocksInFlight
              = (onePeer 1 5 none).mapBlocksInFlight ∧
          (markAll (lineChain 2) 1 (onePeer 1 5 (some 2)) [4, 5, 6],
            [NetMsg.GETDATA 1 [4, 5, 6]]).1.mapNumBlocksInFlight
              = (onePeer 1 5 none).mapNumBlocksInFlight ∨
        ∃ vInv : List uint256, vInv ≠ [] ∧
          (markAll (lineChain 2) 1 (onePeer 1 5 (some 2)) [4, 5, 6],
            [NetMsg.GETDATA 1 [4, 5, 6]]).2 = [NetMsg.GETDATA (peer 1).id vInv] ∧ vInv.Nodup ∧
          (∀ h ∈ vInv, IsBlockInFlight (onePeer 1 5 none) h = false) ∧
          (∀ h, inFlightOwner (markAll (lineChain 2) 1 (onePeer 1 5 (some 2)) [4, 5, 6],
              [NetMsg.GETDATA 1 [4, 5, 6]]).1 h
            = if h ∈ vInv then some (peer 1).id else inFlightOwner (onePeer 1 5 none) h) ∧
          GetBlocksInFlight (markAll (lineChain 2) 1 (onePeer 1 5 (some 2)) [4, 5, 6],
              [NetMsg.GETDATA 1 [4, 5, 6]]).1 (peer 1).id
            = some ((0 : int16_t).toInt + (vInv.length : Int)) ∧
          ∀ p, p ≠ (peer 1).id →
            GetBlocksInFlight (markAll (lineChain 2) 1 (onePeer 1 5 (some 2)) [4, 5, 6],
              [NetMsg.GETDATA 1 [4, 5, 6]]).1 p = GetBlocksInFlight (onePeer 1 5 none) p) ∧
      ∃ r, RequestNextBlocksToDownload 3 (lineChain 2) (fun _ => false) 20 (onePeer 1 5 none)
        (peer 1) = some r :=
  ⟨by decide, by decide,
    (requestNext_requests_what_it_marks 3 (lineChain 2) (fun _ => false) 20 (onePeer 1 5 none)
      (peer 1) 0 (lineIndex_wellFormed 2) (fun a b e => by simpa [lineChain, lineIndex] using e)
      (by decide)).2.1 _ (by decide),
    (requestNext_requests_what_it_marks 3 (lineChain 2) (fun _ => false) 20 (onePeer 1 5 none)
      (peer 1) 0 (lineIndex_wellFormed 2) (fun a b e => by simpa [lineChain, lineIndex] using e)
      (by decide)).2.2
      (fun a b => ⟨0, lineIndex_ancestor 2 0 a (Nat.zero_le a), lineIndex_ancestor 2 0 b (Nat.zero_le b)⟩)
      (by decide)
      { CNodeState.init 0 0 with pindexBestKnownBlock := some 5 } (by decide)
      (fun best hb => by
        have : best = 5 := (Option.some.inj hb).symm
        subst this
        decide)⟩

/-! ## The preferred-download counter -/

theorem toInt32_of_range (x : Int) (h1 : -2147483648 ≤ x) (h2 : x < 2147483648) :
    toInt32 x = x := by
  unfold toInt32
  omega

theorem toInt32_update (c o n : Int) : toInt32 (toInt32 (toInt32 c - o) + n) = toInt32 (c - o + n) := by
  unfold toInt32
  omega

theorem mapAssign_mem {β : Type} (m : List (NodeId × β)) (k : NodeId) (v : β) :
    ∀ e ∈ mapAssign m k v, e = (k, v) ∨ e ∈ m := by
  induction m with
  | nil =>
    intro e he
    simp only [mapAssign, List.mem_singleton] at he
    exact Or.inl he
  | cons e0 t ih =>
    obtain ⟨k', v'⟩ := e0
    intro e he
    by_cases h1 : k < k'
    · rw [mapAssign_cons_lt t v v' h1] at he
      rcases List.mem_cons.mp he with h | h
      · exact Or.inl h
      · exact Or.inr h
    · by_cases h2 : k = k'
      · subst h2
        rw [mapAssign_cons_eq t k v v' h1] at he
        rcases List.mem_cons.mp he with h | h
        · exact Or.inl h
        · exact Or.inr (List.mem_cons_of_mem _ h)
      · rw [mapAssign_cons_gt t v v' h1 h2] at he
        rcases List.mem_cons.mp he with h | h
        · exact Or.inr (h ▸ List.mem_cons_self _ _)
        · rcases ih e h with h | h
          · exact Or.inl h
          · exact Or.inr (List.mem_cons_of_mem _ h)

theorem mapAssign_ascending {β : Type} (m : List (NodeId × β)) (k : NodeId) (v : β)
    (h : keysAscending m) : keysAscending (mapAssign m k v) := by
  unfold keysAscending at h ⊢
  induction m with
  | nil => simp [mapAssign]
  | cons e0 t ih =>
    obtain ⟨k', v'⟩ := e0
    have ht := List.pairwise_cons.mp h
    by_cases h1 : k < k'
    · rw [mapAssign_cons_lt t v v' h1]
      refine List.pairwise_cons.mpr ⟨fun e he => ?_, h⟩
      rcases List.mem_cons.mp he with he | he
      · rw [he]; exact h1
      · exact lt_trans h1 (ht.1 e he)
    · by_cases h2 : k = k'
      · subst h2
        rw [mapAssign_cons_eq t k v v' h1]
        exact List.pairwise_cons.mpr ⟨ht.1, ht.2⟩
      · rw [mapAssign_cons_gt t v v' h1 h2]
        refine List.pairwise_cons.mpr ⟨fun e he => ?_, ih ht.2⟩
        rcases mapAssign_mem t k v e he with he | he
        · rw [he]
          exact lt_of_le_of_ne (not_lt.mp h1) (Ne.symm h2)
        · exact ht.1 e he

theorem mapEmplace_ascending {β : Type} (m : List (NodeId × β)) (k : NodeId) (v : β)
    (h : keysAscending m) : keysAscending (mapEmplace m k v) := by
  unfold mapEmplace
  split
  · exact h
  · exact mapAssign_ascending m k v h

/-- Replacing the state of a registered peer changes the number of preferred
peers by the difference of the flags. -/
theorem preferred_assign (m : List (NodeId × CNodeState)) (k : NodeId) (v old : CNodeState)
    (hs : keysAscending m) (hf : mapFind m k = some old) :
    (((mapAssign m k v).filter (fun e => e.2.fPreferredDownload)).length : Int)
      = ((m.filter (fun e => e.2.fPreferredDownload)).length : Int)
        - flagValue old.fPreferredDownload + flagValue v.fPreferredDownload := by
  unfold keysAscending at hs
  induction m with
  | nil => cases hf
  | cons e0 t ih =>
    obtain ⟨k', v'⟩ := e0
    have ht := List.pairwise_cons.mp hs
    by_cases h1 : k < k'
    · exfalso
      have hn : mapFind ((k', v') :: t) k = none := by
        rw [mapFind_eq_none_iff]
        intro hmem
        obtain ⟨e, he, hk⟩ := List.mem_map.mp hmem
        rcases List.mem_cons.mp he with he | he
        · rw [he] at hk
          exact absurd hk (ne_of_gt h1)
        · have h3 : k' < e.1 := ht.1 e he
          rw [hk] at h3
          exact lt_asymm h1 h3
      rw [hn] at hf
      cases hf
    · by_cases h2 : k = k'
      · subst h2
        rw [mapFind_cons_eq] at hf
        have : v' = old := Option.some.inj hf
        subst this
        rw [mapAssign_cons_eq t k v v' h1]
        simp only [List.filter_cons, flagValue]
        cases v.fPreferredDownload <;> cases v'.fPreferredDownload <;> simp
      · rw [mapFind_cons_ne t v' (Ne.symm h2)] at hf
        rw [mapAssign_cons_gt t v v' h1 h2]
        have := ih ht.2 hf
        simp only [List.filter_cons]
        cases v'.fPreferredDownload
        · simpa using this
        · simp only [if_true, List.length_cons]
          push_cast
          omega

theorem preferred_emplace (m : List (NodeId × CNodeState)) (k : NodeId) (v : CNodeState)
    (hv : v.fPreferredDownload = false) :
    ((mapEmplace m k v).filter (fun e => e.2.fPreferredDownload)).length
      = (m.filter (fun e => e.2.fPreferredDownload)).length := by
  unfold mapEmplace
  split
  · rfl
  · rename_i hf
    rw [((mapAssign_perm m k v hf).filter _).length_eq]
    simp [List.filter_cons, hv]

/-- What `UpdatePreferredDownload` returns for a registered peer. -/
theorem updatePreferredDownload_eq (s : CRequestManager) (n : Int) (node : CNode)
    (state : CNodeState) (hs : mapFind s.mapNodeState node.id = some state) :
    UpdatePreferredDownload s n node =
      some ({ s with mapNodeState := (mapAssign s.mapNodeState node.id
          { state with fPreferredDownload := !node.fOneShot && !node.fClient }) },
        toInt32 (toInt32 (n - flagValue state.fPreferredDownload)
          + flagValue (!node.fOneShot && !node.fClient))) := by
  simp only [UpdatePreferredDownload, hs]

/-- Along a sequence of `InitializeNodeState` and `UpdatePreferredDownload` the
keys of `mapNodeState` stay in order and the counter is the number of preferred
peers, wrapped to 32 bits. -/
theorem runPref_inv (ops : List PrefOp) :
    ∀ st st1 : CRequestManager × Int, keysAscending st.1.mapNodeState →
      st.2 = toInt32 (preferredCount st.1) → runPref st ops = some st1 →
      keysAscending st1.1.mapNodeState ∧ st1.2 = toInt32 (preferredCount st1.1) := by
  induction ops with
  | nil =>
    intro st st1 h1 h2 h
    cases h
    exact ⟨h1, h2⟩
  | cons op ops ih =>
    intro st st1 h1 h2 h
    simp only [runPref] at h
    split at h
    · cases h
    · rename_i st0 hst0
      refine ih st0 st1 ?_ ?_ h
      · cases op with
        | initNode pnode =>
          cases hst0
          exact mapEmplace_ascending _ _ _ h1
        | updatePreferred node =>
          simp only [PrefOp.apply] at hst0
          cases hs : mapFind st.1.mapNodeState node.id with
          | none => simp [UpdatePreferredDownload, hs] at hst0
          | some state =>
            rw [updatePreferredDownload_eq st.1 st.2 node state hs] at hst0
            cases hst0
            exact mapAssign_ascending _ _ _ h1
      · cases op with
        | initNode pnode =>
          cases hst0
          show st.2 = toInt32 (preferredCount (InitializeNodeState st.1 pnode))
          rw [h2]
          unfold preferredCount InitializeNodeState
          simp only []
          rw [preferred_emplace _ _ _ rfl]
        | updatePreferred node =>
          simp only [PrefOp.apply] at hst0
          cases hs : mapFind st.1.mapNodeState node.id with
          | none => simp [UpdatePreferredDownload, hs] at hst0
          | some state =>
            rw [updatePreferredDownload_eq st.1 st.2 node state hs] at hst0
            cases hst0
            simp only []
            have := preferred_assign st.1.mapNodeState node.id
              { state with fPreferredDownload := !node.fOneShot && !node.fClient } state h1 hs
            simp only [] at this
            unfold preferredCount
            simp only []
            rw [this, h2, toInt32_update]
            rfl

theorem toInt32_twice (n o f : Int) : toInt32 (toInt32 (n - o) + f) = toInt32 (n - o + f) := by
  unfold toInt32
  omega

/-- C16 (as amended): for every state, value n of nPreferredDownload and
registered peer, UpdatePreferredDownload(node) returns; after it the peer's
preferred_download flag equals (not one_shot and not client), the states of the
other peers are unchanged, and nPreferredDownload equals n minus the old flag
plus the new flag (flags read as 0/1) wrapped to 32 bits, which is that value
itself when it lies in the range of int. Over every sequence of
InitializeNodeState and UpdatePreferredDownload calls that starts from the empty
manager with nPreferredDownload = 0 and runs to its end, nPreferredDownload
equals the number of registered peers whose flag is true, wrapped to 32 bits,
which is that number itself while it is below 2^31. -/
theorem preferredDownload_bookkeeping :
    (∀ (s : CRequestManager) (n : Int) (node : CNode) (state : CNodeState),
      mapFind s.mapNodeState node.id = some state →
      ∃ s', UpdatePreferredDownload s n node =
          some (s', toInt32 (n - flagValue state.fPreferredDownload
            + flagValue (!node.fOneShot && !node.fClient))) ∧
        (mapFind s'.mapNodeState node.id).map (fun st => st.fPreferredDownload)
          = some (!node.fOneShot && !node.fClient) ∧
        (∀ p, p ≠ node.id → mapFind s'.mapNodeState p = mapFind s.mapNodeState p) ∧
        (-2147483648 ≤ n - flagValue state.fPreferredDownload
            + flagValue (!node.fOneShot && !node.fClient) →
          n - flagValue state.fPreferredDownload
            + flagValue (!node.fOneShot && !node.fClient) < 2147483648 →
          UpdatePreferredDownload s n node =
            some (s', n - flagValue state.fPreferredDownload
              + flagValue (!node.fOneShot && !node.fClient)))) ∧
    (∀ (ops : List PrefOp) (s : CRequestManager) (n : Int),
      runPref (CRequestManager.empty, 0) ops = some (s, n) →
      n = toInt32 (preferredCount s) ∧
        (preferredCount s < 2147483648 → n = (preferredCount s : Int))) := by
  constructor
  · intro s n node state hs
    have e := updatePreferredDownload_eq s n node state hs
    rw [toInt32_twice] at e
    refine ⟨_, e, ?_, fun p hp => ?_, fun h1 h2 => ?_⟩
    · simp only []
      rw [mapFind_assign_self]
      rfl
    · exact mapFind_assign_ne _ _ hp
    · rw [e, toInt32_of_range _ h1 h2]
  · intro ops s n h
    obtain ⟨_, h2⟩ := runPref_inv ops (CRequestManager.empty, 0) (s, n) List.Pairwise.nil
      (by decide) h
    simp only [] at h2
    refine ⟨h2, fun hlt => ?_⟩
    rw [h2, toInt32_of_range _ (by omega) (by omega)]

/-- C16, witness: the first update of the fresh peer 1 raises the counter from 0
to 1; after `prefCalls` one of the two registered peers is preferred and the
counter is 1. -/
theorem preferredDownload_bookkeeping_witness :
    (∃ s', UpdatePreferredDownload (InitializeNodeState CRequestManager.empty (peer 1)) 0 (peer 1)
        = some (s', toInt32 (0 - flagValue (CNodeState.init 0 0).fPreferredDownload
            + flagValue (!(peer 1).fOneShot && !(peer 1).fClient))) ∧
      (mapFind s'.mapNodeState (peer 1).id).map (fun st => st.fPreferredDownload)
        = some (!(peer 1).fOneShot && !(peer 1).fClient) ∧
      (∀ p, p ≠ (peer 1).id → mapFind s'.mapNodeState p
        = mapFind (InitializeNodeState CRequestManager.empty (peer 1)).mapNodeState p) ∧
      (-2147483648 ≤ 0 - flagValue (CNodeState.init 0 0).fPreferredDownload
          + flagValue (!(peer 1).fOneShot && !(peer 1).fClient) →
        0 - flagValue (CNodeState.init 0 0).fPreferredDownload
          + flagValue (!(peer 1).fOneShot && !(peer 1).fClient) < 2147483648 →
        UpdatePreferredDownload (InitializeNodeState CRequestManager.empty (peer 1)) 0 (peer 1)
          = some (s', 0 - flagValue (CNodeState.init 0 0).fPreferredDownload
            + flagValue (!(peer 1).fOneShot && !(peer 1).fClient)))) ∧
    runPref (CRequestManager.empty, 0) prefCalls = some (prefState, 1) ∧
    preferredCount prefState = 1 ∧
    (1 = toInt32 (preferredCount prefState) ∧
      (preferredCount prefState < 2147483648 → (1 : Int) = (preferredCount prefState : Int))) :=
  ⟨preferredDownload_bookkeeping.1 (InitializeNodeState CRequestManager.empty (peer 1)) 0 (peer 1)
      (CNodeState.init 0 0) (by decide),
    by decide, by decide, preferredDownload_bookkeeping.2 prefCalls prefState 1 (by decide)⟩

/-- C16, counterexample: peer 1 is registered with its flag false and
nPreferredDownload is 2147483647; after UpdatePreferredDownload the flag is true
and nPreferredDownload is -2147483648, not 2147483647 - 0 + 1. -/
theorem preferredDownload_wraps_counterexample :
    (mapFind (InitializeNodeState CRequestManager.empty (peer 1)).mapNodeState 1).map
        (fun st => st.fPreferredDownload) = some false ∧
      (UpdatePreferredDownload (InitializeNodeState CRequestManager.empty (peer 1)) 2147483647
        (peer 1)).map (fun r => (mapFind r.1.mapNodeState 1).map (fun st => st.fPreferredDownload))
        = some (some true) ∧
      (UpdatePreferredDownload (InitializeNodeState CRequestManager.empty (peer 1)) 2147483647
        (peer 1)).map Prod.snd = some (-2147483648) ∧
      (2147483647 : Int) - flagValue false + flagValue true = 2147483648 := by
  decide

/-! ## The relay memory -/

theorem expireRelay_cons (now : Int) (m : List (uint256 × CTransaction)) (front : Int × uint256)
    (rest : List (Int × uint256)) :
    expireRelay now m (front :: rest) =
      if front.1 < now then expireRelay now (mapErase m front.2) rest else (m, front :: rest) := by
  rw [expireRelay]

/-- What the expiry loop does: it pops a prefix of entries whose deadline has
passed and stops at an entry whose deadline has not; the transactions of the
popped entries are gone from the map, and nothing else is. -/
theorem expireRelay_spec (now : Int) :
    ∀ (d : List (Int × uint256)) (m : List (uint256 × CTransaction)),
      ∃ popped, d = popped ++ (expireRelay now m d).2 ∧ (∀ e ∈ popped, e.1 < now) ∧
        (∀ e, (expireRelay now m d).2.head? = some e → now ≤ e.1) ∧
        (∀ k, (∀ e ∈ popped, e.2 ≠ k) → mapFind (expireRelay now m d).1 k = mapFind m k) ∧
        (∀ k, mapFind m k = none → mapFind (expireRelay now m d).1 k = none) ∧
        (∀ e ∈ popped, mapFind (expireRelay now m d).1 e.2 = none) := by
  intro d
  induction d with
  | nil =>
    intro m
    exact ⟨[], rfl, by simp, by simp [expireRelay], fun k _ => rfl, fun k h => h, by simp⟩
  | cons front rest ih =>
    intro m
    rw [expireRelay_cons]
    by_cases h : front.1 < now
    · rw [if_pos h]
      obtain ⟨popped, e1, e2, e3, e4, e5, e6⟩ := ih (mapErase m front.2)
      have hnone : ∀ k, mapFind m k = none → mapFind (mapErase m front.2) k = none := by
        intro k hk
        by_cases hkf : k = front.2
        · rw [hkf]; exact mapFind_erase_self _ _
        · rw [mapFind_erase_ne _ hkf]; exact hk
      refine ⟨front :: popped, by rw [List.cons_append, ← e1], ?_, e3, ?_, ?_, ?_⟩
      · intro e he
        rcases List.mem_cons.mp he with he | he
        · rw [he]; exact h
        · exact e2 e he
      · intro k hk
        rw [e4 k (fun e he => hk e (List.mem_cons_of_mem _ he))]
        exact mapFind_erase_ne _ (Ne.symm (hk front (List.mem_cons_self _ _)))
      · intro k hk
        exact e5 k (hnone k hk)
      · intro e he
        rcases List.mem_cons.mp he with he | he
        · rw [he]
          exact e5 _ (mapFind_erase_self _ _)
        · exact e6 e he
    · rw [if_neg h]
      refine ⟨[], rfl, by simp, ?_, fun k _ => rfl, fun k hk => hk, by simp⟩
      intro e he
      simp only [List.head?_cons, Option.some.injEq] at he
      rw [← he]
      exact not_lt.mp h

/-- What `TrackTxRelay` stores, in terms of the result of the expiry loop. -/
theorem trackTxRelay_eq (s : CRequestManager) (now : Int) (tx : CTransaction) :
    ((mapFind (expireRelay now s.mapRelay s.vRelayExpiration).1 tx.id).isSome = true ∧
      (TrackTxRelay s now tx).mapRelay = (expireRelay now s.mapRelay s.vRelayExpiration).1 ∧
      (TrackTxRelay s now tx).vRelayExpiration
        = (expireRelay now s.mapRelay s.vRelayExpiration).2) ∨
    (mapFind (expireRelay now s.mapRelay s.vRelayExpiration).1 tx.id = none ∧
      (TrackTxRelay s now tx).mapRelay
        = mapAssign (expireRelay now s.mapRelay s.vRelayExpiration).1 tx.id tx ∧
      (TrackTxRelay s now tx).vRelayExpiration
        = (expireRelay now s.mapRelay s.vRelayExpiration).2 ++ [(now + 15 * 60, tx.id)]) := by
  unfold TrackTxRelay
  simp only []
  split
  · rename_i h
    left
    exact ⟨by rw [h]; rfl, rfl, rfl⟩
  · rename_i h
    right
    exact ⟨h, rfl, rfl⟩

theorem relayInv_mono (s : CRequestManager) (T T' : Int) (h : T ≤ T') (inv : RelayInv s T) :
    RelayInv s T' :=
  ⟨inv.sorted, fun e he => le_trans (inv.bound e he) (by omega), inv.nodup, inv.stored⟩

theorem relayInv_track (s : CRequestManager) (T now : Int) (tx : CTransaction) (h : T ≤ now)
    (inv : RelayInv s T) : RelayInv (TrackTxRelay s now tx) now := by
  obtain ⟨popped, e1, _, _, e4, _, _⟩ := expireRelay_spec now s.vRelayExpiration s.mapRelay
  have hsub : ∀ e ∈ (expireRelay now s.mapRelay s.vRelayExpiration).2, e ∈ s.vRelayExpiration := by
    intro e he
    rw [e1]
    exact List.mem_append_right _ he
  have hsorted := inv.sorted
  have hnodup := inv.nodup
  rw [e1] at hsorted hnodup
  rw [List.map_append] at hnodup
  have hs2 := (List.pairwise_append.mp hsorted).2.1
  have hn2 := (List.nodup_append.mp hnodup).2.1
  have hdisj := (List.nodup_append.mp hnodup).2.2
  have hstored : ∀ e ∈ (expireRelay now s.mapRelay s.vRelayExpiration).2,
      (mapFind (expireRelay now s.mapRelay s.vRelayExpiration).1 e.2).isSome := by
    intro e he
    rw [e4 e.2 (fun p hp hk => hdisj (List.mem_map_of_mem Prod.snd hp)
      (hk ▸ List.mem_map_of_mem Prod.snd he))]
    exact inv.stored e (hsub e he)
  rcases trackTxRelay_eq s now tx with ⟨_, hm, hd⟩ | ⟨hnone, hm, hd⟩
  · refine ⟨by rw [hd]; exact hs2, fun e he => ?_, by rw [hd]; exact hn2, fun e he => ?_⟩
    · rw [hd] at he
      have := inv.bound e (hsub e he)
      omega
    · rw [hd] at he
      rw [hm]
      exact hstored e he
  · refine ⟨?_, fun e he => ?_, ?_, fun e he => ?_⟩
    · rw [hd, List.pairwise_append]
      refine ⟨hs2, List.pairwise_singleton _ _, fun a ha b hb => ?_⟩
      rw [List.mem_singleton.mp hb]
      have := inv.bound a (hsub a ha)
      simp only []
      omega
    · rw [hd] at he
      rcases List.mem_append.mp he with he | he
      · have := inv.bound e (hsub e he)
        omega
      · rw [List.mem_singleton.mp he]
        simp only []
        omega
    · rw [hd, List.map_append, List.nodup_append]
      refine ⟨hn2, by simp, ?_⟩
      intro k hk1 hk2
      simp only [List.map_cons, List.map_nil, List.mem_singleton] at hk2
      obtain ⟨e, he, hek⟩ := List.mem_map.mp hk1
      have := hstored e he
      rw [hek, hk2, hnone] at this
      cases this
    · rw [hd] at he
      rw [hm]
      rcases List.mem_append.mp he with he | he
      · exact mapFind_assign_isSome _ _ _ _ (hstored e he)
      · rw [List.mem_singleton.mp he]
        simp only []
        rw [mapFind_assign_self]
        rfl

theorem relayInv_apply (s : CRequestManager) (T : Int) (op : RelayOp) (h : T ≤ op.time)
    (inv : RelayInv s T) : RelayInv (op.apply s) op.time := by
  cases op with
  | track now tx => exact relayInv_track s T now tx h inv
  | find now node hash => exact relayInv_mono s T now h inv

theorem relayInv_run (ops : List RelayOp) :
    ∀ (s : CRequestManager) (T T' : Int), RelayInv s T → T ≤ T' →
      (∀ op ∈ ops, T ≤ op.time ∧ op.time ≤ T') →
      (ops.map RelayOp.time).Pairwise (fun a b => a ≤ b) →
      RelayInv (runRelay s ops) T' := by
  induction ops with
  | nil => intro s T T' inv h _ _; exact relayInv_mono s T T' h inv
  | cons op ops ih =>
    intro s T T' inv _ hT hp
    simp only [List.map_cons, List.pairwise_cons] at hp
    have h1 := hT op (List.mem_cons_self _ _)
    exact ih (op.apply s) op.time T' (relayInv_apply s T op h1.1 inv) h1.2
      (fun op' hop' => ⟨hp.1 _ (List.mem_map_of_mem _ hop'),
        (hT op' (List.mem_cons_of_mem _ hop')).2⟩) hp.2

theorem relayInv_empty (T : Int) : RelayInv CRequestManager.empty T :=
  ⟨List.Pairwise.nil, by simp [CRequestManager.empty], by simp [CRequestManager.empty],
    by simp [CRequestManager.empty]⟩

theorem relayInv_run_empty (ops : List RelayOp) (T' : Int) (hT : ∀ op ∈ ops, op.time ≤ T')
    (hp : (ops.map RelayOp.time).Pairwise (fun a b => a ≤ b)) :
    RelayInv (runRelay CRequestManager.empty ops) T' := by
  cases ops with
  | nil => exact relayInv_empty T'
  | cons op ops =>
    refine relayInv_run (op :: ops) _ op.time T' (relayInv_empty _)
      (hT op (List.mem_cons_self _ _)) (fun op' hop' => ⟨?_, hT op' hop'⟩) hp
    simp only [List.map_cons, List.pairwise_cons] at hp
    rcases List.mem_cons.mp hop' with h | h
    · rw [h]
    · exact hp.1 _ (List.mem_map_of_mem _ h)

theorem relayLive_fresh (s : CRequestManager) (A : CTransaction) (t : Int)
    (hfresh : mapFind s.mapRelay A.id = none) : RelayLive (TrackTxRelay s t A) A t := by
  obtain ⟨popped, _, _, _, _, e5, _⟩ := expireRelay_spec t s.vRelayExpiration s.mapRelay
  have hn := e5 A.id hfresh
  rcases trackTxRelay_eq s t A with ⟨hsome, _, _⟩ | ⟨_, hm, hd⟩
  · rw [hn] at hsome
    cases hsome
  · refine ⟨by rw [hm]; exact mapFind_assign_self _ _ _, ?_⟩
    rw [hd]
    refine List.mem_append_right _ (List.mem_singleton.mpr ?_)
    norm_num

theorem relayLive_track (s : CRequestManager) (T : Int) (A tx : CTransaction) (t now : Int)
    (inv : RelayInv s T) (live : RelayLive s A t) (hnow : now ≤ t + 900) :
    RelayLive (TrackTxRelay s now tx) A t := by
  obtain ⟨popped, e1, e2, _, e4, _, _⟩ := expireRelay_spec now s.vRelayExpiration s.mapRelay
  have hnodup := inv.nodup
  rw [e1, List.map_append] at hnodup
  have hdisj := (List.nodup_append.mp hnodup).2.2
  have hmem := live.2
  rw [e1] at hmem
  have hrest : (t + 900, A.id) ∈ (expireRelay now s.mapRelay s.vRelayExpiration).2 := by
    rcases List.mem_append.mp hmem with h | h
    · have := e2 _ h
      simp only [] at this
      omega
    · exact h
  have hfind : mapFind (expireRelay now s.mapRelay s.vRelayExpiration).1 A.id = some A := by
    rw [e4 A.id (fun p hp hk => hdisj (List.mem_map_of_mem Prod.snd hp)
      (hk ▸ List.mem_map_of_mem Prod.snd hrest))]
    exact live.1
  rcases trackTxRelay_eq s now tx with ⟨_, hm, hd⟩ | ⟨hnone, hm, hd⟩
  · exact ⟨by rw [hm]; exact hfind, by rw [hd]; exact hrest⟩
  · have hne : A.id ≠ tx.id := by
      intro e
      rw [← e, hfind] at hnone
      cases hnone
    exact ⟨by rw [hm, mapFind_assign_ne _ _ hne]; exact hfind,
      by rw [hd]; exact List.mem_append_left _ hrest⟩

theorem relay_expired (s : CRequestManager) (T : Int) (A B : CTransaction) (t now : Int)
    (inv : RelayInv s T) (hmem : (t + 900, A.id) ∈ s.vRelayExpiration) (hnow : t + 900 < now)
    (hB : B.id ≠ A.id) : mapFind (TrackTxRelay s now B).mapRelay A.id = none := by
  obtain ⟨popped, e1, _, e3, _, _, e6⟩ := expireRelay_spec now s.vRelayExpiration s.mapRelay
  have hsorted := inv.sorted
  rw [e1] at hsorted hmem
  have hs2 := (List.pairwise_append.mp hsorted).2.1
  have hpopped : (t + 900, A.id) ∈ popped := by
    rcases List.mem_append.mp hmem with h | h
    · exact h
    · exfalso
      cases hr : (expireRelay now s.mapRelay s.vRelayExpiration).2 with
      | nil => rw [hr] at h; cases h
      | cons hd tl =>
        rw [hr] at h hs2 e3
        have h1 := e3 hd rfl
        rcases List.mem_cons.mp h with h | h
        · rw [← h] at h1
          simp only [] at h1
          omega
        · have := (List.pairwise_cons.mp hs2).1 _ h
          simp only [] at this
          omega
  have hn : mapFind (expireRelay now s.mapRelay s.vRelayExpiration).1 A.id = none :=
    e6 _ hpopped
  rcases trackTxRelay_eq s now B with ⟨_, hm, _⟩ | ⟨_, hm, _⟩
  · rw [hm]; exact hn
  · rw [hm, mapFind_assign_ne _ _ (Ne.symm hB)]; exact hn

theorem relayLive_run (A : CTransaction) (t : Int) (mid : List RelayOp) :
    ∀ (s : CRequestManager) (T : Int), RelayInv s T → RelayLive s A t →
      (∀ op ∈ mid, T ≤ op.time) → (mid.map RelayOp.time).Pairwise (fun a b => a ≤ b) →
      (∀ now tx, RelayOp.track now tx ∈ mid → now ≤ t + 900) →
      RelayLive (runRelay s mid) A t ∧ ∃ T', RelayInv (runRelay s mid) T' := by
  induction mid with
  | nil => intro s T inv live _ _ _; exact ⟨live, T, inv⟩
  | cons op ops ih =>
    intro s T inv live hT hp hmid
    simp only [List.map_cons, List.pairwise_cons] at hp
    refine ih (op.apply s) op.time (relayInv_apply s T op (hT op (List.mem_cons_self _ _)) inv) ?_
      (fun op' hop' => hp.1 _ (List.mem_map_of_mem _ hop')) hp.2
      (fun now tx h => hmid now tx (List.mem_cons_of_mem _ h))
    cases op with
    | track now tx =>
      exact relayLive_track s T A tx t now inv live (hmid now tx (List.mem_cons_self _ _))
    | find now node hash => exact live

/-- C20: take a sequence of TrackTxRelay and FindAndPushTx calls from the empty
manager under a non-decreasing clock, in which the transaction A is tracked at
time t while it is not in the relay memory, followed by calls among which every
TrackTxRelay is made at a time of at most t + 900. After them
FindAndPushTx(A.id) returns true and sends A to the node. After one more
TrackTxRelay call, made at a time later than t + 900 for a transaction B with
another id, FindAndPushTx(A.id) returns false and sends nothing. -/
theorem relay_ttl (pre mid : List RelayOp) (A : CTransaction) (t : Int) (node : CNode)
    (hclock : ((pre ++ RelayOp.track t A :: mid).map RelayOp.time).Pairwise (fun a b => a ≤ b))
    (hfresh : mapFind (runRelay CRequestManager.empty pre).mapRelay A.id = none)
    (hmid : ∀ now tx, RelayOp.track now tx ∈ mid → now ≤ t + 900) :
    FindAndPushTx (runRelay CRequestManager.empty (pre ++ RelayOp.track t A :: mid)) node A.id
        = (true, [NetMsg.TX node.id A]) ∧
      ∀ (t' : Int) (B : CTransaction), t + 900 < t' → B.id ≠ A.id →
        FindAndPushTx
            (runRelay CRequestManager.empty
              ((pre ++ RelayOp.track t A :: mid) ++ [RelayOp.track t' B])) node A.id
          = (false, []) := by
  rw [List.map_append, List.pairwise_append] at hclock
  obtain ⟨hpre, hrest, hcross⟩ := hclock
  simp only [List.map_cons, List.pairwise_cons] at hrest
  have inv0 : RelayInv (runRelay CRequestManager.empty pre) t :=
    relayInv_run_empty pre t
      (fun op hop => hcross _ (List.mem_map_of_mem _ hop) t (by simp [RelayOp.time])) hpre
  have inv1 := relayInv_track _ t t A (le_refl _) inv0
  have live1 := relayLive_fresh _ A t hfresh
  obtain ⟨live2, T2, inv2⟩ := relayLive_run A t mid _ t inv1 live1
    (fun op hop => hrest.1 _ (List.mem_map_of_mem _ hop)) hrest.2 hmid
  have erun : runRelay CRequestManager.empty (pre ++ RelayOp.track t A :: mid)
      = runRelay (TrackTxRelay (runRelay CRequestManager.empty pre) t A) mid := by
    simp only [runRelay, List.foldl_append, List.foldl_cons, RelayOp.apply]
  rw [← erun] at live2 inv2
  refine ⟨?_, fun t' B ht' hB => ?_⟩
  · simp only [FindAndPushTx, live2.1]
  · have e2 : runRelay CRequestManager.empty
          ((pre ++ RelayOp.track t A :: mid) ++ [RelayOp.track t' B])
        = TrackTxRelay (runRelay CRequestManager.empty (pre ++ RelayOp.track t A :: mid)) t'
          B := by
      simp only [runRelay, List.foldl_append, List.foldl_cons, List.foldl_nil, RelayOp.apply]
    rw [e2]
    simp only [FindAndPushTx, relay_expired _ T2 A B t t' inv2 live2.2 ht' hB]

/-- C20, witness: A is tracked at 0 and found at 899; after B is tracked at 901,
A is not found. -/
theorem relay_ttl_witness :
    FindAndPushTx
        (runRelay CRequestManager.empty
          ([] ++ RelayOp.track 0 { id := 7, bytes := 70 } :: [RelayOp.find 899 (peer 1) 7]))
        (peer 1) 7 = (true, [NetMsg.TX 1 { id := 7, bytes := 70 }]) ∧
      FindAndPushTx
        (runRelay CRequestManager.empty
          (([] ++ RelayOp.track 0 { id := 7, bytes := 70 } :: [RelayOp.find 899 (peer 1) 7])
            ++ [RelayOp.track 901 { id := 8, bytes := 80 }]))
        (peer 1) 7 = (false, []) :=
  ⟨(relay_ttl [] [RelayOp.find 899 (peer 1) 7] { id := 7, bytes := 70 } 0 (peer 1) (by decide)
      (by decide) (by simp)).1,
    (relay_ttl [] [RelayOp.find 899 (peer 1) 7] { id := 7, bytes := 70 } 0 (peer 1) (by decide)
      (by decide) (by simp)).2 901 { id := 8, bytes := 80 } (by decide) (by decide)⟩

/-! ## The order of the blocks appended by `FindNextBlocksToDownload` -/

theorem getAncestor_isAncestor (index : Nat → CBlockIndex) (a : Nat) (height : Int) (y : Nat)
    (e : GetAncestor index a height = some y) : IsAncestorOrEq index y a := by
  unfold GetAncestor at e
  split_ifs at e
  exact ⟨_, e⟩

/-- The blocks of the backward fill are ancestors of the block it starts at. -/
theorem backfill_ancestors (index : Nat → CBlockIndex) (k : Nat) :
    ∀ (p : Nat) (acc out : List Nat), backfill index k p acc = some out →
      ∃ path, out = path ++ acc ∧ ∀ q ∈ path, IsAncestorOrEq index q p := by
  induction k with
  | zero =>
    intro p acc out h
    simp only [backfill] at h
    cases h
    refine ⟨[p], rfl, fun q hq => ?_⟩
    rw [List.mem_singleton.mp hq]
    exact isAncestorOrEq_refl index p
  | succ k ih =>
    intro p acc out h
    simp only [backfill] at h
    cases hp : (index p).pprev with
    | none => rw [hp] at h; cases h
    | some q =>
      rw [hp] at h
      simp only [] at h
      obtain ⟨path, e, hq⟩ := ih q (p :: acc) out h
      refine ⟨path ++ [p], by rw [e]; simp, fun y hy => ?_⟩
      rcases List.mem_append.mp hy with hy | hy
      · exact isAncestorOrEq_trans index (hq y hy) (isAncestorOrEq_of_pprev index hp)
      · rw [List.mem_singleton.mp hy]
        exact isAncestorOrEq_refl index p

/-- The blocks that the walk appends are ancestors of the peer's best block. -/
theorem walkLoop_ancestors (cm : CChainManager) (s : CRequestManager) (count : Nat) (best : Nat)
    (nWindowEnd nMaxHeight : Int) (fuel : Nat) :
    ∀ (pindexWalk : Nat) (st st' : WalkState),
      walkLoop cm s count best nWindowEnd nMaxHeight fuel pindexWalk st = some st' →
      ∃ added : List Nat, st'.vBlocks = st.vBlocks ++ added ∧
        ∀ q ∈ added, IsAncestorOrEq cm.index q best := by
  induction fuel with
  | zero =>
    intro w st st' h
    unfold walkLoop at h
    split_ifs at h
    cases h
    exact ⟨[], by simp, by simp⟩
  | succ fuel ih =>
    intro w st st' h
    unfold walkLoop at h
    split_ifs at h with hlt
    · simp only [] at h
      split at h
      · cases h
      · rename_i w' hw'
        have hwb := getAncestor_isAncestor cm.index best _ w' hw'
        split at h
        · cases h
        · rename_i vToFetch hfill
          obtain ⟨path, e0, hpath⟩ := backfill_ancestors cm.index _ w' [] vToFetch hfill
          rw [List.append_nil] at e0
          subst e0
          obtain ⟨added, e, hsub, _⟩ := scanBatch_appends cm s count nWindowEnd vToFetch st
          have hb1 : ∀ q ∈ added, IsAncestorOrEq cm.index q best := fun q hq =>
            isAncestorOrEq_trans cm.index (hpath q (hsub.subset hq)) hwb
          split at h
          · rename_i st1 hsc
            cases h
            rw [hsc] at e
            exact ⟨added, e, hb1⟩
          · rename_i st1 hsc
            rw [hsc] at e
            obtain ⟨added2, e2, hb2⟩ := ih w' st1 st' h
            refine ⟨added ++ added2, by rw [e2, e, List.append_assoc], fun q hq => ?_⟩
            rcases List.mem_append.mp hq with hq | hq
            · exact hb1 q hq
            · exact hb2 q hq
    · cases h
      exact ⟨[], by simp, by simp⟩

/-- The blocks appended by a run of `FindNextBlocksToDownload` on a well-formed
index: ascending heights, and ancestors of the best known block that the peer
has at the return. -/
theorem findNext_ascending_ancestors (W : Int) (cm : CChainManager) (wf : WellFormed cm.index)
    (fuel : Nat) (s : CRequestManager) (node : CNode) (count : Nat) (vBlocks : List Nat)
    (r : CRequestManager × List Nat)
    (h : FindNextBlocksToDownload W cm fuel s node count vBlocks = some r) :
    ∃ added : List Nat, r.2 = vBlocks ++ added ∧
      added.Pairwise (fun a b => (cm.index a).nHeight < (cm.index b).nHeight) ∧
      ∀ p ∈ added, ∃ state best, mapFind r.1.mapNodeState node.id = some state ∧
        state.pindexBestKnownBlock = some best ∧ IsAncestorOrEq cm.index p best := by
  rcases findNext_inv W cm fuel s node count vBlocks r h with h0 | ⟨s1, state, _, _, h1⟩
  · subst h0
    exact ⟨[], by simp, List.Pairwise.nil, by simp⟩
  · rcases h1 with h1 | ⟨best, common, lc, out, hbest, hr, h2⟩
    · subst h1
      exact ⟨[], by simp, List.Pairwise.nil, by simp⟩
    · subst hr
      rcases h2 with ⟨_, _, ho⟩ | ⟨st, hst, _, ho⟩
      · exact ⟨[], by simp [ho], List.Pairwise.nil, by simp⟩
      · obtain ⟨added, e, hpw, _⟩ := walkLoop_sorted cm wf s1 count best _ _ fuel common _ st hst
        obtain ⟨added2, e2, hanc⟩ := walkLoop_ancestors cm s1 count best _ _ fuel common _ st hst
        have hsame : added2 = added := by
          rw [e] at e2
          exact (List.append_cancel_left e2).symm
        subst hsame
        refine ⟨added2, by rw [ho, e], hpw, fun p hp => ?_⟩
        exact ⟨{ state with pindexLastCommonBlock := lc }, best,
          by simp only [setLastCommonBlock]; exact mapFind_assign_self _ _ _, hbest, hanc p hp⟩

/-! ## The claim on the order of the appended blocks -/

/-- C21: on a well-formed block index, for every manager state, peer, count and
initial out vector, whenever FindNextBlocksToDownload returns, the blocks it
appended to the out vector appear in strictly increasing height, and each of
them is an ancestor-or-equal of the best_known_block that the peer has at the
return. The call does return when all branches of the index meet at one root,
the peer is registered, the active chain is not empty and the fuel is at least
the height of the peer's best block. -/
theorem findNext_ascending (W : Int) (cm : CChainManager) (fuel : Nat) (s : CRequestManager)
    (node : CNode) (count : Nat) (vBlocks : List Nat) (wf : WellFormed cm.index) :
    (∀ r : CRequestManager × List Nat,
      FindNextBlocksToDownload W cm fuel s node count vBlocks = some r →
      ∃ added : List Nat, r.2 = vBlocks ++ added ∧
        added.Pairwise (fun a b => (cm.index a).nHeight < (cm.index b).nHeight) ∧
        ∀ p ∈ added, ∃ state best, mapFind r.1.mapNodeState node.id = some state ∧
          state.pindexBestKnownBlock = some best ∧ IsAncestorOrEq cm.index p best) ∧
    ((∀ a b, ∃ g, IsAncestorOrEq cm.index g a ∧ IsAncestorOrEq cm.index g b) →
      cm.vChain ≠ [] →
      ∀ state0, mapFind s.mapNodeState node.id = some state0 →
      (∀ best, (processAvailability cm state0).pindexBestKnownBlock = some best →
        (cm.index best).nHeight ≤ (fuel : Int)) →
      ∃ r, FindNextBlocksToDownload W cm fuel s node count vBlocks = some r) :=
  ⟨fun r h => findNext_ascending_ancestors W cm wf fuel s node count vBlocks r h,
    fun hroot hchain state0 hs hfuel =>
      findNext_returns W cm fuel s node count vBlocks state0 wf hroot hs hchain hfuel⟩

/-- C21, witness: in `forkChain` the peer's best block is block 6 on the branch
`1 ← 4 ← 5 ← 6`, of which block 4 is stored: the call appends the blocks 5 and
6, of heights 3 and 4, both on the branch of block 6. On `lineChain 2` with the
window 3 and the best block 10 the call appends the blocks 3, 4, 5, and there
the hypotheses under which the call returns hold. -/
theorem findNext_ascending_witness :
    FindNextBlocksToDownload 10 forkChain 20 (onePeer 1 6 none) (peer 1) 64 [2]
        = some (onePeer 1 6 (some 4), [2, 5, 6]) ∧
      (∃ added : List Nat, (onePeer 1 6 (some 4), [2, 5, 6]).2 = [2] ++ added ∧
        added.Pairwise (fun a b => (forkChain.index a).nHeight < (forkChain.index b).nHeight) ∧
        ∀ p ∈ added, ∃ state best,
          mapFind (onePeer 1 6 (some 4), [2, 5, 6]).1.mapNodeState (peer 1).id = some state ∧
          state.pindexBestKnownBlock = some best ∧ IsAncestorOrEq forkChain.index p best) ∧
      FindNextBlocksToDownload 3 (lineChain 2) 20 (onePeer 1 10 none) (peer 1) 64 [9]
        = some (onePeer 1 10 (some 2), [9, 3, 4, 5]) ∧
      (∃ added : List Nat, (onePeer 1 10 (some 2), [9, 3, 4, 5]).2 = [9] ++ added ∧
        added.Pairwise
          (fun a b => ((lineChain 2).index a).nHeight < ((lineChain 2).index b).nHeight) ∧
        ∀ p ∈ added, ∃ state best,
          mapFind (onePeer 1 10 (some 2), [9, 3, 4, 5]).1.mapNodeState (peer 1).id
            = some state ∧
          state.pindexBestKnownBlock = some best ∧
          IsAncestorOrEq (lineChain 2).index p best) ∧
      ∃ r, FindNextBlocksToDownload 3 (lineChain 2) 20 (onePeer 1 10 none) (peer 1) 64 [9]
        = some r :=
  ⟨by decide,
    (findNext_ascending 10 forkChain 20 (onePeer 1 6 none) (peer 1) 64 [2] forkIndex_wellFormed).1
      (onePeer 1 6 (some 4), [2, 5, 6]) (by decide),
    by decide,
    (findNext_ascending 3 (lineChain 2) 20 (onePeer 1 10 none) (peer 1) 64 [9]
      (lineIndex_wellFormed 2)).1 (onePeer 1 10 (some 2), [9, 3, 4, 5]) (by decide),
    (findNext_ascending 3 (lineChain 2) 20 (onePeer 1 10 none) (peer 1) 64 [9]
      (lineIndex_wellFormed 2)).2
      (fun a b => ⟨0, lineIndex_ancestor 2 0 a (Nat.zero_le a), lineIndex_ancestor 2 0 b (Nat.zero_le b)⟩)
      (by decide)
      { CNodeState.init 0 0 with pindexBestKnownBlock := some 10 } (by decide)
      (fun best hb => by
        have : best = 10 := (Option.some.inj hb).symm
        subst this
        decide)⟩

/-! ## The iterations of the walk -/

theorem lcaLoop_anc (index : Nat → CBlockIndex) (fuel : Nat) :
    ∀ (pa pb : BlockPtr) (r : Nat), lcaLoop index fuel pa pb = some (some r) →
      ∃ n, walkBack index n pa = some r ∧ walkBack index n pb = some r := by
  induction fuel with
  | zero =>
    intro pa pb r h
    cases pa with
    | none => cases pb <;> simp [lcaLoop] at h
    | some a =>
      cases pb with
      | none => simp [lcaLoop] at h
      | some b =>
        simp only [lcaLoop] at h
        split_ifs at h with hab
        cases h
        exact ⟨0, rfl, by rw [hab]; rfl⟩
  | succ fuel ih =>
    intro pa pb r h
    cases pa with
    | none => cases pb <;> simp [lcaLoop] at h
    | some a =>
      cases pb with
      | none => simp [lcaLoop] at h
      | some b =>
        simp only [lcaLoop] at h
        split_ifs at h with hab
        · cases h
          exact ⟨0, rfl, by rw [hab]; rfl⟩
        · obtain ⟨n, h1, h2⟩ := ih _ _ r h
          exact ⟨n + 1, by rw [walkBack_succ]; exact h1, by rw [walkBack_succ]; exact h2⟩

/-- A block returned by `LastCommonAncestor` is an ancestor of both arguments. -/
theorem lastCommonAncestor_anc (index : Nat → CBlockIndex) (fuel : Nat) (pa pb r : Nat)
    (h : LastCommonAncestor index fuel pa pb = some (some r)) :
    IsAncestorOrEq index r pa ∧ IsAncestorOrEq index r pb := by
  have down : ∀ (x : Nat) (height : Int) (n : Nat),
      walkBack index n (GetAncestor index x height) = some r → IsAncestorOrEq index r x := by
    intro x height n hn
    cases hg : GetAncestor index x height with
    | none => rw [hg, walkBack_none] at hn; cases hn
    | some y =>
      rw [hg] at hn
      exact isAncestorOrEq_trans index ⟨n, hn⟩ (getAncestor_isAncestor index x height y hg)
  unfold LastCommonAncestor at h
  split_ifs at h
  · obtain ⟨n, h1, h2⟩ := lcaLoop_anc index fuel _ _ r h
    exact ⟨down pa _ n h1, ⟨n, h2⟩⟩
  · obtain ⟨n, h1, h2⟩ := lcaLoop_anc index fuel _ _ r h
    exact ⟨⟨n, h1⟩, down pb _ n h2⟩
  · obtain ⟨n, h1, h2⟩ := lcaLoop_anc index fuel _ _ r h
    exact ⟨⟨n, h1⟩, ⟨n, h2⟩⟩

/-- One iteration of the walk on a well-formed index, started at an ancestor of
the peer's best block below `nMaxHeight`: the number of blocks to fetch is in
range, the ancestor lookup and the backward fill succeed, and the iteration
either returns or goes on from a higher ancestor of the best block. -/
theorem walkLoop_iteration (cm : CChainManager) (wf : WellFormed cm.index) (s : CRequestManager)
    (count : Nat) (best : Nat) (nWindowEnd nMaxHeight : Int)
    (hmax : nMaxHeight ≤ (cm.index best).nHeight) (pindexWalk : Nat) (st : WalkState)
    (hw : IsAncestorOrEq cm.index pindexWalk best)
    (hlt : (cm.index pindexWalk).nHeight < nMaxHeight) :
    ∃ (nToFetch : Int) (w : Nat) (vToFetch : List Nat),
      min (nMaxHeight - (cm.index pindexWalk).nHeight) (fetchFloor count st.vBlocks.length)
        = nToFetch ∧
      1 ≤ nToFetch ∧ nToFetch ≤ nMaxHeight - (cm.index pindexWalk).nHeight ∧
      (cm.index pindexWalk).nHeight + nToFetch ≤ (cm.index best).nHeight ∧
      GetAncestor cm.index best ((cm.index pindexWalk).nHeight + nToFetch) = some w ∧
      (cm.index w).nHeight = (cm.index pindexWalk).nHeight + nToFetch ∧
      IsAncestorOrEq cm.index w best ∧
      backfill cm.index (nToFetch.toNat - 1) w [] = some vToFetch ∧
      (vToFetch.length : Int) = nToFetch ∧
      ∀ fuel : Nat,
        walkLoop cm s count best nWindowEnd nMaxHeight (fuel + 1) pindexWalk st =
          if (scanBatch cm s count nWindowEnd vToFetch st).1 = true then
            some (scanBatch cm s count nWindowEnd vToFetch st).2
          else walkLoop cm s count best nWindowEnd nMaxHeight fuel w
            (scanBatch cm s count nWindowEnd vToFetch st).2 := by
  have hfl := fetchFloor_ge count st.vBlocks.length
  obtain ⟨n, hn⟩ : ∃ n : Int,
      min (nMaxHeight - (cm.index pindexWalk).nHeight) (fetchFloor count st.vBlocks.length) = n :=
    ⟨_, rfl⟩
  have hn1 : 1 ≤ n := by rw [← hn]; exact le_min (by omega) (by omega)
  have hn2 : n ≤ nMaxHeight - (cm.index pindexWalk).nHeight := by
    rw [← hn]; exact min_le_left _ _
  obtain ⟨w', hw', hw'b, hww', hh⟩ :=
    getAncestor_of_anc cm.index wf hw ((cm.index pindexWalk).nHeight + n) (by omega) (by omega)
  have e1 := isAncestorOrEq_walkBack cm.index wf hww'
  have hsplit : ((cm.index w').nHeight - (cm.index pindexWalk).nHeight).toNat
      = (n.toNat - 1) + 1 := by omega
  rw [hsplit] at e1
  obtain ⟨x, hx1, _⟩ := walkBack_some_of_add cm.index _ _ _ _ e1
  obtain ⟨path, e, hlen, _⟩ := backfill_mem cm.index x (n.toNat - 1) w' [] hx1
  rw [List.append_nil] at e
  refine ⟨n, w', path, hn, hn1, hn2, by omega, hw', hh, hw'b, e, by omega, fun fuel => ?_⟩
  exact walkLoop_succ cm s count best nWindowEnd nMaxHeight fuel pindexWalk st n w' path hlt hn
    hw' e

/-! ## The claim on the totality of the walk -/

/-- C22: on a well-formed block index, with nMaxHeight not above the height of
the peer's best block, for every count, every walk state (whatever the length of
its out vector, also one longer than count) and every block pindexWalk that is
an ancestor-or-equal of the best block: an iteration entered with
pindexWalk.height < nMaxHeight has 1 <= nToFetch <= nMaxHeight -
pindexWalk.height, the ancestor lookup at height pindexWalk.height + nToFetch <=
best.height is non-null, its result is that much higher than pindexWalk and
again an ancestor-or-equal of the best block, the backward fill finds nToFetch
blocks, and the iteration returns or the loop goes on from the block found; the
loop returns within nMaxHeight - pindexWalk.height iterations (none when that is
negative), the fuel counting the iterations. The block at which
FindNextBlocksToDownload starts the walk, the result of LastCommonAncestor for
the best block, is an ancestor-or-equal of the best block, and the whole call
returns for every count and initial out vector when all branches of the index
meet at one root, the peer is registered, the active chain is not empty and the
fuel is at least the height of the peer's best block. -/
theorem walkLoop_iterations_total (cm : CChainManager) (s : CRequestManager) (count : Nat)
    (best : Nat) (nWindowEnd nMaxHeight : Int) (wf : WellFormed cm.index)
    (hmax : nMaxHeight ≤ (cm.index best).nHeight) :
    (∀ (pindexWalk : Nat) (st : WalkState), IsAncestorOrEq cm.index pindexWalk best →
      (cm.index pindexWalk).nHeight < nMaxHeight →
      ∃ (nToFetch : Int) (w : Nat) (vToFetch : List Nat),
        min (nMaxHeight - (cm.index pindexWalk).nHeight) (fetchFloor count st.vBlocks.length)
          = nToFetch ∧
        1 ≤ nToFetch ∧ nToFetch ≤ nMaxHeight - (cm.index pindexWalk).nHeight ∧
        (cm.index pindexWalk).nHeight + nToFetch ≤ (cm.index best).nHeight ∧
        GetAncestor cm.index best ((cm.index pindexWalk).nHeight + nToFetch) = some w ∧
        (cm.index w).nHeight = (cm.index pindexWalk).nHeight + nToFetch ∧
        IsAncestorOrEq cm.index w best ∧
        backfill cm.index (nToFetch.toNat - 1) w [] = some vToFetch ∧
        (vToFetch.length : Int) = nToFetch ∧
        ∀ fuel : Nat,
          walkLoop cm s count best nWindowEnd nMaxHeight (fuel + 1) pindexWalk st =
            if (scanBatch cm s count nWindowEnd vToFetch st).1 = true then
              some (scanBatch cm s count nWindowEnd vToFetch st).2
            else walkLoop cm s count best nWindowEnd nMaxHeight fuel w
              (scanBatch cm s count nWindowEnd vToFetch st).2) ∧
    (∀ (pindexWalk : Nat) (st : WalkState), IsAncestorOrEq cm.index pindexWalk best →
      ∃ st', walkLoop cm s count best nWindowEnd nMaxHeight
        (nMaxHeight - (cm.index pindexWalk).nHeight).toNat pindexWalk st = some st') ∧
    (∀ (fuel l common : Nat), LastCommonAncestor cm.index fuel l best = some (some common) →
      IsAncestorOrEq cm.index common best) ∧
    (∀ (W : Int) (fuel : Nat) (node : CNode) (vBlocks : List Nat) (state0 : CNodeState),
      (∀ a b, ∃ g, IsAncestorOrEq cm.index g a ∧ IsAncestorOrEq cm.index g b) →
      cm.vChain ≠ [] → mapFind s.mapNodeState node.id = some state0 →
      (∀ b, (processAvailability cm state0).pindexBestKnownBlock = some b →
        (cm.index b).nHeight ≤ (fuel : Int)) →
      ∃ r, FindNextBlocksToDownload W cm fuel s node count vBlocks = some r) := by
  refine ⟨fun w st hw hlt =>
      walkLoop_iteration cm wf s count best nWindowEnd nMaxHeight hmax w st hw hlt,
    fun w st hw => ?_, fun fuel l common h => (lastCommonAncestor_anc cm.index fuel l best common h).2,
    fun W fuel node vBlocks state0 hroot hchain hs hfuel =>
      findNext_returns W cm fuel s node count vBlocks state0 wf hroot hs hchain hfuel⟩
  obtain ⟨st', h, _⟩ := walkLoop_total cm wf s count best nWindowEnd nMaxHeight hmax
    (nMaxHeight - (cm.index w).nHeight).toNat w st hw (Int.self_le_toNat _)
  exact ⟨st', h⟩

/-- C22, witness: `lineChain 2` with the peer's best block 10, window end 5 and
nMaxHeight 6, count 1 and an out vector of two entries, so that count - size
wraps and the batch size is the floor 128 cut to nMaxHeight - 2 = 4. The
iteration entered at block 2 satisfies the bounds, the loop returns within 4
iterations with the blocks 3, 4, 5 appended, the walk of the whole call starts
at the ancestor 2 of block 10, and the whole call returns. -/
theorem walkLoop_iterations_total_witness :
    fetchFloor 1 longState.vBlocks.length = 128 ∧
    walkLoop (lineChain 2) (onePeer 1 10 none) 1 10 5 6 4 2 longState
      = some { pindexLastCommonBlock := some 2, vBlocks := [9, 9, 3, 4, 5] } ∧
    (∃ (nToFetch : Int) (w : Nat) (vToFetch : List Nat),
      min (6 - ((lineChain 2).index 2).nHeight) (fetchFloor 1 longState.vBlocks.length)
        = nToFetch ∧
      1 ≤ nToFetch ∧ nToFetch ≤ 6 - ((lineChain 2).index 2).nHeight ∧
      ((lineChain 2).index 2).nHeight + nToFetch ≤ ((lineChain 2).index 10).nHeight ∧
      GetAncestor (lineChain 2).index 10 (((lineChain 2).index 2).nHeight + nToFetch) = some w ∧
      ((lineChain 2).index w).nHeight = ((lineChain 2).index 2).nHeight + nToFetch ∧
      IsAncestorOrEq (lineChain 2).index w 10 ∧
      backfill (lineChain 2).index (nToFetch.toNat - 1) w [] = some vToFetch ∧
      (vToFetch.length : Int) = nToFetch ∧
      ∀ fuel : Nat,
        walkLoop (lineChain 2) (onePeer 1 10 none) 1 10 5 6 (fuel + 1) 2 longState =
          if (scanBatch (lineChain 2) (onePeer 1 10 none) 1 5 vToFetch longState).1 = true then
            some (scanBatch (lineChain 2) (onePeer 1 10 none) 1 5 vToFetch longState).2
          else walkLoop (lineChain 2) (onePeer 1 10 none) 1 10 5 6 fuel w
            (scanBatch (lineChain 2) (onePeer 1 10 none) 1 5 vToFetch longState).2) ∧
    (∃ st', walkLoop (lineChain 2) (onePeer 1 10 none) 1 10 5 6
      (6 - ((lineChain 2).index 2).nHeight).toNat 2 longState = some st') ∧
    LastCommonAncestor (lineChain 2).index 20 2 10 = some (some 2) ∧
    IsAncestorOrEq (lineChain 2).index 2 10 ∧
    ∃ r, FindNextBlocksToDownload 3 (lineChain 2) 20 (onePeer 1 10 none) (peer 1) 1 [9, 9]
      = some r :=
  ⟨by decide, by decide,
    (walkLoop_iterations_total (lineChain 2) (onePeer 1 10 none) 1 10 5 6 (lineIndex_wellFormed 2)
      (by decide)).1 2 longState (lineIndex_ancestor 2 2 10 (by decide)) (by decide),
    (walkLoop_iterations_total (lineChain 2) (onePeer 1 10 none) 1 10 5 6 (lineIndex_wellFormed 2)
      (by decide)).2.1 2 longState (lineIndex_ancestor 2 2 10 (by decide)),
    by decide,
    (walkLoop_iterations_total (lineChain 2) (onePeer 1 10 none) 1 10 5 6 (lineIndex_wellFormed 2)
      (by decide)).2.2.1 20 2 2 (by decide),
    (walkLoop_iterations_total (lineChain 2) (onePeer 1 10 none) 1 10 5 6 (lineIndex_wellFormed 2)
      (by decide)).2.2.2 3 20 (peer 1) [9, 9]
      { CNodeState.init 0 0 with pindexBestKnownBlock := some 10 }
      (fun a b => ⟨0, lineIndex_ancestor 2 0 a (Nat.zero_le a), lineIndex_ancestor 2 0 b (Nat.zero_le b)⟩)
      (by decide) (by decide)
      (fun best hb => by
        have : best = 10 := (Option.some.inj hb).symm
        subst this
        decide)⟩

end RequestManager
